import Mathlib

/-!
Verification of the Cretonne legalization pass (`src/lib/cretonne/src/legalizer.rs`).

The file shallowly embeds the data model and the operations of the pass:

* value types (`Ty`), ABI argument types (`ArgumentType`) and signatures;
* the ABI conversion-kind algebra (`ValueConversion`, `legalize_abi_value`);
* the data-flow graph (`DFG`), instructions and the function under legalization;
* the recursive ABI value converters `convert_from_abi` / `convert_to_abi`
  (structural form inserting instructions, and a value-semantic form
  `convert_to_abi_val` / `convert_from_abi_val` giving the bit-pattern
  semantics of the inserted conversion instructions);
* the call/return rewriter (`check_call_signature`, `legalize_inst_arguments`,
  `handle_call_abi`, `handle_return_abi`);
* the signature and entry-argument legalizers and the fixed-point driver
  loop of `legalize_function`, modelled as a fuel-indexed small-step walk.

Panics of the Rust source are modelled with `Except Panic`; the unbounded
driver loop is modelled with a fuel parameter, `RunResult.outOfFuel` standing
for a run that does not finish within the given fuel.
-/

namespace Legalizer

/-- Nat types of the IR (`ir::Type`): scalar integers, scalar floats, and
vectors of a lane type.  The `ir` crate is not part of the sources under
verification; modelled from the spec: a type has a bit width, integers can be
split in half widths, vectors in half lane counts. -/
inductive Ty where
  | int (bits : Nat)
  | float (bits : Nat)
  | vec (lane : Ty) (lanes : Nat)
deriving DecidableEq, Repr

/-- Total bit width of a type. -/
def Ty.bits : Ty → Nat
  | .int b => b
  | .float b => b
  | .vec lane lanes => lane.bits * lanes

/-- Scalar integer test (`Type::is_int`). -/
def Ty.is_int : Ty → Bool
  | .int _ => true
  | _ => false

/-- Vector test (`Type::is_vector`). -/
def Ty.is_vector : Ty → Bool
  | .vec _ _ => true
  | _ => false

/-- Half-width type (`Type::half_width`): an integer of at least 16 bits or a
64-bit float halves its bit width; a vector halves its lane width. -/
def Ty.half_width : Ty → Option Ty
  | .int b => if 16 ≤ b ∧ b % 2 = 0 then some (.int (b / 2)) else none
  | .float b => if b = 64 then some (.float 32) else none
  | .vec lane lanes => (lane.half_width).map (fun h => .vec h lanes)

/-- Half-vector type (`Type::half_vector`): halve the lane count. -/
def Ty.half_vector : Ty → Option Ty
  | .vec lane lanes => if 2 ≤ lanes ∧ lanes % 2 = 0 then some (.vec lane (lanes / 2)) else none
  | _ => none

/-- Scalar integer type of a given bit width (`Type::int`), defined for the
machine integer widths. -/
def Ty.int_of_bits (b : Nat) : Option Ty :=
  if b = 8 ∨ b = 16 ∨ b = 32 ∨ b = 64 then some (.int b) else none

/-- ABI extension requirement attached to an argument type. -/
inductive ArgumentExtension where
  | none
  | uext
  | sext
deriving DecidableEq, Repr

/-- An `ArgumentType`: a value type plus its ABI extension metadata. -/
structure ArgumentType where
  value_type : Ty
  extension : ArgumentExtension
deriving DecidableEq, Repr

/-- A signature: parameter and return `ArgumentType` sequences. -/
structure Signature where
  argument_types : List ArgumentType
  return_types : List ArgumentType
deriving DecidableEq, Repr

/-- The conversion-kind algebra relating a natural type to an ABI argument
type (`abi::ValueConversion`). -/
inductive ValueConversion where
  | IntSplit
  | VectorSplit
  | IntBits
  | Sext (abi_ty : Ty)
  | Uext (abi_ty : Ty)
deriving DecidableEq, Repr

/-- Modelled from the spec: `abi::legalize_abi_value` (the `abi` module is not
among the sources).  Comparing a natural type against a target ABI argument
type yields the conversion kind: fewer bits than the ABI argument means the
ABI carries a sign/zero extended version of the value; more bits mean the
value is split (vector halves for vectors, integer halves otherwise); equal
bit counts with a non-integer natural type and an integer ABI type mean a bit
reinterpretation.  A shape outside the algebra is a fatal internal error,
modelled by `none`. -/
def legalize_abi_value (have_ty : Ty) (arg : ArgumentType) : Option ValueConversion :=
  if have_ty.bits < arg.value_type.bits then
    match arg.extension with
    | .uext => some (.Uext arg.value_type)
    | .sext => some (.Sext arg.value_type)
    | .none => none
  else if arg.value_type.bits < have_ty.bits then
    some (if have_ty.is_vector then .VectorSplit else .IntSplit)
  else
    if !have_ty.is_int && arg.value_type.is_int then some .IntBits else none

/-- Fatal conditions of the pass.  Every Rust `panic!`/`expect`/failed index
of the source is modelled by one of these; `fuel` is a model artifact marking
exhaustion of the fuel given to a recursive conversion. -/
inductive Panic where
  | notacall
  | badSig
  | badConversion
  | underflow
  | vlistOob
  | abiOob
  | badValue
  | fuel
deriving DecidableEq, Repr

/-! ## Nat semantics of the conversion instructions

Values of a type `t` are bit patterns, represented as naturals `< 2 ^ t.bits`
with vector lanes laid out from the low bits.  These definitions give the
semantics of the instructions inserted by the converters: `isplit_lohi` /
`vsplit` take the low and high half of the pattern, `iconcat_lohi` / `vconcat`
concatenate two halves, `bitcast` preserves the pattern, `uextend` / `sextend`
zero/sign extend, and `ireduce` truncates. -/

/-- Zero extension of a bit pattern from a source width (`uextend`). -/
def uextVal (src : Nat) (v : Nat) : Nat := v % 2 ^ src

/-- Sign extension of a bit pattern from a source to a destination width
(`sextend`). -/
def sextVal (src dst : Nat) (v : Nat) : Nat :=
  if v % 2 ^ src < 2 ^ (src - 1) then v % 2 ^ src
  else v % 2 ^ src + (2 ^ dst - 2 ^ src)

/-- Truncation of a bit pattern to a destination width (`ireduce`). -/
def ireduceVal (dst : Nat) (v : Nat) : Nat := v % 2 ^ dst

/-- Concatenation of a low and a high half of `halfBits` bits each
(`iconcat_lohi` / `vconcat`). -/
def concatVal (halfBits lo hi : Nat) : Nat := lo + 2 ^ halfBits * hi

/-- Nat-semantic form of `convert_to_abi` (legalizer.rs:232-272), with the
`put_arg` closure of `legalize_inst_arguments` inlined: the next expected ABI
slot is `slots[next]?`; a candidate whose type equals the slot's value type
is accepted and recorded, otherwise the conversion kind for the slot's
`ArgumentType` is computed and the candidate is converted recursively.  The
instructions the source inserts are interpreted by their bit-pattern
semantics, so the result is the list of produced ABI values (with their
types), in order, and the next free slot. -/
def convert_to_abi_val (slots : List ArgumentType) :
    Nat → Ty → Nat → Nat → Except Panic (List (Ty × Nat) × Nat)
  | 0, _, _, _ => .error .fuel
  | fuel + 1, ty, v, next =>
    match slots[next]? with
    | none => .error .abiOob
    | some arg_type =>
      if ty = arg_type.value_type then
        .ok ([(ty, v)], next + 1)
      else
        match legalize_abi_value ty arg_type with
        | none => .error .badConversion
        | some .IntSplit =>
          match ty.half_width with
          | none => .error .badConversion
          | some half =>
            match convert_to_abi_val slots fuel half (v % 2 ^ half.bits) next with
            | .error p => .error p
            | .ok (l1, n1) =>
              match convert_to_abi_val slots fuel half (v / 2 ^ half.bits) n1 with
              | .error p => .error p
              | .ok (l2, n2) => .ok (l1 ++ l2, n2)
        | some .VectorSplit =>
          match ty.half_vector with
          | none => .error .badConversion
          | some half =>
            match convert_to_abi_val slots fuel half (v % 2 ^ half.bits) next with
            | .error p => .error p
            | .ok (l1, n1) =>
              match convert_to_abi_val slots fuel half (v / 2 ^ half.bits) n1 with
              | .error p => .error p
              | .ok (l2, n2) => .ok (l1 ++ l2, n2)
        | some .IntBits =>
          if ty.is_int then .error .badConversion
          else
            match Ty.int_of_bits ty.bits with
            | none => .error .badConversion
            | some abi_ty => convert_to_abi_val slots fuel abi_ty v next
        | some (.Sext abi_ty) =>
          convert_to_abi_val slots fuel abi_ty (sextVal ty.bits abi_ty.bits v) next
        | some (.Uext abi_ty) =>
          convert_to_abi_val slots fuel abi_ty (uextVal ty.bits v) next

/-- Nat-semantic form of `convert_from_abi` (legalizer.rs:165-219).  `vals`
are the materialized ABI values, consumed in the order the source appends new
entry-block parameters (`next` counts them); `abi_arg` is the cursor into the
ABI type list.  Faithful to the source, the base case does NOT advance
`abi_arg` (the source's `return dfg.append_ebb_arg(entry, ty)` never
increments `*abi_arg`).  The instructions the source inserts are interpreted
by their bit-pattern semantics.  Returns the reconstructed value, the final
cursor and the next parameter index. -/
def convert_from_abi_val (slots : List ArgumentType) (vals : List (Ty × Nat)) :
    Nat → Ty → Nat → Nat → Except Panic (Nat × Nat × Nat)
  | 0, _, _, _ => .error .fuel
  | fuel + 1, ty, abi_arg, next =>
    match slots[abi_arg]? with
    | none => .error .abiOob
    | some at0 =>
      if ty = at0.value_type then
        match vals[next]? with
        | none => .error .vlistOob
        | some (_, x) => .ok (x, abi_arg, next + 1)
      else
        match legalize_abi_value ty at0 with
        | none => .error .badConversion
        | some .IntSplit =>
          match ty.half_width with
          | none => .error .badConversion
          | some abi_ty =>
            match convert_from_abi_val slots vals fuel abi_ty abi_arg next with
            | .error p => .error p
            | .ok (lo, a1, n1) =>
              match convert_from_abi_val slots vals fuel abi_ty a1 n1 with
              | .error p => .error p
              | .ok (hi, a2, n2) => .ok (concatVal abi_ty.bits lo hi, a2, n2)
        | some .VectorSplit =>
          match ty.half_vector with
          | none => .error .badConversion
          | some abi_ty =>
            match convert_from_abi_val slots vals fuel abi_ty abi_arg next with
            | .error p => .error p
            | .ok (lo, a1, n1) =>
              match convert_from_abi_val slots vals fuel abi_ty a1 n1 with
              | .error p => .error p
              | .ok (hi, a2, n2) => .ok (concatVal abi_ty.bits lo hi, a2, n2)
        | some .IntBits =>
          if ty.is_int then .error .badConversion
          else
            match Ty.int_of_bits ty.bits with
            | none => .error .badConversion
            | some abi_ty =>
              match convert_from_abi_val slots vals fuel abi_ty abi_arg next with
              | .error p => .error p
              | .ok (x, a1, n1) => .ok (x, a1, n1)
        | some (.Sext abi_ty) =>
          match convert_from_abi_val slots vals fuel abi_ty abi_arg next with
          | .error p => .error p
          | .ok (x, a1, n1) => .ok (ireduceVal ty.bits x, a1, n1)
        | some (.Uext abi_ty) =>
          match convert_from_abi_val slots vals fuel abi_ty abi_arg next with
          | .error p => .error p
          | .ok (x, a1, n1) => .ok (ireduceVal ty.bits x, a1, n1)

/-! ## Instruction graph -/

/-- Opcodes, reduced to what the pass distinguishes: direct and indirect
calls carry their resolved signature handle (folding `ext_funcs[func]
.signature` of a direct call into the opcode), `ret` is the return
instruction, the conversion opcodes are those inserted by the converters, and
`other` stands for any remaining opcode. -/
inductive Opcode where
  | call (sig : Nat)
  | call_indirect (sig : Nat)
  | ret
  | isplit_lohi
  | vsplit
  | bitcast
  | sextend
  | uextend
  | ireduce
  | iconcat_lohi
  | vconcat
  | other (code : Nat)
deriving DecidableEq, Repr

/-- Call test (`Opcode::is_call`). -/
def Opcode.is_call : Opcode → Bool
  | .call _ => true
  | .call_indirect _ => true
  | _ => false

/-- Return test (`Opcode::is_return`). -/
def Opcode.is_return : Opcode → Bool
  | .ret => true
  | _ => false

/-- The resolved signature handle of a call (`analyze_call`). -/
def Opcode.sig_of : Opcode → Option Nat
  | .call s => some s
  | .call_indirect s => some s
  | _ => none

/-- Number of fixed value operands at the front of the value list
(`opcode.constraints().fixed_value_arguments()`): the callee of an indirect
call. -/
def Opcode.fixed_value_arguments : Opcode → Nat
  | .call_indirect _ => 1
  | _ => 0

/-- An instruction: opcode, value list (operands) and result values. -/
structure InstData where
  opcode : Opcode
  vlist : List Nat
  results : List Nat
deriving DecidableEq, Repr

/-- The data-flow graph: instruction table, value type table, the signature
table, the entry block's argument values, and the value-alias map (recording
`change_to_alias`, as alias pairs in creation order). -/
structure DFG where
  insts : List InstData
  value_types : List Ty
  signatures : List Signature
  ebb_args : List Nat
  aliases : List (Nat × Nat)
deriving DecidableEq, Repr

/-- Type of a value (`dfg.value_type`).  Looking up a value outside the table
yields a junk type; the well-formedness conditions below rule this out for
the functions the theorems quantify over. -/
def DFG.value_type (dfg : DFG) (v : Nat) : Ty :=
  (dfg.value_types[v]?).getD (.int 0)

/-- Append a new instruction with fresh result values of the given types;
returns the grown graph, the new instruction's identity and its result
values.  This models `dfg.ins(pos)...`, with the layout splice done by the
caller. -/
def DFG.make_inst (dfg : DFG) (op : Opcode) (args : List Nat) (rtys : List Ty) :
    DFG × Nat × List Nat :=
  let base := dfg.value_types.length
  let results := (List.range rtys.length).map (base + ·)
  ({ dfg with
      insts := dfg.insts ++ [⟨op, args, results⟩],
      value_types := dfg.value_types ++ rtys },
   dfg.insts.length, results)

/-- Append a new instruction with exactly one fresh result value of the
given type (the single-result instruction builders). -/
def DFG.make_inst1 (dfg : DFG) (op : Opcode) (args : List Nat) (rty : Ty) :
    DFG × Nat × Nat :=
  ({ dfg with
      insts := dfg.insts ++ [⟨op, args, [dfg.value_types.length]⟩],
      value_types := dfg.value_types ++ [rty] },
   dfg.insts.length, dfg.value_types.length)

/-- Append a new instruction with exactly two fresh result values of the
given types (the splitting instruction builders). -/
def DFG.make_inst2 (dfg : DFG) (op : Opcode) (args : List Nat) (rty1 rty2 : Ty) :
    DFG × Nat × Nat × Nat :=
  ({ dfg with
      insts := dfg.insts ++
        [⟨op, args, [dfg.value_types.length, dfg.value_types.length + 1]⟩],
      value_types := dfg.value_types ++ [rty1, rty2] },
   dfg.insts.length, dfg.value_types.length, dfg.value_types.length + 1)

/-- Check a sequence of argument values against a sequence of argument types
(legalizer.rs:275-293): walk the arguments, comparing each value's type with
the type at the same position, and finally require the lengths to agree. -/
def check_arg_types (dfg : DFG) : List Nat → List ArgumentType → Bool
  | [], types => types.isEmpty
  | _ :: _, [] => false
  | a :: args, t :: types =>
    decide (dfg.value_type a = t.value_type) && check_arg_types dfg args types

/-- The call arguments of a call instruction: the value list minus the fixed
prefix (`analyze_call` returns the full list for a direct call and the list
after the callee for an indirect call). -/
def callArgs (d : InstData) : List Nat :=
  d.vlist.drop d.opcode.fixed_value_arguments

/-- Check the arguments and results of a call against its signature
(legalizer.rs:299-316).  `ok none` means everything matches; `ok (some sr)`
means the call needs fixing against signature `sr`; a non-call or a dangling
signature handle panics. -/
def check_call_signature (dfg : DFG) (d : InstData) : Except Panic (Option Nat) :=
  match d.opcode.sig_of with
  | none => .error .notacall
  | some sr =>
    match dfg.signatures[sr]? with
    | none => .error .badSig
    | some sig =>
      if check_arg_types dfg (callArgs d) sig.argument_types &&
         check_arg_types dfg d.results sig.return_types then
        .ok none
      else
        .ok (some sr)

/-! ## Structural ABI value converters -/

/-- Structural form of `convert_from_abi` (legalizer.rs:165-219): reconstruct
a value of type `ty` from the ABI arguments beginning at `abi_arg`, appending
new entry-block parameters (`append_ebb_arg`) and inserting conversion
instructions.  Faithful to the source, the base case returns the fresh block
parameter WITHOUT advancing `abi_arg`.  Returns the grown graph, the computed
value, the cursor, and the inserted instructions in insertion order. -/
def convert_from_abi (abi_types : List ArgumentType) :
    Nat → DFG → Nat → Ty → Except Panic (DFG × Nat × Nat × List Nat)
  | 0, _, _, _ => .error .fuel
  | fuel + 1, dfg, abi_arg, ty =>
    match abi_types[abi_arg]? with
    | none => .error .abiOob
    | some at0 =>
      if ty = at0.value_type then
        let v := dfg.value_types.length
        .ok ({ dfg with
                value_types := dfg.value_types ++ [ty],
                ebb_args := dfg.ebb_args ++ [v] },
             v, abi_arg, [])
      else
        match legalize_abi_value ty at0 with
        | none => .error .badConversion
        | some .IntSplit =>
          match ty.half_width with
          | none => .error .badConversion
          | some abi_ty =>
            match convert_from_abi abi_types fuel dfg abi_arg abi_ty with
            | .error p => .error p
            | .ok (dfg1, lo, a1, l1) =>
              match convert_from_abi abi_types fuel dfg1 a1 abi_ty with
              | .error p => .error p
              | .ok (dfg2, hi, a2, l2) =>
                match dfg2.make_inst1 .iconcat_lohi [lo, hi] ty with
                | (dfg3, i3, r) => .ok (dfg3, r, a2, l1 ++ l2 ++ [i3])
        | some .VectorSplit =>
          match ty.half_vector with
          | none => .error .badConversion
          | some abi_ty =>
            match convert_from_abi abi_types fuel dfg abi_arg abi_ty with
            | .error p => .error p
            | .ok (dfg1, lo, a1, l1) =>
              match convert_from_abi abi_types fuel dfg1 a1 abi_ty with
              | .error p => .error p
              | .ok (dfg2, hi, a2, l2) =>
                match dfg2.make_inst1 .vconcat [lo, hi] ty with
                | (dfg3, i3, r) => .ok (dfg3, r, a2, l1 ++ l2 ++ [i3])
        | some .IntBits =>
          if ty.is_int then .error .badConversion
          else
            match Ty.int_of_bits ty.bits with
            | none => .error .badConversion
            | some abi_ty =>
              match convert_from_abi abi_types fuel dfg abi_arg abi_ty with
              | .error p => .error p
              | .ok (dfg1, arg, a1, l1) =>
                match dfg1.make_inst1 .bitcast [arg] ty with
                | (dfg2, i2, r) => .ok (dfg2, r, a1, l1 ++ [i2])
        | some (.Sext abi_ty) =>
          match convert_from_abi abi_types fuel dfg abi_arg abi_ty with
          | .error p => .error p
          | .ok (dfg1, arg, a1, l1) =>
            match dfg1.make_inst1 .ireduce [arg] ty with
            | (dfg2, i2, r) => .ok (dfg2, r, a1, l1 ++ [i2])
        | some (.Uext abi_ty) =>
          match convert_from_abi abi_types fuel dfg abi_arg abi_ty with
          | .error p => .error p
          | .ok (dfg1, arg, a1, l1) =>
            match dfg1.make_inst1 .ireduce [arg] ty with
            | (dfg2, i2, r) => .ok (dfg2, r, a1, l1 ++ [i2])

/-- Structural form of `convert_to_abi` (legalizer.rs:232-272), generic in
the `put_arg` closure state exactly as the source is generic in `PutArg`.
The closure may read the graph and mutate its own state; on acceptance it
returns no type, on rejection the `ArgumentType` the next slot requires.
Returns the grown graph, the inserted instructions in insertion order, and
the final closure state. -/
def convert_to_abi {σ : Type}
    (put_arg : DFG → σ → Nat → Except Panic (σ × Option ArgumentType)) :
    Nat → DFG → σ → Nat → Except Panic (DFG × List Nat × σ)
  | 0, _, _, _ => .error .fuel
  | fuel + 1, dfg, s, value =>
    match put_arg dfg s value with
    | .error p => .error p
    | .ok (s1, none) => .ok (dfg, [], s1)
    | .ok (s1, some arg_type) =>
      let ty := dfg.value_type value
      match legalize_abi_value ty arg_type with
      | none => .error .badConversion
      | some .IntSplit =>
        match ty.half_width with
        | none => .error .badConversion
        | some half =>
          match dfg.make_inst2 .isplit_lohi [value] half half with
          | (dfg1, i1, lo, hi) =>
            match convert_to_abi put_arg fuel dfg1 s1 lo with
            | .error p => .error p
            | .ok (dfg2, l2, s2) =>
              match convert_to_abi put_arg fuel dfg2 s2 hi with
              | .error p => .error p
              | .ok (dfg3, l3, s3) => .ok (dfg3, i1 :: (l2 ++ l3), s3)
      | some .VectorSplit =>
        match ty.half_vector with
        | none => .error .badConversion
        | some half =>
          match dfg.make_inst2 .vsplit [value] half half with
          | (dfg1, i1, lo, hi) =>
            match convert_to_abi put_arg fuel dfg1 s1 lo with
            | .error p => .error p
            | .ok (dfg2, l2, s2) =>
              match convert_to_abi put_arg fuel dfg2 s2 hi with
              | .error p => .error p
              | .ok (dfg3, l3, s3) => .ok (dfg3, i1 :: (l2 ++ l3), s3)
      | some .IntBits =>
        if ty.is_int then .error .badConversion
        else
          match Ty.int_of_bits ty.bits with
          | none => .error .badConversion
          | some abi_ty =>
            match dfg.make_inst1 .bitcast [value] abi_ty with
            | (dfg1, i1, arg) =>
              match convert_to_abi put_arg fuel dfg1 s1 arg with
              | .error p => .error p
              | .ok (dfg2, l2, s2) => .ok (dfg2, i1 :: l2, s2)
      | some (.Sext abi_ty) =>
        match dfg.make_inst1 .sextend [value] abi_ty with
        | (dfg1, i1, arg) =>
          match convert_to_abi put_arg fuel dfg1 s1 arg with
          | .error p => .error p
          | .ok (dfg2, l2, s2) => .ok (dfg2, i1 :: l2, s2)
      | some (.Uext abi_ty) =>
        match dfg.make_inst1 .uextend [value] abi_ty with
        | (dfg1, i1, arg) =>
          match convert_to_abi put_arg fuel dfg1 s1 arg with
          | .error p => .error p
          | .ok (dfg2, l2, s2) => .ok (dfg2, i1 :: l2, s2)

/-! ## Call and return argument rewriting -/

/-- The state captured by the `put_arg` closure of `legalize_inst_arguments`:
the lifted-out value list being rewritten and the ABI slot counter. -/
structure PutState where
  vlist : List Nat
  abi_arg : Nat
deriving DecidableEq, Repr

/-- The `put_arg` closure constructed by `legalize_inst_arguments`
(legalizer.rs:375-386): fetch the `ArgumentType` for the current ABI slot; if
the candidate's type matches, write it into the reserved slot at
`fixed_values + abi_arg` and advance the slot counter, otherwise report the
required type.  Indexing outside the ABI type list or the value list models
the source's panicking indexing. -/
def inst_put_arg (get_abi_type : Nat → Option ArgumentType) (fixed_values : Nat) :
    DFG → PutState → Nat → Except Panic (PutState × Option ArgumentType) :=
  fun dfg s arg =>
    match get_abi_type s.abi_arg with
    | none => .error .abiOob
    | some abi_type =>
      if dfg.value_type arg = abi_type.value_type then
        if fixed_values + s.abi_arg < s.vlist.length then
          .ok ({ vlist := s.vlist.set (fixed_values + s.abi_arg) arg,
                 abi_arg := s.abi_arg + 1 }, none)
        else
          .error .vlistOob
      else
        .ok (s, some abi_type)

/-- The conversion loop of `legalize_inst_arguments` (legalizer.rs:370-387):
for each original argument index, read the (shifted) old value from the value
list being rewritten and convert it to ABI form, accumulating the inserted
instructions. -/
def legalize_args_loop (get_abi_type : Nat → Option ArgumentType)
    (fixed_values old_arg_offset fuel : Nat) :
    List Nat → DFG → PutState → List Nat → Except Panic (DFG × PutState × List Nat)
  | [], dfg, s, acc => .ok (dfg, s, acc)
  | old_arg :: rest, dfg, s, acc =>
    match s.vlist[old_arg_offset + old_arg]? with
    | none => .error .vlistOob
    | some old_value =>
      match convert_to_abi (inst_put_arg get_abi_type fixed_values) fuel dfg s old_value with
      | .error p => .error p
      | .ok (dfg1, insts1, s1) =>
        legalize_args_loop get_abi_type fixed_values old_arg_offset fuel rest dfg1 s1
          (acc ++ insts1)

/-- Rewrite the argument portion of the value list of instruction `d` to
match `abi_args` ABI arguments (legalizer.rs:324-391).  The value list is
lifted out, grown at the boundary after the fixed prefix by
`abi_args - have_args` (a usize subtraction whose underflow is the
`underflow` panic), the original arguments are converted in place, and the
rewritten instruction is returned along with the grown graph and the
inserted instructions. -/
def legalize_inst_arguments (fuel : Nat) (dfg : DFG) (d : InstData) (abi_args : Nat)
    (get_abi_type : Nat → Option ArgumentType) :
    Except Panic (DFG × InstData × List Nat) :=
  let fixed_values := d.opcode.fixed_value_arguments
  if d.vlist.length < fixed_values then .error .underflow
  else
    let have_args := d.vlist.length - fixed_values
    if abi_args < have_args then .error .underflow
    else
      let delta := abi_args - have_args
      let vlist1 := d.vlist.take fixed_values ++ List.replicate delta 0 ++
        d.vlist.drop fixed_values
      let old_arg_offset := fixed_values + delta
      match legalize_args_loop get_abi_type fixed_values old_arg_offset fuel
          (List.range have_args) dfg ⟨vlist1, 0⟩ [] with
      | .error p => .error p
      | .ok (dfg1, s1, newInsts) => .ok (dfg1, { d with vlist := s1.vlist }, newInsts)

/-! ## The function being legalized -/

/-- The function under legalization: its own signature, the data-flow graph,
the block layout (blocks in layout order, each an ordered list of instruction
identities; the first block is the entry block), and the encoding table. -/
structure Func where
  signature : Signature
  dfg : DFG
  layout : List (List Nat)
  encodings : Nat → Option Nat

/-- Insert ABI conversion code for the call at position `cur` of block `b`
(legalizer.rs:403-423).  If the call's types already match its signature
nothing happens and `false` is returned; otherwise the arguments are
rewritten against the signature's parameter list, the conversion instructions
are spliced in before the call, and `true` is returned.  Return values are
not converted (the source's `TODO`). -/
def handle_call_abi (fuel : Nat) (func : Func) (b cur : Nat) : Except Panic (Func × Bool) :=
  match func.layout[b]? with
  | none => .error .badValue
  | some blk =>
    match blk[cur]? with
    | none => .error .badValue
    | some i =>
      match func.dfg.insts[i]? with
      | none => .error .badValue
      | some d =>
        match check_call_signature func.dfg d with
        | .error p => .error p
        | .ok none => .ok (func, false)
        | .ok (some sr) =>
          match func.dfg.signatures[sr]? with
          | none => .error .badSig
          | some sig =>
            let abi_args := sig.argument_types.length
            match legalize_inst_arguments fuel func.dfg d abi_args
                (fun k => sig.argument_types[k]?) with
            | .error p => .error p
            | .ok (dfg1, d1, newInsts) =>
              .ok ({ func with
                      dfg := { dfg1 with insts := dfg1.insts.set i d1 },
                      layout := func.layout.set b
                        (blk.take cur ++ newInsts ++ blk.drop cur) },
                   true)

/-- Insert ABI conversion code for the return at position `cur` of block `b`
(legalizer.rs:428-448), checking and rewriting against the function's own
return types. -/
def handle_return_abi (fuel : Nat) (func : Func) (b cur : Nat) : Except Panic (Func × Bool) :=
  match func.layout[b]? with
  | none => .error .badValue
  | some blk =>
    match blk[cur]? with
    | none => .error .badValue
    | some i =>
      match func.dfg.insts[i]? with
      | none => .error .badValue
      | some d =>
        let fixed_values := d.opcode.fixed_value_arguments
        if check_arg_types func.dfg (d.vlist.drop fixed_values)
            func.signature.return_types then
          .ok (func, false)
        else
          let abi_args := func.signature.return_types.length
          match legalize_inst_arguments fuel func.dfg d abi_args
              (fun k => func.signature.return_types[k]?) with
          | .error p => .error p
          | .ok (dfg1, d1, newInsts) =>
            .ok ({ func with
                    dfg := { dfg1 with insts := dfg1.insts.set i d1 },
                    layout := func.layout.set b
                      (blk.take cur ++ newInsts ++ blk.drop cur) },
                 true)

/-! ## Entry argument and signature legalization -/

/-- The walk of `legalize_entry_arguments` over the detached entry block
arguments (legalizer.rs:137-159): a parameter whose type matches the ABI type
at the cursor is reattached and the cursor advanced; otherwise the value is
recomputed from the ABI arguments via `convert_from_abi` and the old
parameter is made an alias of the recomputed value. -/
def entry_args_loop (abi_types : List ArgumentType) (fuel : Nat) :
    List Nat → DFG → Nat → List Nat → Except Panic (DFG × Nat × List Nat)
  | [], dfg, abi_arg, acc => .ok (dfg, abi_arg, acc)
  | arg :: rest, dfg, abi_arg, acc =>
    let arg_type := dfg.value_type arg
    match abi_types[abi_arg]? with
    | none => .error .abiOob
    | some at0 =>
      if arg_type = at0.value_type then
        entry_args_loop abi_types fuel rest
          { dfg with ebb_args := dfg.ebb_args ++ [arg] } (abi_arg + 1) acc
      else
        match convert_from_abi abi_types fuel dfg abi_arg arg_type with
        | .error p => .error p
        | .ok (dfg1, converted, abi_arg1, insts1) =>
          entry_args_loop abi_types fuel rest
            { dfg1 with aliases := dfg1.aliases ++ [(arg, converted)] } abi_arg1
            (acc ++ insts1)

/-- Legalize the entry block arguments against the already-legalized own
signature (legalizer.rs:122-160): detach the entry arguments, rebuild the
argument list one parameter at a time, and insert the conversion code at the
top of the entry block. -/
def legalize_entry_arguments (fuel : Nat) (func : Func) : Except Panic Func :=
  let abi_types := func.signature.argument_types
  let detached := func.dfg.ebb_args
  match entry_args_loop abi_types fuel detached { func.dfg with ebb_args := [] } 0 [] with
  | .error p => .error p
  | .ok (dfg1, _, newInsts) =>
    match func.layout with
    | [] => .ok { func with dfg := dfg1 }
    | blk :: rest => .ok { func with dfg := dfg1, layout := (newInsts ++ blk) :: rest }

/-! ## External collaborators and the driver -/

/-- The two legalization actions an encoder can demand. -/
inductive LegalizeAction where
  | expand
  | narrow
deriving DecidableEq, Repr

/-- A reference to a value from within a replacement sequence: either an
existing value or the `k`-th value freshly created by the sequence. -/
inductive VRef where
  | old (v : Nat)
  | fresh (k : Nat)
deriving DecidableEq, Repr

/-- One instruction of a replacement sequence produced by an expand/narrow
rewrite engine: opcode, operand references and the types of its fresh result
values. -/
structure NewInst where
  opcode : Opcode
  args : List VRef
  result_types : List Ty
deriving DecidableEq, Repr

/-- The target descriptor: the encoder query (a pure function of the
instruction and the types of its operands and results), the two rewrite
engines (`none` meaning the engine reports no change, `some` a replacement of
the current instruction by a sequence), and the ABI signature classifier. -/
structure Isa where
  encode : InstData → List Ty → List Ty → Except LegalizeAction Nat
  expand : InstData → List Ty → List Ty → Option (List NewInst)
  narrow : InstData → List Ty → List Ty → Option (List NewInst)
  legalize_signature : Signature → Signature

/-- The rewrite engine designated by a legalization action. -/
def Isa.engine (isa : Isa) : LegalizeAction → InstData → List Ty → List Ty → Option (List NewInst)
  | .expand => isa.expand
  | .narrow => isa.narrow

/-- Types of an instruction's operands. -/
def instArgTys (dfg : DFG) (d : InstData) : List Ty :=
  d.vlist.map dfg.value_type

/-- Types of an instruction's results. -/
def instResTys (dfg : DFG) (d : InstData) : List Ty :=
  d.results.map dfg.value_type

/-- Materialize a replacement sequence: append each instruction to the graph
with sequentially minted fresh result values (`fresh k` resolving to the
`k`-th value minted for the sequence. `base` is the value table length at the
start).  Returns the grown graph and the new instruction identities in
order. -/
def materialize_loop (base : Nat) : List NewInst → DFG → DFG × List Nat
  | [], dfg => (dfg, [])
  | ni :: rest, dfg =>
    let args := ni.args.map (fun r => match r with | .old v => v | .fresh k => base + k)
    match dfg.make_inst ni.opcode args ni.result_types with
    | (dfg1, i1, _) =>
      match materialize_loop base rest dfg1 with
      | (dfg2, ids) => (dfg2, i1 :: ids)

/-- Apply a rewrite engine's replacement at position `cur` of block `b`: the
current instruction is replaced in the layout by the materialized new
sequence. -/
def replace_inst (func : Func) (b cur : Nat) (blk : List Nat) (repl : List NewInst) : Func :=
  match materialize_loop func.dfg.value_types.length repl func.dfg with
  | (dfg1, ids) =>
    { func with
        dfg := dfg1,
        layout := func.layout.set b (blk.take cur ++ ids ++ blk.drop (cur + 1)) }

/-- Record an encoding for instruction `i`. -/
def set_encoding (func : Func) (i : Nat) (enc : Nat) : Func :=
  { func with encodings := fun j => if j = i then some enc else func.encodings j }

/-- The ABI boundary step of the driver (legalizer.rs:43-53): a call is
handed to `handle_call_abi`, a return to `handle_return_abi`, anything else
falls through unchanged. -/
def abi_boundary (fuel : Nat) (func : Func) (b cur : Nat) (d : InstData) :
    Except Panic (Func × Bool) :=
  if d.opcode.is_call then handle_call_abi fuel func b cur
  else if d.opcode.is_return then handle_return_abi fuel func b cur
  else .ok (func, false)

/-- Result of a driver run: normal completion, a fatal panic, or fuel
exhaustion (standing for a run that does not finish). -/
inductive RunResult where
  | ok (f : Func)
  | panic (p : Panic)
  | outOfFuel

/-- The driver loop of `legalize_function` (legalizer.rs:33-89), walking the
blocks in layout order and each block's instructions with a cursor, one
instruction per fuel unit.  The saved `prev_pos` of the source is always the
start position of the instruction being examined, so re-visiting after a
change means continuing at the same index, which now holds the first inserted
instruction; advancing means moving to the next index.  An instruction with a
legal encoding is recorded in the encoding table; an illegal one is handed to
the designated rewrite engine, and if the engine reports no change the driver
moves on (leaving the instruction unencoded). -/
def run (isa : Isa) : Nat → Func → Nat → Nat → RunResult
  | 0, _, _, _ => .outOfFuel
  | fuel + 1, func, b, cur =>
    match func.layout[b]? with
    | none => .ok func
    | some blk =>
      match blk[cur]? with
      | none => run isa fuel func (b + 1) 0
      | some i =>
        match func.dfg.insts[i]? with
        | none => .panic .badValue
        | some d =>
          match abi_boundary (fuel + 1) func b cur d with
          | .error p => .panic p
          | .ok (func1, true) => run isa fuel func1 b cur
          | .ok (_, false) =>
            match isa.encode d (instArgTys func.dfg d) (instResTys func.dfg d) with
            | .ok enc => run isa fuel (set_encoding func i enc) b (cur + 1)
            | .error action =>
              match isa.engine action d (instArgTys func.dfg d) (instResTys func.dfg d) with
              | none => run isa fuel func b (cur + 1)
              | some repl => run isa fuel (replace_inst func b cur blk repl) b cur

/-- Legalize all signatures (legalizer.rs:103-112): the function's own
signature and every signature in the table are handed to the classifier,
then the entry block arguments are legalized when an entry block exists. -/
def legalize_signatures (fuel : Nat) (isa : Isa) (func : Func) : Except Panic Func :=
  let func1 := { func with
                  signature := isa.legalize_signature func.signature,
                  dfg := { func.dfg with
                            signatures := func.dfg.signatures.map isa.legalize_signature } }
  match func1.layout[0]? with
  | none => .ok func1
  | some _ => legalize_entry_arguments fuel func1

/-- The complete pass (legalizer.rs:28-90): legalize the signatures, reset
the encoding table to the resized empty table, and run the driver from the
first block. -/
def legalize_function (isa : Isa) (fuel : Nat) (func : Func) : RunResult :=
  match legalize_signatures fuel isa func with
  | .error p => .panic p
  | .ok func1 => run isa fuel { func1 with encodings := fun _ => none } 0 0

/-! ## Projections for evaluating runs at concrete inputs -/

/-- Did the run abort with a panic? -/
def RunResult.isAbort : RunResult → Bool
  | .panic _ => true
  | _ => false

/-- Did the run complete normally? -/
def RunResult.isOk : RunResult → Bool
  | .ok _ => true
  | _ => false

/-- The final layout of a completed run. -/
def runLayout : RunResult → List (List Nat)
  | .ok f => f.layout
  | _ => []

/-- The encoding recorded for an instruction by a completed run. -/
def runEnc : RunResult → Nat → Option Nat
  | .ok f, i => f.encodings i
  | _, _ => none

/-- An empty data-flow graph to build concrete instances from. -/
def emptyDfg : DFG :=
  { insts := [], value_types := [], signatures := [], ebb_args := [], aliases := [] }

/-- A target whose encoder rejects everything demanding expansion while both
rewrite engines always report no change. -/
def isaNoChange : Isa :=
  { encode := fun _ _ _ => .error .expand,
    expand := fun _ _ _ => none,
    narrow := fun _ _ _ => none,
    legalize_signature := fun s => s }

/-- A function holding a single non-call instruction. -/
def funcSingle : Func :=
  { signature := ⟨[], []⟩,
    dfg := { emptyDfg with insts := [⟨.other 0, [], []⟩] },
    layout := [[0]],
    encodings := fun _ => none }

/-- Probe for the base case of `convert_from_abi`: desired type `i32` with
ABI type list `[i32]` and cursor `0`; reports the returned value, the
returned cursor and how many entry block arguments were materialized. -/
def fromAbiBaseProbe : Option (Nat × Nat × Nat) :=
  match convert_from_abi [⟨.int 32, .none⟩] 3 emptyDfg 0 (.int 32) with
  | .ok (dfg1, v, a1, _) => some (v, a1, dfg1.ebb_args.length)
  | .error _ => none

/-- A function whose legalized signature takes `(i32, i32, f64)` where the
entry block still has the two original parameters of types `(i64, f64)` (an
`i64` split into two `i32` halves by the ABI, the `f64` passed directly). -/
def funcEntry : Func :=
  { signature := ⟨[⟨.int 32, .none⟩, ⟨.int 32, .none⟩, ⟨.float 64, .none⟩], []⟩,
    dfg := { emptyDfg with value_types := [.int 64, .float 64], ebb_args := [0, 1] },
    layout := [[]],
    encodings := fun _ => none }

/-- Probe for `legalize_entry_arguments` on `funcEntry`: the types of the
rebuilt entry block arguments and their number. -/
def entryArgsProbe : Option (List Ty × Nat) :=
  match legalize_entry_arguments 9 funcEntry with
  | .ok f1 => some (f1.dfg.ebb_args.map f1.dfg.value_type, f1.dfg.ebb_args.length)
  | .error _ => none

/-- A function holding a single call whose argument and result types already
match its signature. -/
def funcCallOk : Func :=
  { signature := ⟨[], []⟩,
    dfg := { emptyDfg with
              insts := [⟨.call 0, [0], []⟩],
              value_types := [.int 32],
              signatures := [⟨[⟨.int 32, .none⟩], []⟩] },
    layout := [[0]],
    encodings := fun _ => none }

/-- Growth-only relation between data-flow graphs: the instruction and value
tables may only be extended at the end, and the signature table, entry
arguments and aliases are untouched.  This is what every conversion step of
the call/return rewriter does to the graph. -/
structure DfgExt (dfg dfg' : DFG) : Prop where
  insts_ext : ∃ ext, dfg'.insts = dfg.insts ++ ext
  value_types_ext : ∃ ext, dfg'.value_types = dfg.value_types ++ ext
  signatures_eq : dfg'.signatures = dfg.signatures
  ebb_args_eq : dfg'.ebb_args = dfg.ebb_args
  aliases_eq : dfg'.aliases = dfg.aliases

/-- A function holding a single call whose `i64` argument must be split to
match its signature's two `i32` parameters; the call has one `i32` result
that already matches. -/
def funcCallFix : Func :=
  { signature := ⟨[], []⟩,
    dfg := { emptyDfg with
              insts := [⟨.call 0, [0], [1]⟩],
              value_types := [.int 64, .int 32],
              signatures := [⟨[⟨.int 32, .none⟩, ⟨.int 32, .none⟩], [⟨.int 32, .none⟩]⟩] },
    layout := [[0]],
    encodings := fun _ => none }

/-- The result of rewriting `funcCallFix`'s call. -/
def hcFixResult : Func × Bool :=
  ((handle_call_abi 9 funcCallFix 0 0).toOption).getD (funcCallFix, false)

/-- A function holding a single call whose argument types match its
signature but whose result type does not: the argument is `i32` against an
`i32` parameter, the result is `i64` against an `i32` return type. -/
def funcCallBadResult : Func :=
  { signature := ⟨[], []⟩,
    dfg := { emptyDfg with
              insts := [⟨.call 0, [0], [1]⟩],
              value_types := [.int 32, .int 64],
              signatures := [⟨[⟨.int 32, .none⟩], [⟨.int 32, .none⟩]⟩] },
    layout := [[0]],
    encodings := fun _ => none }

/-- A target that encodes every instruction (with encoding `7`) and whose
rewrite engines never fire. -/
def isaAllOk : Isa :=
  { encode := fun _ _ _ => .ok 7,
    expand := fun _ _ _ => none,
    narrow := fun _ _ _ => none,
    legalize_signature := fun s => s }

/-- A well-formed function holding one value and one non-call instruction
referencing it, for exercising the complete pass. -/
def funcW : Func :=
  { signature := ⟨[], []⟩,
    dfg := { emptyDfg with
              insts := [⟨.other 0, [0], []⟩],
              value_types := [.int 32] },
    layout := [[0]],
    encodings := fun _ => none }

/-- The per-instruction postcondition established by the driver when it
advances past an instruction: a call or return type-checks against its
signature, and the encoder's verdict is reflected in the encoding table — a
legal instruction has its encoding recorded, an illegal one is one whose
designated rewrite engine reports no change. -/
def InstGood (isa : Isa) (f : Func) (i : Nat) : Prop :=
  ∃ d, f.dfg.insts[i]? = some d ∧
    (d.opcode.is_call = true → check_call_signature f.dfg d = .ok none) ∧
    (d.opcode.is_return = true →
      check_arg_types f.dfg (d.vlist.drop d.opcode.fixed_value_arguments)
        f.signature.return_types = true) ∧
    (match isa.encode d (instArgTys f.dfg d) (instResTys f.dfg d) with
     | .ok enc => f.encodings i = some enc
     | .error a => isa.engine a d (instArgTys f.dfg d) (instResTys f.dfg d) = none ∧
         f.encodings i = none)

/-- The instruction identity `j` occupies a layout position strictly before
the cursor `(b, cur)`. -/
def DoneId (layout : List (List Nat)) (b cur j : Nat) : Prop :=
  ∃ b2 blk2 idx2, (b2 < b ∨ (b2 = b ∧ idx2 < cur)) ∧
    layout[b2]? = some blk2 ∧ blk2[idx2]? = some j

/-- Well-formedness of a function under legalization: every instruction's
operands and results name existing values, the layout names existing
instructions, no instruction occupies two layout positions, and at least one
value exists (the filler value `0` used by `grow_at`). -/
structure FuncWF (f : Func) : Prop where
  vals : ∀ d ∈ f.dfg.insts, (∀ v ∈ d.vlist, v < f.dfg.value_types.length) ∧
    (∀ v ∈ d.results, v < f.dfg.value_types.length)
  layout_bound : ∀ blk ∈ f.layout, ∀ i ∈ blk, i < f.dfg.insts.length
  nodup : f.layout.flatten.Nodup
  vpos : 0 < f.dfg.value_types.length

/-- The driver's walk invariant: every instruction at a position strictly
before the cursor (earlier block, or same block and earlier index) satisfies
`P`. -/
def DonePrefix (P : Nat → Prop) (layout : List (List Nat)) (b cur : Nat) : Prop :=
  (∀ b2 blk, b2 < b → layout[b2]? = some blk → ∀ i ∈ blk, P i) ∧
  (∀ blk, layout[b]? = some blk → ∀ idx i, idx < cur → blk[idx]? = some i → P i)

/-- Interface discipline of a rewrite engine: a replacement sequence may
reference only operands or results of the replaced instruction among existing
values, and only actually-minted fresh values. -/
def EngineFnWF (eng : InstData → List Ty → List Ty → Option (List NewInst)) : Prop :=
  ∀ d a r res, eng d a r = some res →
    ∀ ni ∈ res,
      (∀ v, VRef.old v ∈ ni.args → v ∈ d.vlist ∨ v ∈ d.results) ∧
      (∀ k, VRef.fresh k ∈ ni.args →
        k < (res.map (fun x => x.result_types.length)).sum)

/-- Interface discipline of both rewrite engines of a target. -/
structure IsaWF (isa : Isa) : Prop where
  expandWF : EngineFnWF isa.expand
  narrowWF : EngineFnWF isa.narrow

/-- Instruction well-formedness (all referenced values exist) bundled for
the well-formedness inductions. -/
def InstRefsLt (dn : InstData) (n : Nat) : Prop :=
  (∀ v ∈ dn.vlist, v < n) ∧ (∀ v ∈ dn.results, v < n)

/-! # Theorems -/

/-- Graph extension is reflexive. -/
theorem DfgExt.refl (dfg : DFG) : DfgExt dfg dfg :=
  ⟨⟨[], by simp⟩, ⟨[], by simp⟩, rfl, rfl, rfl⟩

/-- Graph extension is transitive. -/
theorem DfgExt.trans {a b c : DFG} (h1 : DfgExt a b) (h2 : DfgExt b c) : DfgExt a c := by
  obtain ⟨⟨e1, he1⟩, ⟨f1, hf1⟩, hs1, hb1, ha1⟩ := h1
  obtain ⟨⟨e2, he2⟩, ⟨f2, hf2⟩, hs2, hb2, ha2⟩ := h2
  exact ⟨⟨e1 ++ e2, by rw [he2, he1, List.append_assoc]⟩,
    ⟨f1 ++ f2, by rw [hf2, hf1, List.append_assoc]⟩,
    by rw [hs2, hs1], by rw [hb2, hb1], by rw [ha2, ha1]⟩

/-- Bound a successful index lookup by the list length. -/
theorem lt_of_getElem?_eq_some {α : Type} {l : List α} {i : Nat} {a : α}
    (h : l[i]? = some a) : i < l.length := by
  by_contra hge
  rw [List.getElem?_eq_none (Nat.le_of_not_lt hge)] at h
  exact Option.noConfusion h

/-- Old instruction entries survive a graph extension. -/
theorem DfgExt.insts_get {a b : DFG} (h : DfgExt a b) {i : Nat} {d : InstData}
    (hd : a.insts[i]? = some d) : b.insts[i]? = some d := by
  obtain ⟨e, he⟩ := h.insts_ext
  rw [he, List.getElem?_append_left (lt_of_getElem?_eq_some hd)]
  exact hd

/-- Old value type entries survive a graph extension. -/
theorem DfgExt.value_types_get {a b : DFG} (h : DfgExt a b) {v : Nat}
    (hv : v < a.value_types.length) : b.value_types[v]? = a.value_types[v]? := by
  obtain ⟨e, he⟩ := h.value_types_ext
  rw [he, List.getElem?_append_left hv]

/-- The type of an existing value survives a graph extension. -/
theorem DfgExt.value_type_eq {a b : DFG} (h : DfgExt a b) {v : Nat}
    (hv : v < a.value_types.length) : b.value_type v = a.value_type v := by
  unfold DFG.value_type
  rw [h.value_types_get hv]


/-- The result of checking matching arguments: `check_arg_types` holds
exactly when the argument type sequence equals the expected value type
sequence (element-wise and in length). -/
theorem check_arg_types_iff (dfg : DFG) (args : List Nat) (types : List ArgumentType) :
    check_arg_types dfg args types = true ↔
      args.map dfg.value_type = types.map (·.value_type) := by
  induction args generalizing types with
  | nil =>
    cases types <;> simp [check_arg_types]
  | cons a args ih =>
    cases types with
    | nil => simp [check_arg_types]
    | cons t types => simp [check_arg_types, ih]

/-- C2 (amended behaviour): when the encoder reports an instruction illegal
and the designated rewrite engine reports no change, the driver does not
abort: it continues with the next instruction of the block, leaving the
function (and hence the instruction's missing encoding) unchanged. -/
theorem run_nochange_advances (isa : Isa) (fuel : Nat) (func : Func) (b cur : Nat)
    (blk : List Nat) (i : Nat) (d : InstData) (a : LegalizeAction)
    (hb : func.layout[b]? = some blk) (hc : blk[cur]? = some i)
    (hd : func.dfg.insts[i]? = some d)
    (hcall : d.opcode.is_call = false) (hret : d.opcode.is_return = false)
    (henc : isa.encode d (instArgTys func.dfg d) (instResTys func.dfg d) = .error a)
    (heng : isa.engine a d (instArgTys func.dfg d) (instResTys func.dfg d) = none) :
    run isa (fuel + 1) func b cur = run isa fuel func b (cur + 1) := by
  conv_lhs => rw [run]
  simp [hb, hc, hd, abi_boundary, hcall, hret, henc, heng]

/-- Witness for `run_nochange_advances` at the concrete no-change target. -/
theorem run_nochange_advances_witness :
    run isaNoChange 3 funcSingle 0 0 = run isaNoChange 2 funcSingle 0 1 :=
  run_nochange_advances isaNoChange 2 funcSingle 0 0 [0] 0 ⟨.other 0, [], []⟩ .expand
    rfl rfl rfl rfl rfl rfl rfl

/-- C2 (counterexample): at a concrete function whose only instruction the
encoder rejects while the expand engine reports no change, the pass does not
abort: it completes normally and leaves the instruction without an encoding
table entry. -/
theorem run_nochange_no_abort :
    (legalize_function isaNoChange 4 funcSingle).isAbort = false ∧
      (legalize_function isaNoChange 4 funcSingle).isOk = true ∧
      runEnc (legalize_function isaNoChange 4 funcSingle) 0 = none := by
  refine ⟨rfl, rfl, rfl⟩

/-- C1 (counterexample): after `legalize_function` completes on the concrete
no-change target, instruction `0` is still present in the final block layout
but has no encoding table entry. -/
theorem encodings_not_total :
    (legalize_function isaNoChange 4 funcSingle).isOk = true ∧
      runLayout (legalize_function isaNoChange 4 funcSingle) = [[0]] ∧
      runEnc (legalize_function isaNoChange 4 funcSingle) 0 = none := by
  refine ⟨rfl, rfl, rfl⟩

/-- C3: the base case of `convert_from_abi` with desired type equal to the
ABI type at the cursor materializes exactly one new entry block parameter and
returns it, but does NOT advance the ABI cursor: with cursor `0` over the ABI
list `[i32]` and desired type `i32`, the returned cursor is still `0` (the
claim, and the source's own doc comment, require it to become `1`). -/
theorem convert_from_abi_base_keeps_cursor : fromAbiBaseProbe = some (0, 0, 1) := by
  rfl

/-- C5: at a function whose legalized signature takes `(i32, i32, f64)` with
original entry parameters `(i64, f64)`, entry argument legalization rebuilds
the entry block with FOUR parameters of types `(i32, i32, i32, i32)`: because
`convert_from_abi` never advances the ABI cursor, the `f64` parameter is
checked against slot `0` (`i32`) instead of slot `2` (`f64`) and is wrongly
split, so the rebuilt parameter list does not match the signature's parameter
list. -/
theorem entry_args_mismatch :
    entryArgsProbe = some ([.int 32, .int 32, .int 32, .int 32], 4) ∧
      funcEntry.signature.argument_types.map (·.value_type) =
        [.int 32, .int 32, .float 64] := by
  refine ⟨rfl, rfl⟩

/-- C6: a call whose argument types, result types and operand count already
match its resolved signature is left untouched by the call rewriter: the
function is returned identical and the rewriter reports `false`. -/
theorem handle_call_abi_noop (fuel : Nat) (func : Func) (b cur : Nat)
    (blk : List Nat) (i : Nat) (d : InstData) (sr : Nat) (sig : Signature)
    (hb : func.layout[b]? = some blk) (hc : blk[cur]? = some i)
    (hd : func.dfg.insts[i]? = some d)
    (hsr : d.opcode.sig_of = some sr)
    (hsig : func.dfg.signatures[sr]? = some sig)
    (hargs : check_arg_types func.dfg (callArgs d) sig.argument_types = true)
    (hres : check_arg_types func.dfg d.results sig.return_types = true) :
    handle_call_abi fuel func b cur = .ok (func, false) := by
  unfold handle_call_abi
  simp only [hb, hc, hd]
  unfold check_call_signature
  simp [hsr, hsig, hargs, hres]

/-- Witness for `handle_call_abi_noop` at a concrete matching call. -/
theorem handle_call_abi_noop_witness :
    handle_call_abi 5 funcCallOk 0 0 = .ok (funcCallOk, false) :=
  handle_call_abi_noop 5 funcCallOk 0 0 [0] 0 ⟨.call 0, [0], []⟩ 0
    ⟨[⟨.int 32, .none⟩], []⟩ rfl rfl rfl rfl rfl rfl rfl

/-! ## Round trip of the ABI value conversion -/

/-- Halving a type via `half_width` halves its bit count. -/
theorem half_width_bits {ty h : Ty} (hw : ty.half_width = some h) : ty.bits = 2 * h.bits := by
  induction ty generalizing h with
  | int b =>
    by_cases hc : 16 ≤ b ∧ b % 2 = 0
    · simp only [Ty.half_width, if_pos hc, Option.some_inj] at hw
      subst hw
      simp only [Ty.bits]
      omega
    · simp [Ty.half_width, hc] at hw
  | float b =>
    by_cases hc : b = 64
    · subst hc
      simp only [Ty.half_width, if_true, Option.some_inj] at hw
      simp [← hw, Ty.bits]
    · simp [Ty.half_width, hc] at hw
  | vec lane lanes ih =>
    simp only [Ty.half_width, Option.map_eq_some'] at hw
    obtain ⟨hl, hhl, rfl⟩ := hw
    simp only [Ty.bits, ih hhl]
    ring

/-- Halving a type via `half_vector` halves its bit count. -/
theorem half_vector_bits {ty h : Ty} (hw : ty.half_vector = some h) : ty.bits = 2 * h.bits := by
  cases ty with
  | int b => simp [Ty.half_vector] at hw
  | float b => simp [Ty.half_vector] at hw
  | vec lane lanes =>
    by_cases hc : 2 ≤ lanes ∧ lanes % 2 = 0
    · simp only [Ty.half_vector, if_pos hc, Option.some_inj] at hw
      subst hw
      simp only [Ty.bits]
      have h2 : lanes = 2 * (lanes / 2) := by omega
      conv_lhs => rw [h2]
      ring
    · simp [Ty.half_vector, hc] at hw

/-- `int_of_bits` produces the scalar integer of exactly the requested
width. -/
theorem int_of_bits_eq {b : Nat} {t : Ty} (h : Ty.int_of_bits b = some t) : t = .int b := by
  unfold Ty.int_of_bits at h
  split at h
  · exact (Option.some_inj.mp h).symm
  · exact Option.noConfusion h

/-- A sign-extension conversion kind targets the ABI type of the slot, which
is strictly wider. -/
theorem legalize_sext {ty : Ty} {a : ArgumentType} {t : Ty}
    (h : legalize_abi_value ty a = some (.Sext t)) :
    t = a.value_type ∧ ty.bits < t.bits := by
  unfold legalize_abi_value at h
  by_cases h1 : ty.bits < a.value_type.bits
  · rw [if_pos h1] at h
    cases hx : a.extension <;> rw [hx] at h <;> simp at h
    exact ⟨h.symm, h ▸ h1⟩
  · rw [if_neg h1] at h
    by_cases h2 : a.value_type.bits < ty.bits
    · rw [if_pos h2] at h
      cases hv : ty.is_vector <;> simp [hv] at h
    · rw [if_neg h2] at h
      split at h <;> simp at h

/-- A zero-extension conversion kind targets the ABI type of the slot, which
is strictly wider. -/
theorem legalize_uext {ty : Ty} {a : ArgumentType} {t : Ty}
    (h : legalize_abi_value ty a = some (.Uext t)) :
    t = a.value_type ∧ ty.bits < t.bits := by
  unfold legalize_abi_value at h
  by_cases h1 : ty.bits < a.value_type.bits
  · rw [if_pos h1] at h
    cases hx : a.extension <;> rw [hx] at h <;> simp at h
    exact ⟨h.symm, h ▸ h1⟩
  · rw [if_neg h1] at h
    by_cases h2 : a.value_type.bits < ty.bits
    · rw [if_pos h2] at h
      cases hv : ty.is_vector <;> simp [hv] at h
    · rw [if_neg h2] at h
      split at h <;> simp at h

/-- Sign extension stays within the destination width. -/
theorem sextVal_lt {src dst v : Nat} (hsd : src ≤ dst) : sextVal src dst v < 2 ^ dst := by
  have hm : v % 2 ^ src < 2 ^ src := Nat.mod_lt _ (pow_pos (by norm_num) src)
  have hle : 2 ^ src ≤ 2 ^ dst := Nat.pow_le_pow_right (by norm_num) hsd
  unfold sextVal
  split
  · omega
  · omega

/-- Truncating a sign-extended value back to the source width recovers the
original value. -/
theorem sextVal_mod {src dst v : Nat} (hsd : src ≤ dst) (hv : v < 2 ^ src) :
    sextVal src dst v % 2 ^ src = v := by
  unfold sextVal
  rw [Nat.mod_eq_of_lt hv]
  split
  · exact Nat.mod_eq_of_lt hv
  · have hdvd : 2 ^ src ∣ (2 ^ dst - 2 ^ src) :=
      Nat.dvd_sub' (pow_dvd_pow 2 hsd) dvd_rfl
    obtain ⟨c, hc⟩ := hdvd
    rw [hc, Nat.add_mul_mod_self_left]
    exact Nat.mod_eq_of_lt hv

/-- The high half of a value of a doubled width fits in the half width. -/
theorem div_half_lt {v hb tb : Nat} (htb : tb = 2 * hb) (hv : v < 2 ^ tb) :
    v / 2 ^ hb < 2 ^ hb := by
  rw [Nat.div_lt_iff_lt_mul (pow_pos (by norm_num) hb)]
  have hmul : (2 : Nat) ^ hb * 2 ^ hb = 2 ^ tb := by
    rw [← pow_add]
    congr 1
    omega
  omega

/-- Round trip of the ABI value conversion over a uniform run of ABI slots:
whatever `convert_to_abi_val` produces from a value `v`, starting the
reconstruction `convert_from_abi_val` at slot cursor `0` on the produced
values (embedded at position `pre.length` of the materialized parameter list)
recovers exactly `v`, leaving the (never-advanced) cursor at `0`. -/
theorem to_from_aux (s : ArgumentType) (k : Nat) :
    ∀ fuel ty v next vals n1 pre suf,
      convert_to_abi_val (List.replicate k s) fuel ty v next = .ok (vals, n1) →
      v < 2 ^ ty.bits →
      convert_from_abi_val (List.replicate k s) (pre ++ (vals ++ suf)) fuel ty 0 pre.length =
        .ok (v, 0, pre.length + vals.length) := by
  intro fuel
  induction fuel with
  | zero =>
    intro ty v next vals n1 pre suf hto _
    simp [convert_to_abi_val] at hto
  | succ fuel ih =>
    intro ty v next vals n1 pre suf hto hv
    rw [convert_to_abi_val] at hto
    cases hslot : (List.replicate k s)[next]? with
    | none =>
      simp [hslot] at hto
    | some arg_type =>
      have hnk : next < k := by
        by_contra hk
        have hnone : (List.replicate k s)[next]? = none :=
          List.getElem?_eq_none (by simpa using Nat.le_of_not_lt hk)
        rw [hnone] at hslot
        exact Option.noConfusion hslot
      have hse : s = arg_type := by
        rw [List.getElem?_replicate_of_lt hnk] at hslot
        exact Option.some_inj.mp hslot
      subst hse
      have hk0 : (List.replicate k s)[0]? = some s :=
        List.getElem?_replicate_of_lt (by omega)
      simp only [hslot] at hto
      by_cases hty : ty = s.value_type
      · rw [if_pos hty] at hto
        simp only [Except.ok.injEq, Prod.mk.injEq] at hto
        obtain ⟨h1, _⟩ := hto
        subst h1
        rw [convert_from_abi_val]
        simp only [hk0]
        rw [if_pos hty]
        have hidx : (pre ++ ([(ty, v)] ++ suf))[pre.length]? = some (ty, v) := by
          rw [List.getElem?_append_right (Nat.le_refl pre.length)]
          simp
        simp only [hidx]
        simp
      · rw [if_neg hty] at hto
        cases hconv : legalize_abi_value ty s with
        | none =>
          simp [hconv] at hto
        | some conv =>
          cases conv with
          | IntSplit =>
            simp only [hconv] at hto
            cases hhalf : ty.half_width with
            | none =>
              simp [hhalf] at hto
            | some half =>
              simp only [hhalf] at hto
              cases hr1 : convert_to_abi_val (List.replicate k s) fuel half
                  (v % 2 ^ half.bits) next with
              | error p =>
                simp [hr1] at hto
              | ok pr1 =>
                obtain ⟨l1, m1⟩ := pr1
                simp only [hr1] at hto
                cases hr2 : convert_to_abi_val (List.replicate k s) fuel half
                    (v / 2 ^ half.bits) m1 with
                | error p =>
                  simp [hr2] at hto
                | ok pr2 =>
                  obtain ⟨l2, m2⟩ := pr2
                  simp only [hr2] at hto
                  simp only [Except.ok.injEq, Prod.mk.injEq] at hto
                  obtain ⟨h1, _⟩ := hto
                  subst h1
                  have hbits := half_width_bits hhalf
                  have hlo : v % 2 ^ half.bits < 2 ^ half.bits :=
                    Nat.mod_lt _ (pow_pos (by norm_num) _)
                  have hhi : v / 2 ^ half.bits < 2 ^ half.bits := div_half_lt hbits hv
                  have ih1 := ih half (v % 2 ^ half.bits) next l1 m1 pre (l2 ++ suf) hr1 hlo
                  have ih2 := ih half (v / 2 ^ half.bits) m1 l2 m2 (pre ++ l1) suf hr2 hhi
                  rw [List.append_assoc, List.length_append] at ih2
                  rw [convert_from_abi_val]
                  simp only [hk0]
                  rw [if_neg hty]
                  simp only [hconv, hhalf]
                  rw [List.append_assoc l1 l2 suf]
                  simp only [ih1, ih2]
                  simp only [Except.ok.injEq, Prod.mk.injEq, concatVal]
                  refine ⟨Nat.mod_add_div v (2 ^ half.bits), trivial, ?_⟩
                  simp only [List.length_append]
                  omega
          | VectorSplit =>
            simp only [hconv] at hto
            cases hhalf : ty.half_vector with
            | none =>
              simp [hhalf] at hto
            | some half =>
              simp only [hhalf] at hto
              cases hr1 : convert_to_abi_val (List.replicate k s) fuel half
                  (v % 2 ^ half.bits) next with
              | error p =>
                simp [hr1] at hto
              | ok pr1 =>
                obtain ⟨l1, m1⟩ := pr1
                simp only [hr1] at hto
                cases hr2 : convert_to_abi_val (List.replicate k s) fuel half
                    (v / 2 ^ half.bits) m1 with
                | error p =>
                  simp [hr2] at hto
                | ok pr2 =>
                  obtain ⟨l2, m2⟩ := pr2
                  simp only [hr2] at hto
                  simp only [Except.ok.injEq, Prod.mk.injEq] at hto
                  obtain ⟨h1, _⟩ := hto
                  subst h1
                  have hbits := half_vector_bits hhalf
                  have hlo : v % 2 ^ half.bits < 2 ^ half.bits :=
                    Nat.mod_lt _ (pow_pos (by norm_num) _)
                  have hhi : v / 2 ^ half.bits < 2 ^ half.bits := div_half_lt hbits hv
                  have ih1 := ih half (v % 2 ^ half.bits) next l1 m1 pre (l2 ++ suf) hr1 hlo
                  have ih2 := ih half (v / 2 ^ half.bits) m1 l2 m2 (pre ++ l1) suf hr2 hhi
                  rw [List.append_assoc, List.length_append] at ih2
                  rw [convert_from_abi_val]
                  simp only [hk0]
                  rw [if_neg hty]
                  simp only [hconv, hhalf]
                  rw [List.append_assoc l1 l2 suf]
                  simp only [ih1, ih2]
                  simp only [Except.ok.injEq, Prod.mk.injEq, concatVal]
                  refine ⟨Nat.mod_add_div v (2 ^ half.bits), trivial, ?_⟩
                  simp only [List.length_append]
                  omega
          | IntBits =>
            simp only [hconv] at hto
            by_cases hint : ty.is_int = true
            · simp [hint] at hto
            · have hni : ¬ (ty.is_int = true) := hint
              rw [if_neg hni] at hto
              cases hofb : Ty.int_of_bits ty.bits with
              | none =>
                simp [hofb] at hto
              | some abi_ty =>
                simp only [hofb] at hto
                have habi : abi_ty = .int ty.bits := int_of_bits_eq hofb
                have habits : abi_ty.bits = ty.bits := by rw [habi]; rfl
                have ihx := ih abi_ty v next vals n1 pre suf hto (by rw [habits]; exact hv)
                rw [convert_from_abi_val]
                simp only [hk0]
                rw [if_neg hty]
                simp only [hconv]
                rw [if_neg hni]
                simp only [hofb, ihx]
          | Sext abi_ty =>
            simp only [hconv] at hto
            obtain ⟨habi, hlt⟩ := legalize_sext hconv
            have hle : ty.bits ≤ abi_ty.bits := Nat.le_of_lt hlt
            have hsx : sextVal ty.bits abi_ty.bits v < 2 ^ abi_ty.bits := sextVal_lt hle
            have ihx := ih abi_ty (sextVal ty.bits abi_ty.bits v) next vals n1 pre suf hto hsx
            rw [convert_from_abi_val]
            simp only [hk0]
            rw [if_neg hty]
            simp only [hconv, ihx]
            simp only [ireduceVal, Except.ok.injEq, Prod.mk.injEq]
            simp [sextVal_mod hle hv]
          | Uext abi_ty =>
            simp only [hconv] at hto
            obtain ⟨habi, hlt⟩ := legalize_uext hconv
            have hle : (2 : Nat) ^ ty.bits ≤ 2 ^ abi_ty.bits :=
              Nat.pow_le_pow_right (by norm_num) (Nat.le_of_lt hlt)
            have hux : uextVal ty.bits v < 2 ^ abi_ty.bits := by
              have huv : uextVal ty.bits v = v := Nat.mod_eq_of_lt hv
              omega
            have ihx := ih abi_ty (uextVal ty.bits v) next vals n1 pre suf hto hux
            rw [convert_from_abi_val]
            simp only [hk0]
            rw [if_neg hty]
            simp only [hconv, ihx]
            simp only [ireduceVal, uextVal, Except.ok.injEq, Prod.mk.injEq]
            simp [Nat.mod_eq_of_lt hv]

/-- C8 (amended): composing `convert_to_abi` with `convert_from_abi` over
the produced ABI entries reconstructs a value with the same bit pattern
whenever the slot classification is uniform — every consumed slot carries
the same `ArgumentType`, so the stationary cursor of `convert_from_abi` is
harmless.  This covers the IntSplit, VectorSplit and IntBits kinds exactly,
and the Sext/Uext kinds for values of the narrower type (every
`v < 2 ^ ty.bits`).  The claim's unrestricted form, over every
classification through these kinds, is refuted at a non-uniform slot list
by `abi_roundtrip_fails_nonuniform`, a further consequence of the cursor
bug of C3. -/
theorem abi_roundtrip (s : ArgumentType) (k fuel : Nat) (ty : Ty) (v : Nat)
    (vals : List (Ty × Nat)) (n1 : Nat)
    (hto : convert_to_abi_val (List.replicate k s) fuel ty v 0 = .ok (vals, n1))
    (hv : v < 2 ^ ty.bits) :
    convert_from_abi_val (List.replicate k s) vals fuel ty 0 0 = .ok (v, 0, vals.length) := by
  have h := to_from_aux s k fuel ty v 0 vals n1 [] [] hto hv
  simpa using h

/-- Appending a single-result instruction only extends the graph. -/
theorem make_inst1_ext (dfg : DFG) (op : Opcode) (args : List Nat) (rty : Ty) :
    DfgExt dfg (dfg.make_inst1 op args rty).1 :=
  ⟨⟨_, rfl⟩, ⟨_, rfl⟩, rfl, rfl, rfl⟩

/-- Appending a two-result instruction only extends the graph. -/
theorem make_inst2_ext (dfg : DFG) (op : Opcode) (args : List Nat) (rty1 rty2 : Ty) :
    DfgExt dfg (dfg.make_inst2 op args rty1 rty2).1 :=
  ⟨⟨_, rfl⟩, ⟨_, rfl⟩, rfl, rfl, rfl⟩

/-- Each step of the structural `convert_to_abi` only extends the graph:
instructions and values are appended, nothing else is touched (the `put_arg`
closure can only mutate its own state). -/
theorem convert_to_abi_ext {σ : Type}
    (put_arg : DFG → σ → Nat → Except Panic (σ × Option ArgumentType)) :
    ∀ fuel dfg s value dfg' l s',
      convert_to_abi put_arg fuel dfg s value = .ok (dfg', l, s') →
      DfgExt dfg dfg' := by
  intro fuel
  induction fuel with
  | zero =>
    intro dfg s value dfg' l s' h
    simp [convert_to_abi] at h
  | succ fuel ih =>
    intro dfg s value dfg' l s' h
    rw [convert_to_abi] at h
    split at h
    · exact Except.noConfusion h
    · simp only [Except.ok.injEq, Prod.mk.injEq] at h
      obtain ⟨h1, -, -⟩ := h
      subst h1
      exact DfgExt.refl _
    · rename_i s1 arg_type _
      dsimp only at h
      split at h
      · exact Except.noConfusion h
      · -- IntSplit
        split at h
        · exact Except.noConfusion h
        case _ half hhw =>
          split at h
          · exact Except.noConfusion h
          case _ dfg2 l2 s2 hr1 =>
            split at h
            · exact Except.noConfusion h
            case _ dfg3 l3 s3 hr2 =>
              simp only [Except.ok.injEq, Prod.mk.injEq] at h
              obtain ⟨h1, -, -⟩ := h
              subst h1
              exact ((make_inst2_ext dfg .isplit_lohi [value] half half).trans
                (ih _ _ _ _ _ _ hr1)).trans (ih _ _ _ _ _ _ hr2)
      · -- VectorSplit
        split at h
        · exact Except.noConfusion h
        case _ half hhw =>
          split at h
          · exact Except.noConfusion h
          case _ dfg2 l2 s2 hr1 =>
            split at h
            · exact Except.noConfusion h
            case _ dfg3 l3 s3 hr2 =>
              simp only [Except.ok.injEq, Prod.mk.injEq] at h
              obtain ⟨h1, -, -⟩ := h
              subst h1
              exact ((make_inst2_ext dfg .vsplit [value] half half).trans
                (ih _ _ _ _ _ _ hr1)).trans (ih _ _ _ _ _ _ hr2)
      · -- IntBits
        split at h
        · exact Except.noConfusion h
        split at h
        · exact Except.noConfusion h
        case _ abi_ty hofb =>
          split at h
          · exact Except.noConfusion h
          case _ dfg2 l2 s2 hr1 =>
            simp only [Except.ok.injEq, Prod.mk.injEq] at h
            obtain ⟨h1, -, -⟩ := h
            subst h1
            exact (make_inst1_ext dfg .bitcast [value] abi_ty).trans (ih _ _ _ _ _ _ hr1)
      · -- Sext
        rename_i abi_ty hcv
        split at h
        · exact Except.noConfusion h
        case _ dfg2 l2 s2 hr1 =>
          simp only [Except.ok.injEq, Prod.mk.injEq] at h
          obtain ⟨h1, -, -⟩ := h
          subst h1
          exact (make_inst1_ext dfg .sextend [value] abi_ty).trans (ih _ _ _ _ _ _ hr1)
      · -- Uext
        rename_i abi_ty hcv
        split at h
        · exact Except.noConfusion h
        case _ dfg2 l2 s2 hr1 =>
          simp only [Except.ok.injEq, Prod.mk.injEq] at h
          obtain ⟨h1, -, -⟩ := h
          subst h1
          exact (make_inst1_ext dfg .uextend [value] abi_ty).trans (ih _ _ _ _ _ _ hr1)

/-- The conversion loop of `legalize_inst_arguments` only extends the
graph. -/
theorem legalize_args_loop_ext (g : Nat → Option ArgumentType) (fx off fuel : Nat) :
    ∀ idxs dfg s acc dfg' s' acc',
      legalize_args_loop g fx off fuel idxs dfg s acc = .ok (dfg', s', acc') →
      DfgExt dfg dfg' := by
  intro idxs
  induction idxs with
  | nil =>
    intro dfg s acc dfg' s' acc' h
    simp only [legalize_args_loop, Except.ok.injEq, Prod.mk.injEq] at h
    obtain ⟨h1, -, -⟩ := h
    subst h1
    exact DfgExt.refl _
  | cons a rest ih =>
    intro dfg s acc dfg' s' acc' h
    rw [legalize_args_loop] at h
    split at h
    · exact Except.noConfusion h
    case _ old_value hov =>
      split at h
      · exact Except.noConfusion h
      case _ dfg1 insts1 s1 hcv =>
        exact (convert_to_abi_ext _ _ _ _ _ _ _ _ hcv).trans (ih _ _ _ _ _ _ h)

/-- `legalize_inst_arguments` only extends the graph and only rewrites the
value list of the instruction: opcode and result values are preserved. -/
theorem legalize_inst_arguments_ext (fuel : Nat) (dfg : DFG) (d : InstData) (abi_args : Nat)
    (g : Nat → Option ArgumentType) (dfg' : DFG) (d' : InstData) (li : List Nat)
    (h : legalize_inst_arguments fuel dfg d abi_args g = .ok (dfg', d', li)) :
    DfgExt dfg dfg' ∧ d'.opcode = d.opcode ∧ d'.results = d.results := by
  unfold legalize_inst_arguments at h
  dsimp only at h
  split at h
  · exact Except.noConfusion h
  split at h
  · exact Except.noConfusion h
  split at h
  · exact Except.noConfusion h
  case _ dfg1 s1 newInsts hloop =>
    simp only [Except.ok.injEq, Prod.mk.injEq] at h
    obtain ⟨h1, h2, -⟩ := h
    subst h1
    refine ⟨legalize_args_loop_ext _ _ _ _ _ _ _ _ _ _ _ hloop, ?_, ?_⟩ <;> rw [← h2]

/-- C7: `handle_call_abi` rewrites only the argument portion of a call: the
call's result values are left completely unchanged, and the types of all
pre-existing values (in particular the call's result types) are preserved —
no return-value conversion is performed. -/
theorem handle_call_abi_only_args (fuel : Nat) (func f1 : Func) (b cur : Nat)
    (blk : List Nat) (i : Nat) (d : InstData)
    (hb : func.layout[b]? = some blk) (hc : blk[cur]? = some i)
    (hd : func.dfg.insts[i]? = some d)
    (hres : ∀ v ∈ d.results, v < func.dfg.value_types.length)
    (hok : handle_call_abi fuel func b cur = .ok (f1, true)) :
    ∃ d1, f1.dfg.insts[i]? = some d1 ∧ d1.results = d.results ∧
      instResTys f1.dfg d1 = instResTys func.dfg d := by
  unfold handle_call_abi at hok
  simp only [hb, hc, hd] at hok
  split at hok
  · exact Except.noConfusion hok
  · simp at hok
  case _ sr hchk =>
    split at hok
    · exact Except.noConfusion hok
    case _ sig hsig =>
      split at hok
      · exact Except.noConfusion hok
      case _ dfg1 d1 newInsts hlia =>
        obtain ⟨hext, hop, hrs⟩ := legalize_inst_arguments_ext _ _ _ _ _ _ _ _ hlia
        simp only [Except.ok.injEq, Prod.mk.injEq] at hok
        obtain ⟨h1, -⟩ := hok
        have hilt : i < dfg1.insts.length := by
          obtain ⟨e, he⟩ := hext.insts_ext
          have h0 := lt_of_getElem?_eq_some hd
          have hlen : dfg1.insts.length = func.dfg.insts.length + e.length := by
            rw [he, List.length_append]
          exact lt_of_lt_of_le h0 (by rw [hlen]; exact Nat.le_add_right _ _)
        refine ⟨d1, ?_, hrs, ?_⟩
        · rw [← h1]
          exact List.getElem?_set_self hilt
        · unfold instResTys
          rw [hrs, ← h1]
          apply List.map_congr_left
          intro v hv
          exact hext.value_type_eq (hres v hv)

/-- Witness for `handle_call_abi_only_args` at a concrete call whose `i64`
argument is split into two `i32` halves while its `i32` result stays put. -/
theorem handle_call_abi_only_args_witness :
    handle_call_abi 9 funcCallFix 0 0 = .ok (hcFixResult.1, true) ∧
      ∃ d1, hcFixResult.1.dfg.insts[0]? = some d1 ∧
        d1.results = (⟨.call 0, [0], [1]⟩ : InstData).results ∧
        instResTys hcFixResult.1.dfg d1 = instResTys funcCallFix.dfg ⟨.call 0, [0], [1]⟩ :=
  ⟨rfl, handle_call_abi_only_args 9 funcCallFix hcFixResult.1 0 0 [0] 0 ⟨.call 0, [0], [1]⟩
    rfl rfl rfl (by decide) rfl⟩

/-- Under the grown-list invariant (the lifted value list has length
`fixed_values + abi_args`) and with an ABI type supplier defined only below
`abi_args`, a conversion never fails the value-list bound check of the
`put_arg` closure, and it preserves the invariant. -/
theorem convert_to_abi_put_state (g : Nat → Option ArgumentType) (fx abi_args : Nat)
    (hg : ∀ j t, g j = some t → j < abi_args) :
    ∀ fuel dfg s value r,
      convert_to_abi (inst_put_arg g fx) fuel dfg s value = r →
      s.vlist.length = fx + abi_args →
      r ≠ .error .vlistOob ∧
        (∀ dfg' l s', r = .ok (dfg', l, s') → s'.vlist.length = fx + abi_args) := by
  have hput : ∀ dfg s value pr, inst_put_arg g fx dfg s value = pr →
      s.vlist.length = fx + abi_args →
      pr ≠ .error .vlistOob ∧
        (∀ s' oty, pr = .ok (s', oty) → s'.vlist.length = fx + abi_args) := by
    intro dfg s value pr hpr hlen
    unfold inst_put_arg at hpr
    split at hpr
    · subst hpr
      exact ⟨by simp, by simp⟩
    case _ abi_type hgt =>
      have hj : s.abi_arg < abi_args := hg _ _ hgt
      split at hpr
      · rw [if_pos (by omega)] at hpr
        subst hpr
        constructor
        · simp
        · intro s' oty h
          simp only [Except.ok.injEq, Prod.mk.injEq] at h
          obtain ⟨h1, -⟩ := h
          rw [← h1]
          simp [hlen]
      · subst hpr
        exact ⟨by simp, by
          intro s' oty h
          simp only [Except.ok.injEq, Prod.mk.injEq] at h
          obtain ⟨h1, -⟩ := h
          rw [← h1]
          exact hlen⟩
  intro fuel
  induction fuel with
  | zero =>
    intro dfg s value r h hlen
    rw [convert_to_abi] at h
    subst h
    exact ⟨by simp, by simp⟩
  | succ fuel ih =>
    intro dfg s value r h hlen
    rw [convert_to_abi] at h
    split at h
    case _ p hp =>
      subst h
      have hp' : p ≠ Panic.vlistOob := fun hpv =>
        (hput _ _ _ _ hp hlen).1 (by rw [← hpv])
      exact ⟨fun hcon => hp' (Except.error.inj hcon), by simp⟩
    case _ s1 hp =>
      subst h
      refine ⟨by simp, ?_⟩
      intro dfg' l s' h
      simp only [Except.ok.injEq, Prod.mk.injEq] at h
      obtain ⟨-, -, h3⟩ := h
      rw [← h3]
      exact (hput _ _ _ _ hp hlen).2 _ _ rfl
    case _ s1 arg_type hp =>
      have hs1 : s1.vlist.length = fx + abi_args := (hput _ _ _ _ hp hlen).2 _ _ rfl
      dsimp only at h
      split at h
      · subst h
        exact ⟨by simp, by simp⟩
      · -- IntSplit
        split at h
        · subst h
          exact ⟨by simp, by simp⟩
        case _ half hhw =>
          split at h
          case _ p hr1 =>
            subst h
            have := ih _ _ _ _ hr1 hs1
            exact ⟨this.1, by simp⟩
          case _ dfg2 l2 s2 hr1 =>
            have hs2 : s2.vlist.length = fx + abi_args :=
              (ih _ _ _ _ hr1 hs1).2 _ _ _ rfl
            split at h
            case _ p hr2 =>
              subst h
              have := ih _ _ _ _ hr2 hs2
              exact ⟨this.1, by simp⟩
            case _ dfg3 l3 s3 hr2 =>
              subst h
              have hs3 : s3.vlist.length = fx + abi_args :=
                (ih _ _ _ _ hr2 hs2).2 _ _ _ rfl
              refine ⟨by simp, ?_⟩
              intro dfg' l s' h
              simp only [Except.ok.injEq, Prod.mk.injEq] at h
              obtain ⟨-, -, h3⟩ := h
              rw [← h3]
              exact hs3
      · -- VectorSplit
        split at h
        · subst h
          exact ⟨by simp, by simp⟩
        case _ half hhw =>
          split at h
          case _ p hr1 =>
            subst h
            have := ih _ _ _ _ hr1 hs1
            exact ⟨this.1, by simp⟩
          case _ dfg2 l2 s2 hr1 =>
            have hs2 : s2.vlist.length = fx + abi_args :=
              (ih _ _ _ _ hr1 hs1).2 _ _ _ rfl
            split at h
            case _ p hr2 =>
              subst h
              have := ih _ _ _ _ hr2 hs2
              exact ⟨this.1, by simp⟩
            case _ dfg3 l3 s3 hr2 =>
              subst h
              have hs3 : s3.vlist.length = fx + abi_args :=
                (ih _ _ _ _ hr2 hs2).2 _ _ _ rfl
              refine ⟨by simp, ?_⟩
              intro dfg' l s' h
              simp only [Except.ok.injEq, Prod.mk.injEq] at h
              obtain ⟨-, -, h3⟩ := h
              rw [← h3]
              exact hs3
      · -- IntBits
        split at h
        · subst h
          exact ⟨by simp, by simp⟩
        split at h
        · subst h
          exact ⟨by simp, by simp⟩
        case _ abi_ty hofb =>
          split at h
          case _ p hr1 =>
            subst h
            have := ih _ _ _ _ hr1 hs1
            exact ⟨this.1, by simp⟩
          case _ dfg2 l2 s2 hr1 =>
            subst h
            have hs2 : s2.vlist.length = fx + abi_args :=
              (ih _ _ _ _ hr1 hs1).2 _ _ _ rfl
            refine ⟨by simp, ?_⟩
            intro dfg' l s' h
            simp only [Except.ok.injEq, Prod.mk.injEq] at h
            obtain ⟨-, -, h3⟩ := h
            rw [← h3]
            exact hs2
      · -- Sext
        rename_i abi_ty hcv
        split at h
        case _ p hr1 =>
          subst h
          have := ih _ _ _ _ hr1 hs1
          exact ⟨this.1, by simp⟩
        case _ dfg2 l2 s2 hr1 =>
          subst h
          have hs2 : s2.vlist.length = fx + abi_args :=
            (ih _ _ _ _ hr1 hs1).2 _ _ _ rfl
          refine ⟨by simp, ?_⟩
          intro dfg' l s' h
          simp only [Except.ok.injEq, Prod.mk.injEq] at h
          obtain ⟨-, -, h3⟩ := h
          rw [← h3]
          exact hs2
      · -- Uext
        rename_i abi_ty hcv
        split at h
        case _ p hr1 =>
          subst h
          have := ih _ _ _ _ hr1 hs1
          exact ⟨this.1, by simp⟩
        case _ dfg2 l2 s2 hr1 =>
          subst h
          have hs2 : s2.vlist.length = fx + abi_args :=
            (ih _ _ _ _ hr1 hs1).2 _ _ _ rfl
          refine ⟨by simp, ?_⟩
          intro dfg' l s' h
          simp only [Except.ok.injEq, Prod.mk.injEq] at h
          obtain ⟨-, -, h3⟩ := h
          rw [← h3]
          exact hs2

/-- Under the grown-list invariant and in-range loop indices, the conversion
loop of `legalize_inst_arguments` never fails a value-list bound check. -/
theorem legalize_args_loop_safety (g : Nat → Option ArgumentType)
    (fx abi_args off fuel : Nat)
    (hg : ∀ j t, g j = some t → j < abi_args) :
    ∀ idxs dfg s acc r,
      legalize_args_loop g fx off fuel idxs dfg s acc = r →
      s.vlist.length = fx + abi_args →
      (∀ a ∈ idxs, off + a < fx + abi_args) →
      r ≠ .error .vlistOob := by
  intro idxs
  induction idxs with
  | nil =>
    intro dfg s acc r h hlen hidx
    rw [legalize_args_loop] at h
    subst h
    simp
  | cons a rest ih =>
    intro dfg s acc r h hlen hidx
    rw [legalize_args_loop] at h
    split at h
    case _ hov =>
      exfalso
      have hlt : off + a < s.vlist.length := by
        rw [hlen]
        exact hidx a (by simp)
      rw [List.getElem?_eq_none_iff] at hov
      omega
    case _ old_value hov =>
      split at h
      case _ p hcv =>
        subst h
        have hp' : p ≠ Panic.vlistOob := fun hpv =>
          (convert_to_abi_put_state g fx abi_args hg _ _ _ _ _ hcv hlen).1 (by rw [← hpv])
        exact fun hcon => hp' (Except.error.inj hcon)
      case _ dfg1 insts1 s1 hcv =>
        have hs1 : s1.vlist.length = fx + abi_args :=
          (convert_to_abi_put_state g fx abi_args hg _ _ _ _ _ hcv hlen).2 _ _ _ rfl
        exact ih _ _ _ _ h hs1 (fun b hb => hidx b (by simp [hb]))

/-- C10: `legalize_inst_arguments` is well-defined only under the
precondition that the ABI argument count is at least the instruction's
current non-fixed argument count: when `abi_args < have_args` the unchecked
usize subtraction `abi_args - have_args` underflows (modelled as the
`underflow` panic), and whenever the ABI type supplier is defined only below
`abi_args`, every value-list index access — the read at
`old_arg_offset + old_arg` and the write at `fixed_values + abi_arg` — stays
in bounds (the `vlistOob` panic is impossible). -/
theorem legalize_inst_arguments_safety (fuel : Nat) (dfg : DFG) (d : InstData)
    (abi_args : Nat) (g : Nat → Option ArgumentType)
    (hg : ∀ j t, g j = some t → j < abi_args) :
    (abi_args < d.vlist.length - d.opcode.fixed_value_arguments →
      legalize_inst_arguments fuel dfg d abi_args g = .error .underflow) ∧
    legalize_inst_arguments fuel dfg d abi_args g ≠ .error .vlistOob := by
  constructor
  · intro habi
    unfold legalize_inst_arguments
    dsimp only
    rw [if_neg (by omega : ¬ d.vlist.length < d.opcode.fixed_value_arguments), if_pos habi]
  · intro hcon
    unfold legalize_inst_arguments at hcon
    dsimp only at hcon
    split at hcon
    case _ hlt => exact Panic.noConfusion (Except.error.inj hcon)
    case _ hge =>
      split at hcon
      case _ habi => exact Panic.noConfusion (Except.error.inj hcon)
      case _ habi =>
        split at hcon
        case _ p hloop =>
          have hp : p = Panic.vlistOob := Except.error.inj hcon
          subst hp
          have hlen : (d.vlist.take d.opcode.fixed_value_arguments ++
              List.replicate (abi_args - (d.vlist.length - d.opcode.fixed_value_arguments)) 0 ++
              d.vlist.drop d.opcode.fixed_value_arguments).length =
              d.opcode.fixed_value_arguments + abi_args := by
            simp only [List.length_append, List.length_take, List.length_replicate,
              List.length_drop]
            omega
          exact legalize_args_loop_safety g d.opcode.fixed_value_arguments abi_args
            (d.opcode.fixed_value_arguments +
              (abi_args - (d.vlist.length - d.opcode.fixed_value_arguments)))
            fuel hg (List.range (d.vlist.length - d.opcode.fixed_value_arguments))
            dfg _ [] _ hloop hlen
            (by
              intro a ha
              rw [List.mem_range] at ha
              omega)
            rfl
        case _ => exact Except.noConfusion hcon

/-- Witness for `legalize_inst_arguments_safety` at the concrete call of
`funcCallFix` against its two-slot signature. -/
theorem legalize_inst_arguments_safety_witness :
    (2 < ([0] : List Nat).length - (Opcode.call 0).fixed_value_arguments →
      legalize_inst_arguments 9 funcCallFix.dfg ⟨.call 0, [0], [1]⟩ 2
        (fun k => ([⟨.int 32, .none⟩, ⟨.int 32, .none⟩] : List ArgumentType)[k]?) =
        .error .underflow) ∧
    legalize_inst_arguments 9 funcCallFix.dfg ⟨.call 0, [0], [1]⟩ 2
      (fun k => ([⟨.int 32, .none⟩, ⟨.int 32, .none⟩] : List ArgumentType)[k]?) ≠
      .error .vlistOob :=
  legalize_inst_arguments_safety 9 funcCallFix.dfg ⟨.call 0, [0], [1]⟩ 2
    (fun k => ([⟨.int 32, .none⟩, ⟨.int 32, .none⟩] : List ArgumentType)[k]?)
    (fun j t h => by simpa using lt_of_getElem?_eq_some h)

/-- Writing back the element already stored at an index leaves a list
unchanged. -/
theorem set_getElem?_self {α : Type} : ∀ (l : List α) (i : Nat) (a : α),
    l[i]? = some a → l.set i a = l := by
  intro l
  induction l with
  | nil =>
    intro i a h
    simp at h
  | cons x xs ih =>
    intro i a h
    cases i with
    | zero =>
      simp at h
      simp [h]
    | succ j =>
      simp at h
      simp [ih j a h]

/-- A matching argument check gives equal lengths. -/
theorem check_arg_types_len {dfg : DFG} {args : List Nat} {types : List ArgumentType}
    (h : check_arg_types dfg args types = true) : args.length = types.length := by
  have hm := (check_arg_types_iff dfg args types).mp h
  have := congrArg List.length hm
  simpa using this

/-- A matching argument check gives the pointwise type equations. -/
theorem check_arg_types_get {dfg : DFG} {args : List Nat} {types : List ArgumentType}
    (h : check_arg_types dfg args types = true) {t : Nat} {a : Nat} {ty : ArgumentType}
    (ha : args[t]? = some a) (hty : types[t]? = some ty) :
    dfg.value_type a = ty.value_type := by
  have hm := (check_arg_types_iff dfg args types).mp h
  have hidx := congrArg (fun l => l[t]?) hm
  simp only [List.getElem?_map, ha, hty, Option.map_some'] at hidx
  exact Option.some_inj.mp hidx

/-- When the original arguments already match the signature types one-to-one,
the conversion loop accepts every argument in place: the value list and the
graph come back unchanged and no instruction is inserted. -/
theorem legalize_args_loop_id (sigts : List ArgumentType) (fx fuel : Nat) (dfg : DFG)
    (vl : List Nat)
    (hmatch : check_arg_types dfg (vl.drop fx) sigts = true)
    (hfx : fx ≤ vl.length) :
    ∀ m t acc, t + m = sigts.length →
      legalize_args_loop (fun k => sigts[k]?) fx fx (fuel + 1) (List.range' t m) dfg
        ⟨vl, t⟩ acc = .ok (dfg, ⟨vl, sigts.length⟩, acc) := by
  have hdl : (vl.drop fx).length = sigts.length := check_arg_types_len hmatch
  have hvl : vl.length = fx + sigts.length := by
    have := List.length_drop fx vl
    omega
  intro m
  induction m with
  | zero =>
    intro t acc ht
    have ht' : t = sigts.length := by omega
    subst ht'
    rfl
  | succ m ih =>
    intro t acc ht
    have htlt : t < sigts.length := by omega
    have hat : ∃ a, (vl.drop fx)[t]? = some a := by
      cases hq : (vl.drop fx)[t]? with
      | none =>
        rw [List.getElem?_eq_none_iff] at hq
        omega
      | some a => exact ⟨a, rfl⟩
    obtain ⟨a, ha⟩ := hat
    obtain ⟨ty, hty⟩ : ∃ ty, sigts[t]? = some ty := by
      cases hq : sigts[t]? with
      | none =>
        rw [List.getElem?_eq_none_iff] at hq
        omega
      | some ty => exact ⟨ty, rfl⟩
    have hvt : dfg.value_type a = ty.value_type := check_arg_types_get hmatch ha hty
    have hread : vl[fx + t]? = some a := by
      rw [← List.getElem?_drop]
      exact ha
    rw [show List.range' t (m + 1) = t :: List.range' (t + 1) m from rfl]
    rw [legalize_args_loop]
    simp only [hread]
    have hput : inst_put_arg (fun k => sigts[k]?) fx dfg ⟨vl, t⟩ a =
        .ok (⟨vl, t + 1⟩, none) := by
      unfold inst_put_arg
      dsimp only
      simp only [hty]
      rw [if_pos hvt, if_pos (show fx + t < vl.length by omega),
        set_getElem?_self vl (fx + t) a hread]
    have hconv : convert_to_abi (inst_put_arg (fun k => sigts[k]?) fx) (fuel + 1) dfg
        ⟨vl, t⟩ a = .ok (dfg, [], ⟨vl, t + 1⟩) := by
      rw [convert_to_abi]
      simp only [hput]
    simp only [hconv, List.append_nil]
    exact ih (t + 1) acc (by omega)

/-- When the call arguments already match the signature types, the argument
rewriter is the identity: the graph and the instruction come back unchanged
and no instruction is inserted — yet the caller still reports a change. -/
theorem legalize_inst_arguments_id (fuel : Nat) (dfg : DFG) (d : InstData)
    (sigts : List ArgumentType)
    (hmatch : check_arg_types dfg (callArgs d) sigts = true)
    (hfx : d.opcode.fixed_value_arguments ≤ d.vlist.length) :
    legalize_inst_arguments (fuel + 1) dfg d sigts.length (fun k => sigts[k]?) =
      .ok (dfg, d, []) := by
  have hdl : (callArgs d).length = sigts.length := check_arg_types_len hmatch
  have hca : (callArgs d).length = d.vlist.length - d.opcode.fixed_value_arguments := by
    unfold callArgs
    exact List.length_drop _ _
  unfold legalize_inst_arguments
  dsimp only
  rw [if_neg (by omega), if_neg (by omega)]
  have hdelta : sigts.length - (d.vlist.length - d.opcode.fixed_value_arguments) = 0 := by
    omega
  rw [hdelta]
  simp only [List.replicate, List.append_nil, List.nil_append, List.take_append_drop,
    Nat.add_zero]
  have hrange : d.vlist.length - d.opcode.fixed_value_arguments = sigts.length := by
    omega
  rw [hrange, List.range_eq_range']
  rw [legalize_args_loop_id sigts d.opcode.fixed_value_arguments fuel dfg d.vlist hmatch
    hfx sigts.length 0 [] (by omega)]

/-- A call whose arguments match its signature but whose results do not is
"rewritten" by `handle_call_abi` without any change to the function, and the
rewriter still returns `true`. -/
theorem handle_call_abi_match_id (fuel : Nat) (func : Func) (b cur : Nat)
    (blk : List Nat) (i : Nat) (d : InstData) (sr : Nat) (sig : Signature)
    (hb : func.layout[b]? = some blk) (hc : blk[cur]? = some i)
    (hd : func.dfg.insts[i]? = some d)
    (hsr : d.opcode.sig_of = some sr)
    (hsig : func.dfg.signatures[sr]? = some sig)
    (hfx : d.opcode.fixed_value_arguments ≤ d.vlist.length)
    (hargs : check_arg_types func.dfg (callArgs d) sig.argument_types = true)
    (hres : check_arg_types func.dfg d.results sig.return_types = false) :
    handle_call_abi (fuel + 1) func b cur = .ok (func, true) := by
  unfold handle_call_abi
  simp only [hb, hc, hd]
  have hchk : check_call_signature func.dfg d = .ok (some sr) := by
    unfold check_call_signature
    simp [hsr, hsig, hargs, hres]
  simp only [hchk, hsig]
  rw [legalize_inst_arguments_id fuel func.dfg d sig.argument_types hargs hfx]
  have hset : func.dfg.insts.set i d = func.dfg.insts := set_getElem?_self _ _ _ hd
  have hblk : blk.take cur ++ [] ++ blk.drop cur = blk := by
    simp [List.take_append_drop]
  have hlay : func.layout.set b (blk.take cur ++ [] ++ blk.drop cur) = func.layout := by
    rw [hblk]
    exact set_getElem?_self _ _ _ hb
  simp only [hset, hlay]

/-- An opcode with a resolved signature handle is a call. -/
theorem is_call_of_sig_of {op : Opcode} {sr : Nat} (h : op.sig_of = some sr) :
    op.is_call = true := by
  cases op <;> simp [Opcode.sig_of] at h <;> rfl

/-- C9: a call instruction whose argument types all match its signature's
parameter types but whose result types mismatch the return types makes the
driver loop forever: `handle_call_abi` returns `true` while changing nothing,
the driver resets to the saved position and re-examines the same unchanged
call, so `run` exhausts any amount of fuel — `legalize_function` does not
terminate. -/
theorem call_result_mismatch_diverges (isa : Isa) :
    ∀ fuel (func : Func) (b cur : Nat) (blk : List Nat) (i : Nat) (d : InstData)
      (sr : Nat) (sig : Signature),
      func.layout[b]? = some blk → blk[cur]? = some i → func.dfg.insts[i]? = some d →
      d.opcode.sig_of = some sr → func.dfg.signatures[sr]? = some sig →
      d.opcode.fixed_value_arguments ≤ d.vlist.length →
      check_arg_types func.dfg (callArgs d) sig.argument_types = true →
      check_arg_types func.dfg d.results sig.return_types = false →
      run isa fuel func b cur = .outOfFuel := by
  intro fuel
  induction fuel with
  | zero =>
    intro func b cur blk i d sr sig hb hc hd hsr hsig hfx hargs hres
    rfl
  | succ fuel ih =>
    intro func b cur blk i d sr sig hb hc hd hsr hsig hfx hargs hres
    rw [run]
    simp only [hb, hc, hd]
    have hic : d.opcode.is_call = true := is_call_of_sig_of hsr
    have hcall : abi_boundary (fuel + 1) func b cur d = .ok (func, true) := by
      unfold abi_boundary
      rw [hic]
      simp only [if_true]
      exact handle_call_abi_match_id fuel func b cur blk i d sr sig hb hc hd hsr hsig
        hfx hargs hres
    simp only [hcall]
    exact ih func b cur blk i d sr sig hb hc hd hsr hsig hfx hargs hres

/-- Witness for `call_result_mismatch_diverges` at a concrete call with a
mismatched result type: no amount of fuel (here 7) completes the run. -/
theorem call_result_mismatch_diverges_witness :
    run isaNoChange 7 funcCallBadResult 0 0 = .outOfFuel :=
  call_result_mismatch_diverges isaNoChange 7 funcCallBadResult 0 0 [0] 0
    ⟨.call 0, [0], [1]⟩ 0 ⟨[⟨.int 32, .none⟩], [⟨.int 32, .none⟩]⟩
    rfl rfl rfl rfl rfl (by decide) (by decide) (by decide)

/-- Equal type-table entries give equal value types. -/
theorem value_type_congr {dfg dfg2 : DFG} {v : Nat}
    (h : dfg2.value_types[v]? = dfg.value_types[v]?) :
    dfg2.value_type v = dfg.value_type v := by
  unfold DFG.value_type
  rw [h]

/-- `check_arg_types` only depends on the types of the checked values. -/
theorem check_arg_types_congr {dfg dfg2 : DFG} :
    ∀ (args : List Nat) (types : List ArgumentType),
    (∀ v ∈ args, dfg2.value_type v = dfg.value_type v) →
    check_arg_types dfg2 args types = check_arg_types dfg args types := by
  intro args
  induction args with
  | nil =>
    intro types h
    cases types <;> rfl
  | cons a rest ih =>
    intro types h
    cases types with
    | nil => rfl
    | cons t ts =>
      unfold check_arg_types
      rw [h a (by simp), ih ts (fun v hv => h v (by simp [hv]))]

/-- `InstGood` is stable under any driver step that leaves the instruction's
entry, the types of the values it names, the signature tables and its
encoding untouched. -/
theorem InstGood_transport (isa : Isa) (f f2 : Func) (j : Nat)
    (hj : f2.dfg.insts[j]? = f.dfg.insts[j]?)
    (htypes : ∀ v, v < f.dfg.value_types.length →
      f2.dfg.value_types[v]? = f.dfg.value_types[v]?)
    (hsigs : f2.dfg.signatures = f.dfg.signatures)
    (hsig : f2.signature = f.signature)
    (henc : f2.encodings j = f.encodings j)
    (hwf : ∀ d, f.dfg.insts[j]? = some d →
      (∀ v ∈ d.vlist, v < f.dfg.value_types.length) ∧
      (∀ v ∈ d.results, v < f.dfg.value_types.length))
    (hg : InstGood isa f j) : InstGood isa f2 j := by
  obtain ⟨d, hd, hcall, hret, hencode⟩ := hg
  obtain ⟨hwv, hwr⟩ := hwf d hd
  have hvt : ∀ v ∈ d.vlist, f2.dfg.value_type v = f.dfg.value_type v :=
    fun v hv => value_type_congr (htypes v (hwv v hv))
  have hrt : ∀ v ∈ d.results, f2.dfg.value_type v = f.dfg.value_type v :=
    fun v hv => value_type_congr (htypes v (hwr v hv))
  have hargT : instArgTys f2.dfg d = instArgTys f.dfg d := by
    unfold instArgTys
    exact List.map_congr_left hvt
  have hresT : instResTys f2.dfg d = instResTys f.dfg d := by
    unfold instResTys
    exact List.map_congr_left hrt
  refine ⟨d, by rw [hj]; exact hd, ?_, ?_, ?_⟩
  · intro hic
    have hth := hcall hic
    unfold check_call_signature at hth ⊢
    rw [hsigs]
    cases hso : d.opcode.sig_of with
    | none =>
      simp only [hso] at hth ⊢
      exact hth
    | some sr =>
      simp only [hso] at hth ⊢
      cases hsg : f.dfg.signatures[sr]? with
      | none =>
        simp only [hsg] at hth ⊢
        exact hth
      | some sig =>
        simp only [hsg] at hth ⊢
        rw [check_arg_types_congr (callArgs d) sig.argument_types
          (fun v hv => hvt v (List.drop_subset _ _ hv)),
          check_arg_types_congr d.results sig.return_types hrt]
        exact hth
  · intro hir
    have := hret hir
    rw [hsig]
    rw [check_arg_types_congr (d.vlist.drop d.opcode.fixed_value_arguments)
      f.signature.return_types (fun v hv => hvt v (List.drop_subset _ _ hv))]
    exact this
  · rw [hargT, hresT, henc]
    exact hencode

/-- A graph extension never shrinks the value table. -/
theorem DfgExt.vlen_le {a b : DFG} (h : DfgExt a b) :
    a.value_types.length ≤ b.value_types.length := by
  obtain ⟨e, he⟩ := h.value_types_ext
  rw [he, List.length_append]
  omega

/-- A graph extension never shrinks the instruction table. -/
theorem DfgExt.ilen_le {a b : DFG} (h : DfgExt a b) :
    a.insts.length ≤ b.insts.length := by
  obtain ⟨e, he⟩ := h.insts_ext
  rw [he, List.length_append]
  omega

/-- Reference bounds are monotone in the table size. -/
theorem instRefsLt_mono {dn : InstData} {m n : Nat} (h : InstRefsLt dn m) (hmn : m ≤ n) :
    InstRefsLt dn n :=
  ⟨fun v hv => lt_of_lt_of_le (h.1 v hv) hmn, fun v hv => lt_of_lt_of_le (h.2 v hv) hmn⟩

/-- Sequencing two conversion steps composes their well-formedness facts. -/
theorem convert_wf_compose
    {dfg1 dfg2 dfg3 : DFG} {l2 l3 : List Nat}
    (m1 : ∀ dn ∈ dfg2.insts, dn ∈ dfg1.insts ∨ InstRefsLt dn dfg2.value_types.length)
    (m2 : ∀ dn ∈ dfg3.insts, dn ∈ dfg2.insts ∨ InstRefsLt dn dfg3.value_types.length)
    (hv23 : dfg2.value_types.length ≤ dfg3.value_types.length)
    (p2 : l2.Pairwise (· < ·)) (p3 : l3.Pairwise (· < ·))
    (r2 : ∀ j ∈ l2, dfg1.insts.length ≤ j ∧ j < dfg2.insts.length)
    (r3 : ∀ j ∈ l3, dfg2.insts.length ≤ j ∧ j < dfg3.insts.length)
    (hi12 : dfg1.insts.length ≤ dfg2.insts.length)
    (hi23 : dfg2.insts.length ≤ dfg3.insts.length) :
    (∀ dn ∈ dfg3.insts, dn ∈ dfg1.insts ∨ InstRefsLt dn dfg3.value_types.length) ∧
    (l2 ++ l3).Pairwise (· < ·) ∧
    (∀ j ∈ l2 ++ l3, dfg1.insts.length ≤ j ∧ j < dfg3.insts.length) := by
  refine ⟨?_, ?_, ?_⟩
  · intro dn hdn
    rcases m2 dn hdn with h2 | h2
    · rcases m1 dn h2 with h1 | h1
      · exact Or.inl h1
      · exact Or.inr (instRefsLt_mono h1 hv23)
    · exact Or.inr h2
  · rw [List.pairwise_append]
    refine ⟨p2, p3, ?_⟩
    intro a ha b hb
    exact lt_of_lt_of_le (r2 a ha).2 (r3 b hb).1
  · intro j hj
    rcases List.mem_append.mp hj with hj | hj
    · obtain ⟨hr1, hr2⟩ := r2 j hj
      omega
    · obtain ⟨hr1, hr2⟩ := r3 j hj
      omega

/-- Prefixing the single freshly built instruction to the facts of the
recursive conversions. -/
theorem convert_wf_prepend
    {dfg dfg1 dfg3 : DFG} {newd : InstData} {l23 : List Nat}
    (h1i : dfg1.insts = dfg.insts ++ [newd])
    (hi13 : dfg1.insts.length ≤ dfg3.insts.length)
    (hnew : InstRefsLt newd dfg3.value_types.length)
    (m13 : ∀ dn ∈ dfg3.insts, dn ∈ dfg1.insts ∨ InstRefsLt dn dfg3.value_types.length)
    (p : l23.Pairwise (· < ·))
    (r : ∀ j ∈ l23, dfg1.insts.length ≤ j ∧ j < dfg3.insts.length) :
    (∀ dn ∈ dfg3.insts, dn ∈ dfg.insts ∨ InstRefsLt dn dfg3.value_types.length) ∧
    (dfg.insts.length :: l23).Pairwise (· < ·) ∧
    (∀ j ∈ dfg.insts.length :: l23, dfg.insts.length ≤ j ∧ j < dfg3.insts.length) := by
  have hlen1 : dfg1.insts.length = dfg.insts.length + 1 := by
    rw [h1i, List.length_append]
    rfl
  refine ⟨?_, ?_, ?_⟩
  · intro dn hdn
    rcases m13 dn hdn with h2 | h2
    · rw [h1i] at h2
      rcases List.mem_append.mp h2 with h3 | h3
      · exact Or.inl h3
      · rw [List.mem_singleton] at h3
        subst h3
        exact Or.inr hnew
    · exact Or.inr h2
  · rw [List.pairwise_cons]
    refine ⟨?_, p⟩
    intro a ha
    have h2 := (r a ha).1
    omega
  · intro j hj
    rcases List.mem_cons.mp hj with hj | hj
    · subst hj
      omega
    · obtain ⟨hr1, hr2⟩ := r j hj
      omega

/-- A successful structural conversion preserves well-formedness: every
instruction of the resulting graph is either an original one or has all its
references inside the grown value table; the rewritten value list references
only existing values; and the inserted instruction identities are fresh,
strictly increasing, and bounded by the new table size. -/
theorem convert_to_abi_wf (g : Nat → Option ArgumentType) (fx : Nat) :
    ∀ fuel dfg s value dfg' l s',
      convert_to_abi (inst_put_arg g fx) fuel dfg s value = .ok (dfg', l, s') →
      value < dfg.value_types.length →
      (∀ v ∈ s.vlist, v < dfg.value_types.length) →
      ((∀ dn ∈ dfg'.insts, dn ∈ dfg.insts ∨ InstRefsLt dn dfg'.value_types.length) ∧
       (∀ v ∈ s'.vlist, v < dfg'.value_types.length) ∧
       l.Pairwise (· < ·) ∧
       (∀ j ∈ l, dfg.insts.length ≤ j ∧ j < dfg'.insts.length)) := by
  have hput : ∀ dfg s value s' oty,
      inst_put_arg g fx dfg s value = .ok (s', oty) →
      value < dfg.value_types.length →
      (∀ v ∈ s.vlist, v < dfg.value_types.length) →
      ∀ v ∈ s'.vlist, v < dfg.value_types.length := by
    intro dfg s value s' oty hpr hv hs
    unfold inst_put_arg at hpr
    split at hpr
    · exact Except.noConfusion hpr
    split at hpr
    · split at hpr
      · simp only [Except.ok.injEq, Prod.mk.injEq] at hpr
        obtain ⟨h1, -⟩ := hpr
        rw [← h1]
        intro v hv2
        rcases List.mem_or_eq_of_mem_set hv2 with hv3 | hv3
        · exact hs v hv3
        · rw [hv3]
          exact hv
      · exact Except.noConfusion hpr
    · simp only [Except.ok.injEq, Prod.mk.injEq] at hpr
      obtain ⟨h1, -⟩ := hpr
      rw [← h1]
      exact hs
  intro fuel
  induction fuel with
  | zero =>
    intro dfg s value dfg' l s' h
    simp [convert_to_abi] at h
  | succ fuel ih =>
    intro dfg s value dfg' l s' h hv hs
    rw [convert_to_abi] at h
    split at h
    · exact Except.noConfusion h
    case _ s1 hp =>
      simp only [Except.ok.injEq, Prod.mk.injEq] at h
      obtain ⟨h1, h2, h3⟩ := h
      subst h1
      subst h2
      subst h3
      exact ⟨fun dn hdn => Or.inl hdn, hput _ _ _ _ _ hp hv hs, by simp, by simp⟩
    case _ s1 arg_type hp =>
      have hs1 : ∀ v ∈ s1.vlist, v < dfg.value_types.length := hput _ _ _ _ _ hp hv hs
      dsimp only at h
      split at h
      · exact Except.noConfusion h
      · -- IntSplit
        split at h
        · exact Except.noConfusion h
        case _ half hhw =>
          split at h
          · exact Except.noConfusion h
          case _ dfg2 l2 s2 hr1 =>
            split at h
            · exact Except.noConfusion h
            case _ dfg3 l3 s3 hr2 =>
              simp only [Except.ok.injEq, Prod.mk.injEq] at h
              obtain ⟨h1, h2, h3⟩ := h
              subst h1
              subst h2
              subst h3
              have hext1 := convert_to_abi_ext (inst_put_arg g fx) fuel _ _ _ _ _ _ hr1
              have hext2 := convert_to_abi_ext (inst_put_arg g fx) fuel _ _ _ _ _ _ hr2
              have hv1 : (dfg.make_inst2 .isplit_lohi [value] half half).1.value_types.length =
                  dfg.value_types.length + 2 := by
                simp [DFG.make_inst2]
              have hlo : (dfg.make_inst2 .isplit_lohi [value] half half).2.2.1 =
                  dfg.value_types.length := rfl
              have hhi : (dfg.make_inst2 .isplit_lohi [value] half half).2.2.2 =
                  dfg.value_types.length + 1 := rfl
              have hw1 := ih _ _ _ _ _ _ hr1 (by rw [hlo]; omega)
                (fun v hv2 => by
                  have := hs1 v hv2
                  omega)
              have hw2 := ih _ _ _ _ _ _ hr2
                (by
                  rw [hhi]
                  have h23 := hext1.vlen_le
                  omega)
                hw1.2.1
              have hcomp := convert_wf_compose hw1.1 hw2.1 hext2.vlen_le hw1.2.2.1
                hw2.2.2.1 hw1.2.2.2 hw2.2.2.2 hext1.ilen_le hext2.ilen_le
              have hpre := convert_wf_prepend
                (show (dfg.make_inst2 .isplit_lohi [value] half half).1.insts =
                    dfg.insts ++ [⟨.isplit_lohi, [value],
                      [dfg.value_types.length, dfg.value_types.length + 1]⟩] from rfl)
                (le_trans hext1.ilen_le hext2.ilen_le)
                ⟨by
                  intro v hv2
                  rw [List.mem_singleton] at hv2
                  subst hv2
                  have := le_trans hext1.vlen_le hext2.vlen_le
                  omega,
                 by
                  intro v hv2
                  have := le_trans hext1.vlen_le hext2.vlen_le
                  rcases List.mem_cons.mp hv2 with h3 | h3
                  · omega
                  · rw [List.mem_singleton] at h3
                    omega⟩
                hcomp.1 hcomp.2.1 hcomp.2.2
              exact ⟨hpre.1, hw2.2.1, hpre.2.1, hpre.2.2⟩
      · -- VectorSplit
        split at h
        · exact Except.noConfusion h
        case _ half hhw =>
          split at h
          · exact Except.noConfusion h
          case _ dfg2 l2 s2 hr1 =>
            split at h
            · exact Except.noConfusion h
            case _ dfg3 l3 s3 hr2 =>
              simp only [Except.ok.injEq, Prod.mk.injEq] at h
              obtain ⟨h1, h2, h3⟩ := h
              subst h1
              subst h2
              subst h3
              have hext1 := convert_to_abi_ext (inst_put_arg g fx) fuel _ _ _ _ _ _ hr1
              have hext2 := convert_to_abi_ext (inst_put_arg g fx) fuel _ _ _ _ _ _ hr2
              have hv1 : (dfg.make_inst2 .vsplit [value] half half).1.value_types.length =
                  dfg.value_types.length + 2 := by
                simp [DFG.make_inst2]
              have hlo : (dfg.make_inst2 .vsplit [value] half half).2.2.1 =
                  dfg.value_types.length := rfl
              have hhi : (dfg.make_inst2 .vsplit [value] half half).2.2.2 =
                  dfg.value_types.length + 1 := rfl
              have hw1 := ih _ _ _ _ _ _ hr1 (by rw [hlo]; omega)
                (fun v hv2 => by
                  have := hs1 v hv2
                  omega)
              have hw2 := ih _ _ _ _ _ _ hr2
                (by
                  rw [hhi]
                  have h23 := hext1.vlen_le
                  omega)
                hw1.2.1
              have hcomp := convert_wf_compose hw1.1 hw2.1 hext2.vlen_le hw1.2.2.1
                hw2.2.2.1 hw1.2.2.2 hw2.2.2.2 hext1.ilen_le hext2.ilen_le
              have hpre := convert_wf_prepend
                (show (dfg.make_inst2 .vsplit [value] half half).1.insts =
                    dfg.insts ++ [⟨.vsplit, [value],
                      [dfg.value_types.length, dfg.value_types.length + 1]⟩] from rfl)
                (le_trans hext1.ilen_le hext2.ilen_le)
                ⟨by
                  intro v hv2
                  rw [List.mem_singleton] at hv2
                  subst hv2
                  have := le_trans hext1.vlen_le hext2.vlen_le
                  omega,
                 by
                  intro v hv2
                  have := le_trans hext1.vlen_le hext2.vlen_le
                  rcases List.mem_cons.mp hv2 with h3 | h3
                  · omega
                  · rw [List.mem_singleton] at h3
                    omega⟩
                hcomp.1 hcomp.2.1 hcomp.2.2
              exact ⟨hpre.1, hw2.2.1, hpre.2.1, hpre.2.2⟩
      · -- IntBits
        split at h
        · exact Except.noConfusion h
        split at h
        · exact Except.noConfusion h
        case _ abi_ty hofb =>
          split at h
          · exact Except.noConfusion h
          case _ dfg2 l2 s2 hr1 =>
            simp only [Except.ok.injEq, Prod.mk.injEq] at h
            obtain ⟨h1, h2, h3⟩ := h
            subst h1
            subst h2
            subst h3
            have hext1 := convert_to_abi_ext (inst_put_arg g fx) fuel _ _ _ _ _ _ hr1
            have hv1 : (dfg.make_inst1 .bitcast [value] abi_ty).1.value_types.length =
                dfg.value_types.length + 1 := by
              simp [DFG.make_inst1]
            have harg : (dfg.make_inst1 .bitcast [value] abi_ty).2.2 =
                dfg.value_types.length := rfl
            have hw1 := ih _ _ _ _ _ _ hr1 (by rw [harg]; omega)
              (fun v hv2 => by
                have := hs1 v hv2
                omega)
            have hpre := convert_wf_prepend
              (show (dfg.make_inst1 .bitcast [value] abi_ty).1.insts =
                  dfg.insts ++ [⟨.bitcast, [value], [dfg.value_types.length]⟩] from rfl)
              hext1.ilen_le
              ⟨by
                intro v hv2
                rw [List.mem_singleton] at hv2
                subst hv2
                have := hext1.vlen_le
                omega,
               by
                intro v hv2
                rw [List.mem_singleton] at hv2
                have := hext1.vlen_le
                omega⟩
              hw1.1 hw1.2.2.1 hw1.2.2.2
            exact ⟨hpre.1, hw1.2.1, hpre.2.1, hpre.2.2⟩
      · -- Sext
        rename_i abi_ty hcv
        split at h
        · exact Except.noConfusion h
        case _ dfg2 l2 s2 hr1 =>
          simp only [Except.ok.injEq, Prod.mk.injEq] at h
          obtain ⟨h1, h2, h3⟩ := h
          subst h1
          subst h2
          subst h3
          have hext1 := convert_to_abi_ext (inst_put_arg g fx) fuel _ _ _ _ _ _ hr1
          have hv1 : (dfg.make_inst1 .sextend [value] abi_ty).1.value_types.length =
              dfg.value_types.length + 1 := by
            simp [DFG.make_inst1]
          have harg : (dfg.make_inst1 .sextend [value] abi_ty).2.2 =
              dfg.value_types.length := rfl
          have hw1 := ih _ _ _ _ _ _ hr1 (by rw [harg]; omega)
            (fun v hv2 => by
              have := hs1 v hv2
              omega)
          have hpre := convert_wf_prepend
            (show (dfg.make_inst1 .sextend [value] abi_ty).1.insts =
                dfg.insts ++ [⟨.sextend, [value], [dfg.value_types.length]⟩] from rfl)
            hext1.ilen_le
            ⟨by
              intro v hv2
              rw [List.mem_singleton] at hv2
              subst hv2
              have := hext1.vlen_le
              omega,
             by
              intro v hv2
              rw [List.mem_singleton] at hv2
              have := hext1.vlen_le
              omega⟩
            hw1.1 hw1.2.2.1 hw1.2.2.2
          exact ⟨hpre.1, hw1.2.1, hpre.2.1, hpre.2.2⟩
      · -- Uext
        rename_i abi_ty hcv
        split at h
        · exact Except.noConfusion h
        case _ dfg2 l2 s2 hr1 =>
          simp only [Except.ok.injEq, Prod.mk.injEq] at h
          obtain ⟨h1, h2, h3⟩ := h
          subst h1
          subst h2
          subst h3
          have hext1 := convert_to_abi_ext (inst_put_arg g fx) fuel _ _ _ _ _ _ hr1
          have hv1 : (dfg.make_inst1 .uextend [value] abi_ty).1.value_types.length =
              dfg.value_types.length + 1 := by
            simp [DFG.make_inst1]
          have harg : (dfg.make_inst1 .uextend [value] abi_ty).2.2 =
              dfg.value_types.length := rfl
          have hw1 := ih _ _ _ _ _ _ hr1 (by rw [harg]; omega)
            (fun v hv2 => by
              have := hs1 v hv2
              omega)
          have hpre := convert_wf_prepend
            (show (dfg.make_inst1 .uextend [value] abi_ty).1.insts =
                dfg.insts ++ [⟨.uextend, [value], [dfg.value_types.length]⟩] from rfl)
            hext1.ilen_le
            ⟨by
              intro v hv2
              rw [List.mem_singleton] at hv2
              subst hv2
              have := hext1.vlen_le
              omega,
             by
              intro v hv2
              rw [List.mem_singleton] at hv2
              have := hext1.vlen_le
              omega⟩
            hw1.1 hw1.2.2.1 hw1.2.2.2
          exact ⟨hpre.1, hw1.2.1, hpre.2.1, hpre.2.2⟩

/-- C8 counterexample: over the non-uniform slot list `[i32, i16, i16]` —
produced from `i64` purely through the IntSplit conversion kind — the
forward conversion succeeds, but the reconstruction yields `0` instead of
`2 ^ 48` and leaves the cursor at `0`, having consumed only two of the three
produced values: the unrestricted round trip fails because
`convert_from_abi` never advances its cursor (legalizer.rs:173-175), so both
reconstructed halves of the `i64` are compared against slot 0. -/
theorem abi_roundtrip_fails_nonuniform :
    convert_to_abi_val [⟨.int 32, .none⟩, ⟨.int 16, .none⟩, ⟨.int 16, .none⟩] 9
        (.int 64) (2 ^ 48) 0 =
      .ok ([(.int 32, 0), (.int 16, 0), (.int 16, 1)], 3) ∧
    convert_from_abi_val [⟨.int 32, .none⟩, ⟨.int 16, .none⟩, ⟨.int 16, .none⟩]
        [(.int 32, 0), (.int 16, 0), (.int 16, 1)] 9 (.int 64) 0 0 =
      .ok (0, 0, 2) ∧
    (0 : Nat) ≠ 2 ^ 48 := by
  refine ⟨rfl, rfl, by decide⟩

/-- Witness for `abi_roundtrip`: splitting the 64-bit value `2 ^ 40 + 5` over
two 32-bit ABI slots and reconstructing it. -/
theorem abi_roundtrip_witness :
    convert_to_abi_val (List.replicate 2 ⟨.int 32, .none⟩) 9 (.int 64) (2 ^ 40 + 5) 0 =
        .ok ([(.int 32, 5), (.int 32, 256)], 2) ∧
      convert_from_abi_val (List.replicate 2 ⟨.int 32, .none⟩)
        [(.int 32, 5), (.int 32, 256)] 9 (.int 64) 0 0 = .ok (2 ^ 40 + 5, 0, 2) := by
  constructor
  · rfl
  · exact abi_roundtrip ⟨.int 32, .none⟩ 2 9 (.int 64) (2 ^ 40 + 5)
      [(.int 32, 5), (.int 32, 256)] 2 rfl (by norm_num [Ty.bits])

/-! ## Layout bookkeeping for the driver invariant -/

/-- Two occupied positions of a layout with a duplicate-free flattening that
hold the same instruction are the same position. -/
theorem flatten_nodup_positional :
    ∀ (L : List (List Nat)), L.flatten.Nodup →
      ∀ (b1 : Nat) (blk1 : List Nat) (i1 : Nat) (b2 : Nat) (blk2 : List Nat) (i2 : Nat)
        (x : Nat),
        L[b1]? = some blk1 → blk1[i1]? = some x →
        L[b2]? = some blk2 → blk2[i2]? = some x → b1 = b2 ∧ i1 = i2 := by
  intro L
  induction L with
  | nil =>
    intro _ b1 blk1 i1 b2 blk2 i2 x h1
    simp at h1
  | cons blk rest ih =>
    intro hnd b1 blk1 i1 b2 blk2 i2 x h1 h2 h3 h4
    rw [List.flatten_cons, List.nodup_append] at hnd
    obtain ⟨hblk, hrest, hdisj⟩ := hnd
    cases b1 with
    | zero =>
      simp only [List.getElem?_cons_zero, Option.some.injEq] at h1
      subst h1
      cases b2 with
      | zero =>
        simp only [List.getElem?_cons_zero, Option.some.injEq] at h3
        subst h3
        exact ⟨rfl, List.getElem?_inj (lt_of_getElem?_eq_some h2) hblk (h2.trans h4.symm)⟩
      | succ b2' =>
        simp only [List.getElem?_cons_succ] at h3
        have hx1 : x ∈ blk := List.getElem?_mem h2
        have hx2 : x ∈ rest.flatten :=
          List.mem_flatten.mpr ⟨blk2, List.getElem?_mem h3, List.getElem?_mem h4⟩
        exact absurd hx2 (hdisj hx1)
    | succ b1' =>
      simp only [List.getElem?_cons_succ] at h1
      cases b2 with
      | zero =>
        simp only [List.getElem?_cons_zero, Option.some.injEq] at h3
        subst h3
        have hx1 : x ∈ blk := List.getElem?_mem h4
        have hx2 : x ∈ rest.flatten :=
          List.mem_flatten.mpr ⟨blk1, List.getElem?_mem h1, List.getElem?_mem h2⟩
        exact absurd hx2 (hdisj hx1)
      | succ b2' =>
        simp only [List.getElem?_cons_succ] at h3
        obtain ⟨hb, hi⟩ := ih hrest b1' blk1 i1 b2' blk2 i2 x h1 h2 h3 h4
        exact ⟨by omega, hi⟩

/-- Keeping a prefix and a suffix of a list is a sublist. -/
theorem take_drop_sublist (l : List Nat) (cur k : Nat) (hk : cur ≤ k) :
    (l.take cur ++ l.drop k).Sublist l := by
  conv_rhs => rw [← List.take_append_drop cur l]
  refine List.Sublist.append_left ?_ _
  have hdk : l.drop k = (l.drop cur).drop (k - cur) := by
    rw [List.drop_drop]
    congr 1
    omega
  rw [hdk]
  exact List.drop_sublist _ _

/-- Replacing one block of a layout by a splice of fresh, duplicate-free
instruction identities around a kept sublist of the block preserves the
duplicate-freeness of the flattened layout. -/
theorem splice_flatten_nodup (L : List (List Nat)) (b : Nat) (blk newblk news : List Nat)
    (hb : L[b]? = some blk)
    (hnd : L.flatten.Nodup)
    (hnews : news.Nodup)
    (hfresh : ∀ n ∈ news, ∀ blk2 ∈ L, n ∉ blk2)
    (hshape : ∀ a : Nat, newblk.count a ≤ blk.count a + news.count a) :
    (L.set b newblk).flatten.Nodup := by
  have hblen : b < L.length := lt_of_getElem?_eq_some hb
  have hLdec : L = L.take b ++ blk :: L.drop (b + 1) := by
    conv_lhs => rw [← set_getElem?_self L b blk hb]
    rw [List.set_eq_take_append_cons_drop]
    simp [hblen]
  have hSdec : L.set b newblk = L.take b ++ newblk :: L.drop (b + 1) := by
    rw [List.set_eq_take_append_cons_drop]
    simp [hblen]
  rw [List.nodup_iff_count_le_one] at hnd ⊢
  intro a
  have hold := hnd a
  rw [hSdec]
  conv at hold => rw [hLdec]
  simp only [List.flatten_append, List.flatten_cons, List.count_append] at hold ⊢
  have hnb := hshape a
  by_cases ha : a ∈ news
  · have h0 : a ∉ L.flatten := by
      intro hmem
      obtain ⟨blk2, hblk2, hmem2⟩ := List.mem_flatten.mp hmem
      exact hfresh a ha blk2 hblk2 hmem2
    conv at h0 => rw [hLdec]
    simp only [List.flatten_append, List.flatten_cons, List.mem_append] at h0
    push_neg at h0
    obtain ⟨h01, h02, h03⟩ := h0
    have hc1 : (L.take b).flatten.count a = 0 := List.count_eq_zero.mpr h01
    have hc2 : blk.count a = 0 := List.count_eq_zero.mpr h02
    have hc3 : (L.drop (b + 1)).flatten.count a = 0 := List.count_eq_zero.mpr h03
    have hcn : news.count a ≤ 1 := List.nodup_iff_count_le_one.mp hnews a
    omega
  · have hcn : news.count a = 0 := List.count_eq_zero.mpr ha
    omega

/-- Appending a multi-result instruction only extends the graph. -/
theorem make_inst_ext (dfg : DFG) (op : Opcode) (args : List Nat) (rtys : List Ty) :
    DfgExt dfg (dfg.make_inst op args rtys).1 :=
  ⟨⟨_, rfl⟩, ⟨_, rfl⟩, rfl, rfl, rfl⟩

/-- Materializing an engine's replacement sequence only appends to the graph;
the new instructions reference only values below `base` or freshly minted
ones within the sequence's budget `tot`, and the new instruction identities
are fresh, strictly increasing and bounded. -/
theorem materialize_wf (base tot : Nat) :
    ∀ (repl : List NewInst) (dfg dfg1 : DFG) (ids : List Nat),
      materialize_loop base repl dfg = (dfg1, ids) →
      (∀ ni ∈ repl, ∀ v, VRef.old v ∈ ni.args → v < base) →
      (∀ ni ∈ repl, ∀ k, VRef.fresh k ∈ ni.args → k < tot) →
      base ≤ dfg.value_types.length →
      dfg.value_types.length + (repl.map (fun x => x.result_types.length)).sum ≤
        base + tot →
      (dfg1.value_types.length =
        dfg.value_types.length + (repl.map (fun x => x.result_types.length)).sum) ∧
      DfgExt dfg dfg1 ∧
      (∀ dn ∈ dfg1.insts, dn ∈ dfg.insts ∨ InstRefsLt dn (base + tot)) ∧
      ids.Pairwise (· < ·) ∧
      (∀ j ∈ ids, dfg.insts.length ≤ j ∧ j < dfg1.insts.length) := by
  intro repl
  induction repl with
  | nil =>
    intro dfg dfg1 ids h hold hfresh hbase hbudget
    simp only [materialize_loop, Prod.mk.injEq] at h
    obtain ⟨h1, h2⟩ := h
    subst h1
    subst h2
    exact ⟨by simp, DfgExt.refl _, fun dn hdn => Or.inl hdn, by simp, by simp⟩
  | cons ni rest ih =>
    intro dfg dfg1 ids h hold hfresh hbase hbudget
    simp only [materialize_loop] at h
    rcases hm : materialize_loop base rest
        (dfg.make_inst ni.opcode
          (ni.args.map (fun r => match r with | .old v => v | .fresh k => base + k))
          ni.result_types).1 with ⟨dfg2, ids2⟩
    rw [hm] at h
    simp only [Prod.mk.injEq] at h
    obtain ⟨h1, h2⟩ := h
    subst h1
    subst h2
    have hv1 : (dfg.make_inst ni.opcode
        (ni.args.map (fun r => match r with | .old v => v | .fresh k => base + k))
        ni.result_types).1.value_types.length =
        dfg.value_types.length + ni.result_types.length := by
      simp [DFG.make_inst]
    have hi1 : (dfg.make_inst ni.opcode
        (ni.args.map (fun r => match r with | .old v => v | .fresh k => base + k))
        ni.result_types).1.insts = dfg.insts ++
          [⟨ni.opcode,
            ni.args.map (fun r => match r with | .old v => v | .fresh k => base + k),
            (List.range ni.result_types.length).map (dfg.value_types.length + ·)⟩] :=
      rfl
    have hii : (dfg.make_inst ni.opcode
        (ni.args.map (fun r => match r with | .old v => v | .fresh k => base + k))
        ni.result_types).2.1 = dfg.insts.length := rfl
    have hsum : (List.map (fun x => x.result_types.length) (ni :: rest)).sum =
        ni.result_types.length + (List.map (fun x => x.result_types.length) rest).sum := by
      simp
    have hih := ih _ _ _ hm
      (fun n hn v hv => hold n (List.mem_cons_of_mem ni hn) v hv)
      (fun n hn k hk => hfresh n (List.mem_cons_of_mem ni hn) k hk)
      (by omega) (by omega)
    obtain ⟨ihv, ihext, ihm, ihp, ihr⟩ := hih
    have hext : DfgExt dfg dfg2 :=
      (make_inst_ext dfg ni.opcode _ ni.result_types).trans ihext
    have hilen : (dfg.make_inst ni.opcode
        (ni.args.map (fun r => match r with | .old v => v | .fresh k => base + k))
        ni.result_types).1.insts.length = dfg.insts.length + 1 := by
      rw [hi1]
      simp
    have hile := ihext.ilen_le
    refine ⟨by omega, hext, ?_, ?_, ?_⟩
    · intro dn hdn
      rcases ihm dn hdn with h2 | h2
      · rw [hi1] at h2
        rcases List.mem_append.mp h2 with h3 | h3
        · exact Or.inl h3
        · rw [List.mem_singleton] at h3
          subst h3
          refine Or.inr ⟨?_, ?_⟩
          · intro v hv
            simp only [List.mem_map] at hv
            obtain ⟨r, hr, hrv⟩ := hv
            cases r with
            | old w =>
              have := hold ni (List.mem_cons_self ni rest) w hr
              simp only at hrv
              omega
            | fresh k =>
              have := hfresh ni (List.mem_cons_self ni rest) k hr
              simp only at hrv
              omega
          · intro v hv
            simp only [List.mem_map, List.mem_range] at hv
            obtain ⟨j, hj, hjv⟩ := hv
            omega
      · exact Or.inr h2
    · rw [List.pairwise_cons]
      refine ⟨?_, ihp⟩
      intro a ha
      have := (ihr a ha).1
      rw [hii]
      omega
    · intro j hj
      rcases List.mem_cons.mp hj with hj | hj
      · subst hj
        rw [hii]
        omega
      · have := ihr j hj
        omega

/-- Well-formedness facts of the argument conversion loop: the grown graph
only holds old or in-bounds instructions, the rewritten value list stays in
bounds, and the accumulated instruction identities remain strictly
increasing, bounded, and (beyond the initial accumulator) fresh. -/
theorem legalize_args_loop_wf (g : Nat → Option ArgumentType) (fx off fuel : Nat) :
    ∀ (idxs : List Nat) (dfg : DFG) (s : PutState) (acc : List Nat) (dfg' : DFG)
      (s' : PutState) (acc' : List Nat),
      legalize_args_loop g fx off fuel idxs dfg s acc = .ok (dfg', s', acc') →
      (∀ v ∈ s.vlist, v < dfg.value_types.length) →
      acc.Pairwise (· < ·) →
      (∀ j ∈ acc, j < dfg.insts.length) →
      ((∀ dn ∈ dfg'.insts, dn ∈ dfg.insts ∨ InstRefsLt dn dfg'.value_types.length) ∧
       (∀ v ∈ s'.vlist, v < dfg'.value_types.length) ∧
       acc'.Pairwise (· < ·) ∧
       (∀ j ∈ acc', j < dfg'.insts.length) ∧
       (∀ j ∈ acc', j ∈ acc ∨ dfg.insts.length ≤ j)) := by
  intro idxs
  induction idxs with
  | nil =>
    intro dfg s acc dfg' s' acc' h hs hp hb
    simp only [legalize_args_loop, Except.ok.injEq, Prod.mk.injEq] at h
    obtain ⟨h1, h2, h3⟩ := h
    subst h1
    subst h2
    subst h3
    exact ⟨fun dn hdn => Or.inl hdn, hs, hp, hb, fun j hj => Or.inl hj⟩
  | cons a rest ih =>
    intro dfg s acc dfg' s' acc' h hs hp hb
    rw [legalize_args_loop] at h
    split at h
    · exact Except.noConfusion h
    case _ old_value hov =>
      split at h
      · exact Except.noConfusion h
      case _ dfg1 insts1 s1 hcv =>
        have hovb : old_value < dfg.value_types.length :=
          hs old_value (List.getElem?_mem hov)
        have hstep := convert_to_abi_wf g fx fuel dfg s old_value dfg1 insts1 s1 hcv hovb hs
        obtain ⟨sm, ss, sp, sr⟩ := hstep
        have hext1 := convert_to_abi_ext (inst_put_arg g fx) fuel _ _ _ _ _ _ hcv
        have hihp : (acc ++ insts1).Pairwise (· < ·) := by
          rw [List.pairwise_append]
          refine ⟨hp, sp, ?_⟩
          intro x hx y hy
          have h1 := hb x hx
          have h2 := (sr y hy).1
          omega
        have hihb : ∀ j ∈ acc ++ insts1, j < dfg1.insts.length := by
          intro j hj
          rcases List.mem_append.mp hj with hj | hj
          · have := hb j hj
            have := hext1.ilen_le
            omega
          · exact (sr j hj).2
        obtain ⟨im, is, ip, ib, ifr⟩ := ih dfg1 s1 (acc ++ insts1) dfg' s' acc' h ss hihp hihb
        have hextL := legalize_args_loop_ext g fx off fuel rest dfg1 s1 (acc ++ insts1)
          dfg' s' acc' h
        refine ⟨?_, is, ip, ib, ?_⟩
        · intro dn hdn
          rcases im dn hdn with h2 | h2
          · rcases sm dn h2 with h3 | h3
            · exact Or.inl h3
            · exact Or.inr (instRefsLt_mono h3 hextL.vlen_le)
          · exact Or.inr h2
        · intro j hj
          rcases ifr j hj with hj2 | hj2
          · rcases List.mem_append.mp hj2 with hj3 | hj3
            · exact Or.inl hj3
            · exact Or.inr (sr j hj3).1
          · have := hext1.ilen_le
            omega

/-- Well-formedness facts of `legalize_inst_arguments`: the grown graph only
holds old or in-bounds instructions, the rewritten instruction references
only existing values while keeping its opcode and results, and the inserted
instruction identities are fresh, strictly increasing and bounded. -/
theorem legalize_inst_arguments_wf (fuel : Nat) (dfg : DFG) (d : InstData)
    (abi_args : Nat) (g : Nat → Option ArgumentType) (dfg1 : DFG) (d1 : InstData)
    (newInsts : List Nat)
    (h : legalize_inst_arguments fuel dfg d abi_args g = .ok (dfg1, d1, newInsts))
    (hd : InstRefsLt d dfg.value_types.length)
    (hpos : 0 < dfg.value_types.length) :
    (∀ dn ∈ dfg1.insts, dn ∈ dfg.insts ∨ InstRefsLt dn dfg1.value_types.length) ∧
    InstRefsLt d1 dfg1.value_types.length ∧
    newInsts.Pairwise (· < ·) ∧
    (∀ j ∈ newInsts, dfg.insts.length ≤ j ∧ j < dfg1.insts.length) := by
  have hext := legalize_inst_arguments_ext fuel dfg d abi_args g dfg1 d1 newInsts h
  unfold legalize_inst_arguments at h
  dsimp only at h
  split at h
  · exact Except.noConfusion h
  split at h
  · exact Except.noConfusion h
  split at h
  · exact Except.noConfusion h
  case _ dfg2 s2 acc2 hloop =>
    simp only [Except.ok.injEq, Prod.mk.injEq] at h
    obtain ⟨h1, h2, h3⟩ := h
    subst h1
    subst h3
    have hv1 : ∀ v ∈ d.vlist.take d.opcode.fixed_value_arguments ++
        List.replicate (abi_args - (d.vlist.length - d.opcode.fixed_value_arguments)) 0 ++
        d.vlist.drop d.opcode.fixed_value_arguments, v < dfg.value_types.length := by
      intro v hv
      rcases List.mem_append.mp hv with hv2 | hv2
      · rcases List.mem_append.mp hv2 with hv3 | hv3
        · exact hd.1 v (List.mem_of_mem_take hv3)
        · rw [List.eq_of_mem_replicate hv3]
          exact hpos
      · exact hd.1 v (List.mem_of_mem_drop hv2)
    obtain ⟨lm, ls, lp, lb, lf⟩ := legalize_args_loop_wf g d.opcode.fixed_value_arguments
      (d.opcode.fixed_value_arguments +
        (abi_args - (d.vlist.length - d.opcode.fixed_value_arguments)))
      fuel (List.range (d.vlist.length - d.opcode.fixed_value_arguments)) dfg
      ⟨d.vlist.take d.opcode.fixed_value_arguments ++
        List.replicate (abi_args - (d.vlist.length - d.opcode.fixed_value_arguments)) 0 ++
        d.vlist.drop d.opcode.fixed_value_arguments, 0⟩ [] dfg2 s2 acc2 hloop hv1
      (by simp) (by simp)
    refine ⟨lm, ⟨?_, ?_⟩, lp, ?_⟩
    · rw [← h2]
      exact ls
    · rw [← h2]
      intro v hv
      have := hd.2 v hv
      have := hext.1.vlen_le
      omega
    · intro j hj
      refine ⟨?_, lb j hj⟩
      rcases lf j hj with hj2 | hj2
      · simp at hj2
      · exact hj2

/-- The mutation performed by the call/return rewriter — replace the
instruction's entry by its rewritten form and splice the fresh conversion
instructions into the block before it — preserves well-formedness, the types
of all pre-existing values, and the entries of all other pre-existing
instructions. -/
theorem rewrite_splice_spec (func f1 : Func) (b cur : Nat) (blk : List Nat) (i : Nat)
    (d1 : InstData) (dfg1 : DFG) (newInsts : List Nat)
    (hb : func.layout[b]? = some blk)
    (hf1 : f1 = { func with
        dfg := { dfg1 with insts := dfg1.insts.set i d1 },
        layout := func.layout.set b (blk.take cur ++ newInsts ++ blk.drop cur) })
    (hext : DfgExt func.dfg dfg1)
    (hm : ∀ dn ∈ dfg1.insts, dn ∈ func.dfg.insts ∨ InstRefsLt dn dfg1.value_types.length)
    (hd1 : InstRefsLt d1 dfg1.value_types.length)
    (hp : newInsts.Pairwise (· < ·))
    (hf : ∀ j ∈ newInsts, func.dfg.insts.length ≤ j ∧ j < dfg1.insts.length)
    (hwf : FuncWF func) :
    FuncWF f1 ∧
    (∀ v, v < func.dfg.value_types.length →
      f1.dfg.value_types[v]? = func.dfg.value_types[v]?) ∧
    (∀ j, j ≠ i → j < func.dfg.insts.length →
      f1.dfg.insts[j]? = func.dfg.insts[j]?) ∧
    f1.dfg.signatures = func.dfg.signatures ∧
    f1.signature = func.signature ∧
    f1.encodings = func.encodings ∧
    func.dfg.value_types.length ≤ f1.dfg.value_types.length := by
  subst hf1
  have hvlen : ({ func with
      dfg := { dfg1 with insts := dfg1.insts.set i d1 },
      layout := func.layout.set b (blk.take cur ++ newInsts ++ blk.drop cur) } :
      Func).dfg.value_types.length = dfg1.value_types.length := rfl
  have hilen : ({ func with
      dfg := { dfg1 with insts := dfg1.insts.set i d1 },
      layout := func.layout.set b (blk.take cur ++ newInsts ++ blk.drop cur) } :
      Func).dfg.insts.length = dfg1.insts.length := by
    simp
  refine ⟨⟨?_, ?_, ?_, ?_⟩, ?_, ?_, ?_, ?_, ?_, ?_⟩
  · -- vals
    intro dn hdn
    rcases List.mem_or_eq_of_mem_set hdn with h2 | h2
    · rcases hm dn h2 with h3 | h3
      · have h4 := hwf.vals dn h3
        have h5 := hext.vlen_le
        rw [hvlen]
        exact ⟨fun v hv => lt_of_lt_of_le (h4.1 v hv) h5,
               fun v hv => lt_of_lt_of_le (h4.2 v hv) h5⟩
      · rw [hvlen]
        exact h3
    · subst h2
      rw [hvlen]
      exact hd1
  · -- layout_bound
    intro blk2 hblk2 j hj
    rw [hilen]
    rcases List.mem_or_eq_of_mem_set hblk2 with h2 | h2
    · have h3 := hwf.layout_bound blk2 h2 j hj
      exact lt_of_lt_of_le h3 hext.ilen_le
    · subst h2
      rcases List.mem_append.mp hj with h3 | h3
      · rcases List.mem_append.mp h3 with h4 | h4
        · exact lt_of_lt_of_le
            (hwf.layout_bound blk (List.getElem?_mem hb) j (List.mem_of_mem_take h4))
            hext.ilen_le
        · exact (hf j h4).2
      · exact lt_of_lt_of_le
          (hwf.layout_bound blk (List.getElem?_mem hb) j (List.mem_of_mem_drop h3))
          hext.ilen_le
  · -- nodup
    refine splice_flatten_nodup func.layout b blk _ newInsts hb hwf.nodup
      (hp.imp Nat.ne_of_lt) ?_ ?_
    · intro n hn blk2 hblk2 hmem
      have h2 := hwf.layout_bound blk2 hblk2 n hmem
      have h3 := (hf n hn).1
      omega
    · intro a
      simp only [List.count_append]
      have h2 : (blk.take cur).count a + (blk.drop cur).count a = blk.count a := by
        rw [← List.count_append, List.take_append_drop]
      omega
  · -- vpos
    rw [hvlen]
    exact lt_of_lt_of_le hwf.vpos hext.vlen_le
  · intro v hv
    exact hext.value_types_get hv
  · intro j hji hjl
    show (dfg1.insts.set i d1)[j]? = func.dfg.insts[j]?
    rw [List.getElem?_set_ne (fun he => hji he.symm)]
    obtain ⟨e, he⟩ := hext.insts_ext
    rw [he, List.getElem?_append_left hjl]
  · exact hext.signatures_eq
  · rfl
  · rfl
  · rw [hvlen]
    exact hext.vlen_le

/-- When `handle_call_abi` rewrites a call it preserves well-formedness, the
types of pre-existing values, the entries of all other instructions, the
signature tables and the encoding table, and it only splices fresh
instructions into the block before the call. -/
theorem handle_call_abi_true_spec (fuel : Nat) (func f1 : Func) (b cur : Nat)
    (h : handle_call_abi fuel func b cur = .ok (f1, true)) (hwf : FuncWF func) :
    ∃ blk i,
      func.layout[b]? = some blk ∧ blk[cur]? = some i ∧
      FuncWF f1 ∧
      (∀ v, v < func.dfg.value_types.length →
        f1.dfg.value_types[v]? = func.dfg.value_types[v]?) ∧
      (∀ j, j ≠ i → j < func.dfg.insts.length →
        f1.dfg.insts[j]? = func.dfg.insts[j]?) ∧
      f1.dfg.signatures = func.dfg.signatures ∧
      f1.signature = func.signature ∧
      f1.encodings = func.encodings ∧
      (∃ newInsts, f1.layout =
        func.layout.set b (blk.take cur ++ newInsts ++ blk.drop cur)) := by
  unfold handle_call_abi at h
  split at h
  · exact Except.noConfusion h
  case _ blk hb =>
    split at h
    · exact Except.noConfusion h
    case _ i hc =>
      split at h
      · exact Except.noConfusion h
      case _ d hd =>
        split at h
        · exact Except.noConfusion h
        · simp at h
        case _ sr hsr =>
          split at h
          · exact Except.noConfusion h
          case _ sig hsig =>
            dsimp only at h
            split at h
            · exact Except.noConfusion h
            case _ dfg1 d1 newInsts hargs =>
              simp only [Except.ok.injEq, Prod.mk.injEq] at h
              obtain ⟨h1, -⟩ := h
              have hdm := hwf.vals d (List.getElem?_mem hd)
              obtain ⟨lm, ld1, lp, lf⟩ := legalize_inst_arguments_wf fuel func.dfg d
                sig.argument_types.length (fun k => sig.argument_types[k]?) dfg1 d1
                newInsts hargs hdm hwf.vpos
              have hext := (legalize_inst_arguments_ext fuel func.dfg d
                sig.argument_types.length (fun k => sig.argument_types[k]?) dfg1 d1
                newInsts hargs).1
              obtain ⟨w1, w2, w3, w4, w5, w6, -⟩ := rewrite_splice_spec func f1 b cur
                blk i d1 dfg1 newInsts hb h1.symm hext lm ld1 lp lf hwf
              exact ⟨blk, i, hb, hc, w1, w2, w3, w4, w5, w6,
                ⟨newInsts, by rw [← h1]⟩⟩

/-- When `handle_return_abi` rewrites a return it preserves well-formedness
and everything `handle_call_abi` preserves. -/
theorem handle_return_abi_true_spec (fuel : Nat) (func f1 : Func) (b cur : Nat)
    (h : handle_return_abi fuel func b cur = .ok (f1, true)) (hwf : FuncWF func) :
    ∃ blk i,
      func.layout[b]? = some blk ∧ blk[cur]? = some i ∧
      FuncWF f1 ∧
      (∀ v, v < func.dfg.value_types.length →
        f1.dfg.value_types[v]? = func.dfg.value_types[v]?) ∧
      (∀ j, j ≠ i → j < func.dfg.insts.length →
        f1.dfg.insts[j]? = func.dfg.insts[j]?) ∧
      f1.dfg.signatures = func.dfg.signatures ∧
      f1.signature = func.signature ∧
      f1.encodings = func.encodings ∧
      (∃ newInsts, f1.layout =
        func.layout.set b (blk.take cur ++ newInsts ++ blk.drop cur)) := by
  unfold handle_return_abi at h
  split at h
  · exact Except.noConfusion h
  case _ blk hb =>
    split at h
    · exact Except.noConfusion h
    case _ i hc =>
      split at h
      · exact Except.noConfusion h
      case _ d hd =>
        dsimp only at h
        split at h
        · simp at h
        · split at h
          · exact Except.noConfusion h
          case _ dfg1 d1 newInsts hargs =>
            simp only [Except.ok.injEq, Prod.mk.injEq] at h
            obtain ⟨h1, -⟩ := h
            have hdm := hwf.vals d (List.getElem?_mem hd)
            obtain ⟨lm, ld1, lp, lf⟩ := legalize_inst_arguments_wf fuel func.dfg d
              func.signature.return_types.length
              (fun k => func.signature.return_types[k]?) dfg1 d1
              newInsts hargs hdm hwf.vpos
            have hext := (legalize_inst_arguments_ext fuel func.dfg d
              func.signature.return_types.length
              (fun k => func.signature.return_types[k]?) dfg1 d1
              newInsts hargs).1
            obtain ⟨w1, w2, w3, w4, w5, w6, -⟩ := rewrite_splice_spec func f1 b cur
              blk i d1 dfg1 newInsts hb h1.symm hext lm ld1 lp lf hwf
            exact ⟨blk, i, hb, hc, w1, w2, w3, w4, w5, w6,
              ⟨newInsts, by rw [← h1]⟩⟩

/-- The facts run forward by the driver when the ABI boundary step rewrote
the instruction at the cursor. -/
theorem abi_boundary_true_spec (fuel : Nat) (func f1 : Func) (b cur : Nat) (d : InstData)
    (h : abi_boundary fuel func b cur d = .ok (f1, true)) (hwf : FuncWF func) :
    ∃ blk i,
      func.layout[b]? = some blk ∧ blk[cur]? = some i ∧
      FuncWF f1 ∧
      (∀ v, v < func.dfg.value_types.length →
        f1.dfg.value_types[v]? = func.dfg.value_types[v]?) ∧
      (∀ j, j ≠ i → j < func.dfg.insts.length →
        f1.dfg.insts[j]? = func.dfg.insts[j]?) ∧
      f1.dfg.signatures = func.dfg.signatures ∧
      f1.signature = func.signature ∧
      f1.encodings = func.encodings ∧
      (∃ newInsts, f1.layout =
        func.layout.set b (blk.take cur ++ newInsts ++ blk.drop cur)) := by
  unfold abi_boundary at h
  split at h
  · exact handle_call_abi_true_spec fuel func f1 b cur h hwf
  split at h
  · exact handle_return_abi_true_spec fuel func f1 b cur h hwf
  · simp at h

/-- When the ABI boundary step reports no change for the instruction at the
cursor, a call at the cursor already matches its signature and a return at
the cursor already matches the function's return types. -/
theorem abi_boundary_false_checks (fuel : Nat) (func f1 : Func) (b cur : Nat)
    (blk : List Nat) (i : Nat) (d : InstData)
    (hb : func.layout[b]? = some blk) (hc : blk[cur]? = some i)
    (hd : func.dfg.insts[i]? = some d)
    (h : abi_boundary fuel func b cur d = .ok (f1, false)) :
    (d.opcode.is_call = true → check_call_signature func.dfg d = .ok none) ∧
    (d.opcode.is_return = true →
      check_arg_types func.dfg (d.vlist.drop d.opcode.fixed_value_arguments)
        func.signature.return_types = true) := by
  unfold abi_boundary at h
  split at h
  case _ hcall =>
    constructor
    · intro _
      unfold handle_call_abi at h
      simp only [hb, hc, hd] at h
      split at h
      · exact Except.noConfusion h
      case _ hchk => exact hchk
      · split at h
        · exact Except.noConfusion h
        · split at h
          · exact Except.noConfusion h
          · simp at h
    · intro hret
      exfalso
      cases hop : d.opcode <;> rw [hop] at hcall hret <;>
        simp [Opcode.is_call, Opcode.is_return] at hcall hret
  case _ hncall =>
    split at h
    case _ hret0 =>
      constructor
      · intro hcall
        exact absurd hcall hncall
      · intro _
        unfold handle_return_abi at h
        simp only [hb, hc, hd] at h
        split at h
        case _ hchk => exact hchk
        · split at h
          · exact Except.noConfusion h
          · simp at h
    case _ hnret =>
      constructor
      · intro hcall
        exact absurd hcall hncall
      · intro hret
        exact absurd hret hnret

/-- In a duplicate-free layout, an instruction occupying a position other
than the cursor differs from the instruction at the cursor. -/
theorem done_ne_cursor (L : List (List Nat)) (hnd : L.flatten.Nodup)
    (b cur : Nat) (blk : List Nat) (i : Nat)
    (hb : L[b]? = some blk) (hc : blk[cur]? = some i)
    (b2 idx2 : Nat) (blk2 : List Nat) (j : Nat)
    (hb2 : L[b2]? = some blk2) (hc2 : blk2[idx2]? = some j)
    (hne : b2 ≠ b ∨ idx2 ≠ cur) : j ≠ i := by
  intro he
  subst he
  obtain ⟨hbb, hii⟩ :=
    flatten_nodup_positional L hnd b2 blk2 idx2 b blk cur j hb2 hc2 hb hc
  rcases hne with hne | hne
  · exact hne hbb
  · exact hne hii

/-- Transporting the driver's done-prefix across a step that replaces the
block at the cursor by a splice around the cursor position and otherwise
preserves the instruction entries, value types, signatures and encodings of
everything already processed. -/
theorem done_prefix_splice (isa : Isa) (func f2 : Func) (b cur k : Nat)
    (blk news : List Nat) (i : Nat)
    (hb : func.layout[b]? = some blk) (hc : blk[cur]? = some i)
    (hwf : FuncWF func)
    (hlay : f2.layout = func.layout.set b (blk.take cur ++ news ++ blk.drop k))
    (hj : ∀ j, j ≠ i → j < func.dfg.insts.length →
      f2.dfg.insts[j]? = func.dfg.insts[j]?)
    (htypes : ∀ v, v < func.dfg.value_types.length →
      f2.dfg.value_types[v]? = func.dfg.value_types[v]?)
    (hsigs : f2.dfg.signatures = func.dfg.signatures)
    (hsig : f2.signature = func.signature)
    (henc : ∀ j, f2.encodings j = func.encodings j)
    (hdone : DonePrefix (InstGood isa func) func.layout b cur) :
    DonePrefix (InstGood isa f2) f2.layout b cur := by
  have hcur : cur < blk.length := lt_of_getElem?_eq_some hc
  constructor
  · intro b2 blk2 hlt hb2 i2 hi2
    rw [hlay, List.getElem?_set_ne (fun he => absurd he.symm (Nat.ne_of_lt hlt))] at hb2
    obtain ⟨idx2, hidx2⟩ := List.mem_iff_getElem?.mp hi2
    have hne : i2 ≠ i := done_ne_cursor func.layout hwf.nodup b cur blk i hb hc
      b2 idx2 blk2 i2 hb2 hidx2 (Or.inl (Nat.ne_of_lt hlt))
    exact InstGood_transport isa func f2 i2
      (hj i2 hne (hwf.layout_bound blk2 (List.getElem?_mem hb2) i2 hi2))
      htypes hsigs hsig (henc i2)
      (fun dd hdd => hwf.vals dd (List.getElem?_mem hdd))
      (hdone.1 b2 blk2 hlt hb2 i2 hi2)
  · intro blk2 hb2 idx i2 hidx hget
    rw [hlay] at hb2
    have hble : b < func.layout.length := lt_of_getElem?_eq_some hb
    rw [show (func.layout.set b (blk.take cur ++ news ++ blk.drop k))[b]? =
        some (blk.take cur ++ news ++ blk.drop k) by
      simp [List.getElem?_set_self, hble]] at hb2
    have hblk2 : blk2 = blk.take cur ++ news ++ blk.drop k := (Option.some.inj hb2).symm
    subst hblk2
    have hidxt : idx < (blk.take cur ++ news).length := by
      simp
      omega
    rw [List.getElem?_append_left hidxt] at hget
    have hidxt2 : idx < (blk.take cur).length := by
      simp
      omega
    rw [List.getElem?_append_left hidxt2] at hget
    rw [List.getElem?_take] at hget
    rw [if_pos hidx] at hget
    have hne : i2 ≠ i := done_ne_cursor func.layout hwf.nodup b cur blk i hb hc
      b idx blk i2 hb hget (Or.inr (Nat.ne_of_lt hidx))
    exact InstGood_transport isa func f2 i2
      (hj i2 hne (hwf.layout_bound blk (List.getElem?_mem hb) i2 (List.getElem?_mem hget)))
      htypes hsigs hsig (henc i2)
      (fun dd hdd => hwf.vals dd (List.getElem?_mem hdd))
      (hdone.2 blk hb idx i2 hidx hget)

/-- Positions strictly before the cursor stay strictly before it when the
cursor advances. -/
theorem done_id_mono (layout : List (List Nat)) (b cur j : Nat)
    (h : DoneId layout b cur j) : DoneId layout b (cur + 1) j := by
  obtain ⟨b2, blk2, idx2, hlt, hb2, hi2⟩ := h
  refine ⟨b2, blk2, idx2, ?_, hb2, hi2⟩
  rcases hlt with hlt | ⟨heq, hltc⟩
  · exact Or.inl hlt
  · exact Or.inr ⟨heq, by omega⟩

/-- Positions strictly before the cursor survive a splice of the cursor's
block at the cursor position. -/
theorem done_id_splice (layout : List (List Nat)) (b cur k : Nat)
    (blk news : List Nat) (j : Nat) (hb : layout[b]? = some blk)
    (h : DoneId layout b cur j) :
    DoneId (layout.set b (blk.take cur ++ news ++ blk.drop k)) b cur j := by
  obtain ⟨b2, blk2, idx2, hlt, hb2, hi2⟩ := h
  rcases hlt with hlt | ⟨heq, hltc⟩
  · refine ⟨b2, blk2, idx2, Or.inl hlt, ?_, hi2⟩
    rw [List.getElem?_set_ne (fun he => absurd he.symm (Nat.ne_of_lt hlt))]
    exact hb2
  · subst heq
    have hbe : blk2 = blk := Option.some.inj (hb2.symm.trans hb)
    rw [hbe] at hb2 hi2
    have hidx2 : idx2 < blk.length := lt_of_getElem?_eq_some hi2
    refine ⟨b2, blk.take cur ++ news ++ blk.drop k, idx2, Or.inr ⟨rfl, hltc⟩, ?_, ?_⟩
    · simp [List.getElem?_set_self, lt_of_getElem?_eq_some hb2]
    · have h1 : idx2 < (blk.take cur ++ news).length := by
        simp
        omega
      rw [List.getElem?_append_left h1]
      have h2 : idx2 < (blk.take cur).length := by
        simp
        omega
      rw [List.getElem?_append_left h2]
      rw [List.getElem?_take]
      rw [if_pos hltc]
      exact hi2

/-- The driver's invariant: a completed run leaves a well-formed function in
which every instruction of every remaining block satisfies the
per-instruction postcondition `InstGood` — calls and returns type-check
against their signatures, and the encoder's verdict is recorded (legal
instructions carry their encoding, illegal ones are exactly those whose
designated rewrite engine reported no change, left with no entry). -/
theorem run_inv (isa : Isa) (hisa : IsaWF isa) :
    ∀ (fuel : Nat) (func : Func) (b cur : Nat) (f1 : Func),
      run isa fuel func b cur = .ok f1 →
      FuncWF func →
      DonePrefix (InstGood isa func) func.layout b cur →
      (∀ j e, func.encodings j = some e → DoneId func.layout b cur j) →
      FuncWF f1 ∧ ∀ blk ∈ f1.layout, ∀ i ∈ blk, InstGood isa f1 i := by
  intro fuel
  induction fuel with
  | zero =>
    intro func b cur f1 h
    rw [run] at h
    exact RunResult.noConfusion h
  | succ fuel ih =>
    intro func b cur f1 h hwf hdone henc0
    rw [run] at h
    split at h
    case _ hbnone =>
      simp only [RunResult.ok.injEq] at h
      subst h
      refine ⟨hwf, ?_⟩
      intro blk hblk i hi
      obtain ⟨b2, hb2⟩ := List.mem_iff_getElem?.mp hblk
      have hble : func.layout.length ≤ b := by
        rw [List.getElem?_eq_none_iff] at hbnone
        exact hbnone
      have hb2lt : b2 < b := lt_of_lt_of_le (lt_of_getElem?_eq_some hb2) hble
      exact hdone.1 b2 blk hb2lt hb2 i hi
    case _ blk hb =>
      split at h
      case _ hcnone =>
        refine ih func (b + 1) 0 f1 h hwf ⟨?_, ?_⟩ ?_
        · intro b2 blk2 hlt hb2 i2 hi2
          rcases Nat.lt_succ_iff_lt_or_eq.mp hlt with hlt2 | heq2
          · exact hdone.1 b2 blk2 hlt2 hb2 i2 hi2
          · subst heq2
            rw [hb] at hb2
            have hbe : blk = blk2 := Option.some.inj hb2
            subst hbe
            obtain ⟨idx, hidx⟩ := List.mem_iff_getElem?.mp hi2
            have hlen : blk.length ≤ cur := by
              rw [List.getElem?_eq_none_iff] at hcnone
              exact hcnone
            have hidxlt : idx < blk.length := lt_of_getElem?_eq_some hidx
            exact hdone.2 blk hb idx i2 (by omega) hidx
        · intro blk2 hb2 idx i2 hidx hget
          omega
        · intro j e hje
          obtain ⟨b2, blk2, idx2, hlt, hb2, hi2⟩ := henc0 j e hje
          refine ⟨b2, blk2, idx2, Or.inl ?_, hb2, hi2⟩
          rcases hlt with hlt | ⟨heq, hltc⟩ <;> omega
      case _ i hc =>
        split at h
        · exact RunResult.noConfusion h
        case _ d hd =>
          split at h
          · exact RunResult.noConfusion h
          case _ func1 habi =>
            obtain ⟨blk', i', hb', hc', wf1, vt1, ij1, sg1, sig1, enc1, news, hlay1⟩ :=
              abi_boundary_true_spec (fuel + 1) func func1 b cur d habi hwf
            rw [hb] at hb'
            have hbe : blk = blk' := Option.some.inj hb'
            subst hbe
            rw [hc] at hc'
            have hie : i = i' := Option.some.inj hc'
            subst hie
            refine ih func1 b cur f1 h wf1 ?_ ?_
            · exact done_prefix_splice isa func func1 b cur cur blk news i hb hc hwf
                hlay1 ij1 vt1 sg1 sig1 (fun j => congrFun enc1 j) hdone
            · intro j e hje
              have hje2 : func.encodings j = some e := by
                rw [← congrFun enc1 j]
                exact hje
              rw [hlay1]
              exact done_id_splice func.layout b cur cur blk news j hb
                (henc0 j e hje2)
          case _ f0 habi =>
            have hchecks := abi_boundary_false_checks (fuel + 1) func f0 b cur blk i d
              hb hc hd habi
            split at h
            case _ enc henc =>
              refine ih (set_encoding func i enc) b (cur + 1) f1 h
                ⟨hwf.vals, hwf.layout_bound, hwf.nodup, hwf.vpos⟩ ⟨?_, ?_⟩ ?_
              · intro b2 blk2 hlt hb2 i2 hi2
                obtain ⟨idx2, hidx2⟩ := List.mem_iff_getElem?.mp hi2
                have hne : i2 ≠ i := done_ne_cursor func.layout hwf.nodup b cur blk i
                  hb hc b2 idx2 blk2 i2 hb2 hidx2 (Or.inl (Nat.ne_of_lt hlt))
                exact InstGood_transport isa func (set_encoding func i enc) i2 rfl
                  (fun v hv => rfl) rfl rfl (by simp [set_encoding, hne])
                  (fun dd hdd => hwf.vals dd (List.getElem?_mem hdd))
                  (hdone.1 b2 blk2 hlt hb2 i2 hi2)
              · intro blk2 hb2 idx i2 hidx hget
                have hbe : blk = blk2 := Option.some.inj ((hb.symm).trans hb2)
                subst hbe
                rcases Nat.lt_succ_iff_lt_or_eq.mp hidx with hlt2 | heq2
                · have hne : i2 ≠ i := done_ne_cursor func.layout hwf.nodup b cur blk i
                    hb hc b idx blk i2 hb hget (Or.inr (Nat.ne_of_lt hlt2))
                  exact InstGood_transport isa func (set_encoding func i enc) i2 rfl
                    (fun v hv => rfl) rfl rfl (by simp [set_encoding, hne])
                    (fun dd hdd => hwf.vals dd (List.getElem?_mem hdd))
                    (hdone.2 blk hb idx i2 hlt2 hget)
                · subst heq2
                  have hie : i2 = i := Option.some.inj ((hget.symm).trans hc)
                  subst hie
                  refine ⟨d, hd, hchecks.1, hchecks.2, ?_⟩
                  show (match isa.encode d (instArgTys func.dfg d)
                      (instResTys func.dfg d) with
                    | .ok e => (set_encoding func i2 enc).encodings i2 = some e
                    | .error a =>
                      isa.engine a d (instArgTys func.dfg d) (instResTys func.dfg d) =
                          none ∧
                        (set_encoding func i2 enc).encodings i2 = none)
                  rw [henc]
                  simp [set_encoding]
              · intro j e hje
                by_cases hji : j = i
                · subst hji
                  exact ⟨b, blk, cur, Or.inr ⟨rfl, Nat.lt_succ_self cur⟩, hb, hc⟩
                · have hje2 : func.encodings j = some e := by
                    simpa [set_encoding, hji] using hje
                  exact done_id_mono func.layout b cur j (henc0 j e hje2)
            case _ action henc =>
              split at h
              case _ heng =>
                refine ih func b (cur + 1) f1 h hwf ⟨hdone.1, ?_⟩ ?_
                · intro blk2 hb2 idx i2 hidx hget
                  have hbe : blk = blk2 := Option.some.inj ((hb.symm).trans hb2)
                  subst hbe
                  rcases Nat.lt_succ_iff_lt_or_eq.mp hidx with hlt2 | heq2
                  · exact hdone.2 blk hb idx i2 hlt2 hget
                  · subst heq2
                    have hie : i2 = i := Option.some.inj ((hget.symm).trans hc)
                    subst hie
                    refine ⟨d, hd, hchecks.1, hchecks.2, ?_⟩
                    show (match isa.encode d (instArgTys func.dfg d)
                        (instResTys func.dfg d) with
                      | .ok e => func.encodings i2 = some e
                      | .error a =>
                        isa.engine a d (instArgTys func.dfg d)
                            (instResTys func.dfg d) = none ∧
                          func.encodings i2 = none)
                    rw [henc]
                    refine ⟨heng, ?_⟩
                    cases hni : func.encodings i2 with
                    | none => rfl
                    | some e =>
                      exfalso
                      obtain ⟨b2, blk2, idx2, hlt, hb2, hi2⟩ := henc0 i2 e hni
                      obtain ⟨hbeq, hieq⟩ := flatten_nodup_positional func.layout
                        hwf.nodup b2 blk2 idx2 b blk idx i2 hb2 hi2 hb hc
                      rcases hlt with hlt | ⟨heq2, hlt2⟩ <;> omega
                · intro j e hje
                  exact done_id_mono func.layout b cur j (henc0 j e hje)
              case _ repl heng =>
                have hdrefs := hwf.vals d (List.getElem?_mem hd)
                have hengWF : EngineFnWF (isa.engine action) := by
                  cases action with
                  | expand => exact hisa.expandWF
                  | narrow => exact hisa.narrowWF
                have hrefs := hengWF d (instArgTys func.dfg d) (instResTys func.dfg d)
                  repl heng
                rcases hmat : materialize_loop func.dfg.value_types.length repl func.dfg
                  with ⟨dfg1, ids⟩
                obtain ⟨mv, mext, mm, mp, mr⟩ := materialize_wf
                  func.dfg.value_types.length
                  ((repl.map (fun x => x.result_types.length)).sum) repl func.dfg dfg1
                  ids hmat
                  (fun ni hni v hv =>
                    match (hrefs ni hni).1 v hv with
                    | Or.inl h2 => hdrefs.1 v h2
                    | Or.inr h2 => hdrefs.2 v h2)
                  (fun ni hni k hk => (hrefs ni hni).2 k hk)
                  (Nat.le_refl _) (Nat.le_refl _)
                have hrep : replace_inst func b cur blk repl =
                    { func with
                        dfg := dfg1,
                        layout := func.layout.set b
                          (blk.take cur ++ ids ++ blk.drop (cur + 1)) } := by
                  unfold replace_inst
                  rw [hmat]
                have wf2 : FuncWF (replace_inst func b cur blk repl) := by
                  rw [hrep]
                  refine ⟨?_, ?_, ?_, ?_⟩
                  · intro dn hdn
                    rcases mm dn hdn with h2 | h2
                    · have h3 := hwf.vals dn h2
                      have h4 := mext.vlen_le
                      exact ⟨fun v hv => lt_of_lt_of_le (h3.1 v hv) h4,
                             fun v hv => lt_of_lt_of_le (h3.2 v hv) h4⟩
                    · show InstRefsLt dn dfg1.value_types.length
                      rw [mv]
                      exact h2
                  · intro blk2 hblk2 j hj
                    show j < dfg1.insts.length
                    rcases List.mem_or_eq_of_mem_set hblk2 with h2 | h2
                    · exact lt_of_lt_of_le (hwf.layout_bound blk2 h2 j hj) mext.ilen_le
                    · subst h2
                      rcases List.mem_append.mp hj with h3 | h3
                      · rcases List.mem_append.mp h3 with h4 | h4
                        · exact lt_of_lt_of_le
                            (hwf.layout_bound blk (List.getElem?_mem hb) j
                              (List.mem_of_mem_take h4)) mext.ilen_le
                        · exact (mr j h4).2
                      · exact lt_of_lt_of_le
                          (hwf.layout_bound blk (List.getElem?_mem hb) j
                            (List.mem_of_mem_drop h3)) mext.ilen_le
                  · show (func.layout.set b
                        (blk.take cur ++ ids ++ blk.drop (cur + 1))).flatten.Nodup
                    refine splice_flatten_nodup func.layout b blk _ ids hb hwf.nodup
                      (mp.imp Nat.ne_of_lt) ?_ ?_
                    · intro n hn blk2 hblk2 hmem
                      have h2 := hwf.layout_bound blk2 hblk2 n hmem
                      have h3 := (mr n hn).1
                      omega
                    · intro a
                      simp only [List.count_append]
                      have h2 : ((blk.take cur ++ blk.drop (cur + 1)).count a) ≤
                          blk.count a :=
                        (take_drop_sublist blk cur (cur + 1) (by omega)).count_le a
                      rw [List.count_append] at h2
                      omega
                  · show 0 < dfg1.value_types.length
                    exact lt_of_lt_of_le hwf.vpos mext.vlen_le
                refine ih (replace_inst func b cur blk repl) b cur f1 h wf2 ?_ ?_
                rotate_left
                · intro j e hje
                  have hje2 : func.encodings j = some e := hje
                  rw [hrep]
                  exact done_id_splice func.layout b cur (cur + 1) blk ids j hb
                    (henc0 j e hje2)
                refine done_prefix_splice isa func (replace_inst func b cur blk repl)
                  b cur (cur + 1) blk ids i hb hc hwf (by rw [hrep]) ?_ ?_ ?_ ?_ ?_ hdone
                · intro j hji hjl
                  rw [hrep]
                  show dfg1.insts[j]? = func.dfg.insts[j]?
                  obtain ⟨e, he⟩ := mext.insts_ext
                  rw [he, List.getElem?_append_left hjl]
                · intro v hv
                  rw [hrep]
                  exact mext.value_types_get hv
                · rw [hrep]
                  exact mext.signatures_eq
                · rw [hrep]
                · intro j
                  rw [hrep]

/-! ## Well-formedness of the entry argument phase -/

/-- Composing two end-extensions of a list. -/
theorem exts_trans {α : Type} {l1 l2 l3 : List α}
    (h1 : ∃ e, l2 = l1 ++ e) (h2 : ∃ e, l3 = l2 ++ e) : ∃ e, l3 = l1 ++ e := by
  obtain ⟨e1, he1⟩ := h1
  obtain ⟨e2, he2⟩ := h2
  exact ⟨e1 ++ e2, by rw [he2, he1, List.append_assoc]⟩

/-- An end-extension never shrinks a list. -/
theorem exts_len_le {α : Type} {l1 l2 : List α} (h : ∃ e, l2 = l1 ++ e) :
    l1.length ≤ l2.length := by
  obtain ⟨e, he⟩ := h
  rw [he]
  simp

/-- Appending the single freshly built instruction after the recursive
conversions (the concatenating instruction of `convert_from_abi`). -/
theorem convert_wf_append
    {dfg dfg2 dfg3 : DFG} {newd : InstData} {l12 : List Nat}
    (h3i : dfg3.insts = dfg2.insts ++ [newd])
    (hnew : InstRefsLt newd dfg3.value_types.length)
    (m12 : ∀ dn ∈ dfg2.insts, dn ∈ dfg.insts ∨ InstRefsLt dn dfg2.value_types.length)
    (hv23 : dfg2.value_types.length ≤ dfg3.value_types.length)
    (p : l12.Pairwise (· < ·))
    (r : ∀ j ∈ l12, dfg.insts.length ≤ j ∧ j < dfg2.insts.length)
    (hi : dfg.insts.length ≤ dfg2.insts.length) :
    (∀ dn ∈ dfg3.insts, dn ∈ dfg.insts ∨ InstRefsLt dn dfg3.value_types.length) ∧
    (l12 ++ [dfg2.insts.length]).Pairwise (· < ·) ∧
    (∀ j ∈ l12 ++ [dfg2.insts.length], dfg.insts.length ≤ j ∧ j < dfg3.insts.length) := by
  have hlen3 : dfg3.insts.length = dfg2.insts.length + 1 := by
    rw [h3i]
    simp
  refine ⟨?_, ?_, ?_⟩
  · intro dn hdn
    rw [h3i] at hdn
    rcases List.mem_append.mp hdn with h2 | h2
    · rcases m12 dn h2 with h3 | h3
      · exact Or.inl h3
      · exact Or.inr (instRefsLt_mono h3 hv23)
    · rw [List.mem_singleton] at h2
      subst h2
      exact Or.inr hnew
  · rw [List.pairwise_append]
    refine ⟨p, by simp, ?_⟩
    intro a ha c hc
    rw [List.mem_singleton] at hc
    subst hc
    exact (r a ha).2
  · intro j hj
    rcases List.mem_append.mp hj with hj | hj
    · have := r j hj
      omega
    · rw [List.mem_singleton] at hj
      subst hj
      omega

/-- A successful `convert_from_abi` only appends instructions and values,
leaves the signature table alone, returns an in-bounds value, keeps every
instruction well-formed, and inserts fresh, strictly increasing instruction
identities. -/
theorem convert_from_abi_wf (abi_types : List ArgumentType) :
    ∀ (fuel : Nat) (dfg : DFG) (abi_arg : Nat) (ty : Ty) (dfg' : DFG) (v a : Nat)
      (l : List Nat),
      convert_from_abi abi_types fuel dfg abi_arg ty = .ok (dfg', v, a, l) →
      ((∃ ext, dfg'.insts = dfg.insts ++ ext) ∧
       (∃ ext, dfg'.value_types = dfg.value_types ++ ext) ∧
       dfg'.signatures = dfg.signatures ∧
       v < dfg'.value_types.length ∧
       (∀ dn ∈ dfg'.insts, dn ∈ dfg.insts ∨ InstRefsLt dn dfg'.value_types.length) ∧
       l.Pairwise (· < ·) ∧
       (∀ j ∈ l, dfg.insts.length ≤ j ∧ j < dfg'.insts.length)) := by
  intro fuel
  induction fuel with
  | zero =>
    intro dfg abi_arg ty dfg' v a l h
    simp [convert_from_abi] at h
  | succ fuel ih =>
    intro dfg abi_arg ty dfg' v a l h
    rw [convert_from_abi] at h
    split at h
    · exact Except.noConfusion h
    case _ at0 hat =>
      split at h
      · -- base case: the type at the cursor matches
        dsimp only at h
        simp only [Except.ok.injEq, Prod.mk.injEq] at h
        obtain ⟨h1, h2, h3, h4⟩ := h
        subst h1
        subst h2
        subst h3
        subst h4
        refine ⟨⟨[], by simp⟩, ⟨[ty], rfl⟩, rfl, by simp, fun dn hdn => Or.inl hdn,
          by simp, by simp⟩
      · split at h
        · exact Except.noConfusion h
        · -- IntSplit
          split at h
          · exact Except.noConfusion h
          case _ abi_ty hhw =>
            split at h
            · exact Except.noConfusion h
            case _ dfg1 lo a1 l1 hr1 =>
              split at h
              · exact Except.noConfusion h
              case _ dfg2 hi2 a2 l2 hr2 =>
                simp only [Except.ok.injEq, Prod.mk.injEq] at h
                obtain ⟨h1, h2, h3, h4⟩ := h
                subst h1
                subst h2
                subst h3
                subst h4
                obtain ⟨e1, e2, es1, hv1, m1, p1, r1⟩ := ih _ _ _ _ _ _ _ hr1
                obtain ⟨f1, f2, fs1, hv2, m2, p2, r2⟩ := ih _ _ _ _ _ _ _ hr2
                have hins : (dfg2.make_inst1 .iconcat_lohi [lo, hi2] ty).1.insts =
                    dfg2.insts ++
                      [⟨.iconcat_lohi, [lo, hi2], [dfg2.value_types.length]⟩] := rfl
                have hvl : (dfg2.make_inst1 .iconcat_lohi [lo, hi2] ty).1.value_types =
                    dfg2.value_types ++ [ty] := rfl
                have hi3 : (dfg2.make_inst1 .iconcat_lohi [lo, hi2] ty).2.1 =
                    dfg2.insts.length := rfl
                have hres : (dfg2.make_inst1 .iconcat_lohi [lo, hi2] ty).2.2 =
                    dfg2.value_types.length := rfl
                have hvlen : (dfg2.make_inst1 .iconcat_lohi [lo, hi2] ty).1.value_types.length =
                    dfg2.value_types.length + 1 := by
                  rw [hvl]
                  simp
                have hv12 : dfg1.value_types.length ≤ dfg2.value_types.length :=
                  exts_len_le f2
                have hcomp := convert_wf_compose m1 m2 hv12 p1 p2 r1 r2
                  (exts_len_le e1) (exts_len_le f1)
                have happ := convert_wf_append hins
                  ⟨by
                    intro w hw
                    rw [hvlen]
                    rcases List.mem_cons.mp hw with hw | hw
                    · subst hw
                      omega
                    · rw [List.mem_singleton] at hw
                      subst hw
                      omega,
                   by
                    intro w hw
                    rw [List.mem_singleton] at hw
                    subst hw
                    rw [hvlen]
                    omega⟩
                  hcomp.1 (by rw [hvlen]; omega) hcomp.2.1 hcomp.2.2
                  (le_trans (exts_len_le e1) (exts_len_le f1))
                rw [hi3, hres]
                refine ⟨?_, ?_, ?_, ?_, happ.1, happ.2.1, happ.2.2⟩
                · exact exts_trans (exts_trans e1 f1) ⟨_, hins⟩
                · exact exts_trans (exts_trans e2 f2) ⟨[ty], hvl⟩
                · rw [show (dfg2.make_inst1 .iconcat_lohi [lo, hi2] ty).1.signatures =
                    dfg2.signatures from rfl, fs1, es1]
                · rw [hvlen]
                  omega
        · -- VectorSplit
          split at h
          · exact Except.noConfusion h
          case _ abi_ty hhw =>
            split at h
            · exact Except.noConfusion h
            case _ dfg1 lo a1 l1 hr1 =>
              split at h
              · exact Except.noConfusion h
              case _ dfg2 hi2 a2 l2 hr2 =>
                simp only [Except.ok.injEq, Prod.mk.injEq] at h
                obtain ⟨h1, h2, h3, h4⟩ := h
                subst h1
                subst h2
                subst h3
                subst h4
                obtain ⟨e1, e2, es1, hv1, m1, p1, r1⟩ := ih _ _ _ _ _ _ _ hr1
                obtain ⟨f1, f2, fs1, hv2, m2, p2, r2⟩ := ih _ _ _ _ _ _ _ hr2
                have hins : (dfg2.make_inst1 .vconcat [lo, hi2] ty).1.insts =
                    dfg2.insts ++
                      [⟨.vconcat, [lo, hi2], [dfg2.value_types.length]⟩] := rfl
                have hvl : (dfg2.make_inst1 .vconcat [lo, hi2] ty).1.value_types =
                    dfg2.value_types ++ [ty] := rfl
                have hi3 : (dfg2.make_inst1 .vconcat [lo, hi2] ty).2.1 =
                    dfg2.insts.length := rfl
                have hres : (dfg2.make_inst1 .vconcat [lo, hi2] ty).2.2 =
                    dfg2.value_types.length := rfl
                have hvlen : (dfg2.make_inst1 .vconcat [lo, hi2] ty).1.value_types.length =
                    dfg2.value_types.length + 1 := by
                  rw [hvl]
                  simp
                have hv12 : dfg1.value_types.length ≤ dfg2.value_types.length :=
                  exts_len_le f2
                have hcomp := convert_wf_compose m1 m2 hv12 p1 p2 r1 r2
                  (exts_len_le e1) (exts_len_le f1)
                have happ := convert_wf_append hins
                  ⟨by
                    intro w hw
                    rw [hvlen]
                    rcases List.mem_cons.mp hw with hw | hw
                    · subst hw
                      omega
                    · rw [List.mem_singleton] at hw
                      subst hw
                      omega,
                   by
                    intro w hw
                    rw [List.mem_singleton] at hw
                    subst hw
                    rw [hvlen]
                    omega⟩
                  hcomp.1 (by rw [hvlen]; omega) hcomp.2.1 hcomp.2.2
                  (le_trans (exts_len_le e1) (exts_len_le f1))
                rw [hi3, hres]
                refine ⟨?_, ?_, ?_, ?_, happ.1, happ.2.1, happ.2.2⟩
                · exact exts_trans (exts_trans e1 f1) ⟨_, hins⟩
                · exact exts_trans (exts_trans e2 f2) ⟨[ty], hvl⟩
                · rw [show (dfg2.make_inst1 .vconcat [lo, hi2] ty).1.signatures =
                    dfg2.signatures from rfl, fs1, es1]
                · rw [hvlen]
                  omega
        · -- IntBits
          split at h
          · exact Except.noConfusion h
          split at h
          · exact Except.noConfusion h
          case _ abi_ty hofb =>
            split at h
            · exact Except.noConfusion h
            case _ dfg1 arg a1 l1 hr1 =>
              simp only [Except.ok.injEq, Prod.mk.injEq] at h
              obtain ⟨h1, h2, h3, h4⟩ := h
              subst h1
              subst h2
              subst h3
              subst h4
              obtain ⟨e1, e2, es1, hv1, m1, p1, r1⟩ := ih _ _ _ _ _ _ _ hr1
              have hins : (dfg1.make_inst1 .bitcast [arg] ty).1.insts =
                  dfg1.insts ++ [⟨.bitcast, [arg], [dfg1.value_types.length]⟩] := rfl
              have hvl : (dfg1.make_inst1 .bitcast [arg] ty).1.value_types =
                  dfg1.value_types ++ [ty] := rfl
              have hi3 : (dfg1.make_inst1 .bitcast [arg] ty).2.1 =
                  dfg1.insts.length := rfl
              have hres : (dfg1.make_inst1 .bitcast [arg] ty).2.2 =
                  dfg1.value_types.length := rfl
              have hvlen : (dfg1.make_inst1 .bitcast [arg] ty).1.value_types.length =
                  dfg1.value_types.length + 1 := by
                rw [hvl]
                simp
              have happ := convert_wf_append hins
                ⟨by
                  intro w hw
                  rw [List.mem_singleton] at hw
                  subst hw
                  rw [hvlen]
                  omega,
                 by
                  intro w hw
                  rw [List.mem_singleton] at hw
                  subst hw
                  rw [hvlen]
                  omega⟩
                m1 (by rw [hvlen]; omega) p1 r1 (exts_len_le e1)
              rw [hi3, hres]
              refine ⟨?_, ?_, ?_, ?_, happ.1, happ.2.1, happ.2.2⟩
              · exact exts_trans e1 ⟨_, hins⟩
              · exact exts_trans e2 ⟨[ty], hvl⟩
              · rw [show (dfg1.make_inst1 .bitcast [arg] ty).1.signatures =
                  dfg1.signatures from rfl, es1]
              · rw [hvlen]
                omega
        · -- Sext
          rename_i abi_ty hcv
          split at h
          · exact Except.noConfusion h
          case _ dfg1 arg a1 l1 hr1 =>
            simp only [Except.ok.injEq, Prod.mk.injEq] at h
            obtain ⟨h1, h2, h3, h4⟩ := h
            subst h1
            subst h2
            subst h3
            subst h4
            obtain ⟨e1, e2, es1, hv1, m1, p1, r1⟩ := ih _ _ _ _ _ _ _ hr1
            have hins : (dfg1.make_inst1 .ireduce [arg] ty).1.insts =
                dfg1.insts ++ [⟨.ireduce, [arg], [dfg1.value_types.length]⟩] := rfl
            have hvl : (dfg1.make_inst1 .ireduce [arg] ty).1.value_types =
                dfg1.value_types ++ [ty] := rfl
            have hi3 : (dfg1.make_inst1 .ireduce [arg] ty).2.1 =
                dfg1.insts.length := rfl
            have hres : (dfg1.make_inst1 .ireduce [arg] ty).2.2 =
                dfg1.value_types.length := rfl
            have hvlen : (dfg1.make_inst1 .ireduce [arg] ty).1.value_types.length =
                dfg1.value_types.length + 1 := by
              rw [hvl]
              simp
            have happ := convert_wf_append hins
              ⟨by
                intro w hw
                rw [List.mem_singleton] at hw
                subst hw
                rw [hvlen]
                omega,
               by
                intro w hw
                rw [List.mem_singleton] at hw
                subst hw
                rw [hvlen]
                omega⟩
              m1 (by rw [hvlen]; omega) p1 r1 (exts_len_le e1)
            rw [hi3, hres]
            refine ⟨?_, ?_, ?_, ?_, happ.1, happ.2.1, happ.2.2⟩
            · exact exts_trans e1 ⟨_, hins⟩
            · exact exts_trans e2 ⟨[ty], hvl⟩
            · rw [show (dfg1.make_inst1 .ireduce [arg] ty).1.signatures =
                dfg1.signatures from rfl, es1]
            · rw [hvlen]
              omega
        · -- Uext
          rename_i abi_ty hcv
          split at h
          · exact Except.noConfusion h
          case _ dfg1 arg a1 l1 hr1 =>
            simp only [Except.ok.injEq, Prod.mk.injEq] at h
            obtain ⟨h1, h2, h3, h4⟩ := h
            subst h1
            subst h2
            subst h3
            subst h4
            obtain ⟨e1, e2, es1, hv1, m1, p1, r1⟩ := ih _ _ _ _ _ _ _ hr1
            have hins : (dfg1.make_inst1 .ireduce [arg] ty).1.insts =
                dfg1.insts ++ [⟨.ireduce, [arg], [dfg1.value_types.length]⟩] := rfl
            have hvl : (dfg1.make_inst1 .ireduce [arg] ty).1.value_types =
                dfg1.value_types ++ [ty] := rfl
            have hi3 : (dfg1.make_inst1 .ireduce [arg] ty).2.1 =
                dfg1.insts.length := rfl
            have hres : (dfg1.make_inst1 .ireduce [arg] ty).2.2 =
                dfg1.value_types.length := rfl
            have hvlen : (dfg1.make_inst1 .ireduce [arg] ty).1.value_types.length =
                dfg1.value_types.length + 1 := by
              rw [hvl]
              simp
            have happ := convert_wf_append hins
              ⟨by
                intro w hw
                rw [List.mem_singleton] at hw
                subst hw
                rw [hvlen]
                omega,
               by
                intro w hw
                rw [List.mem_singleton] at hw
                subst hw
                rw [hvlen]
                omega⟩
              m1 (by rw [hvlen]; omega) p1 r1 (exts_len_le e1)
            rw [hi3, hres]
            refine ⟨?_, ?_, ?_, ?_, happ.1, happ.2.1, happ.2.2⟩
            · exact exts_trans e1 ⟨_, hins⟩
            · exact exts_trans e2 ⟨[ty], hvl⟩
            · rw [show (dfg1.make_inst1 .ireduce [arg] ty).1.signatures =
                dfg1.signatures from rfl, es1]
            · rw [hvlen]
              omega

/-- The entry-argument walk only appends instructions and values, leaves the
signature table alone, keeps every instruction well-formed, and accumulates
fresh, strictly increasing instruction identities. -/
theorem entry_args_loop_wf (abi_types : List ArgumentType) (fuel : Nat) :
    ∀ (args : List Nat) (dfg : DFG) (abi_arg : Nat) (acc : List Nat)
      (dfg' : DFG) (a' : Nat) (acc' : List Nat),
      entry_args_loop abi_types fuel args dfg abi_arg acc = .ok (dfg', a', acc') →
      acc.Pairwise (· < ·) →
      (∀ j ∈ acc, j < dfg.insts.length) →
      ((∃ ext, dfg'.insts = dfg.insts ++ ext) ∧
       (∃ ext, dfg'.value_types = dfg.value_types ++ ext) ∧
       dfg'.signatures = dfg.signatures ∧
       (∀ dn ∈ dfg'.insts, dn ∈ dfg.insts ∨ InstRefsLt dn dfg'.value_types.length) ∧
       acc'.Pairwise (· < ·) ∧
       (∀ j ∈ acc', j < dfg'.insts.length) ∧
       (∀ j ∈ acc', j ∈ acc ∨ dfg.insts.length ≤ j)) := by
  intro args
  induction args with
  | nil =>
    intro dfg abi_arg acc dfg' a' acc' h hp hb
    simp only [entry_args_loop, Except.ok.injEq, Prod.mk.injEq] at h
    obtain ⟨h1, h2, h3⟩ := h
    subst h1
    subst h2
    subst h3
    exact ⟨⟨[], by simp⟩, ⟨[], by simp⟩, rfl, fun dn hdn => Or.inl hdn, hp, hb,
      fun j hj => Or.inl hj⟩
  | cons arg rest ih =>
    intro dfg abi_arg acc dfg' a' acc' h hp hb
    rw [entry_args_loop] at h
    split at h
    · exact Except.noConfusion h
    case _ at0 hat =>
      split at h
      · -- reattached without conversion
        have hih := ih { dfg with ebb_args := dfg.ebb_args ++ [arg] } (abi_arg + 1)
          acc dfg' a' acc' h hp hb
        exact hih
      · split at h
        · exact Except.noConfusion h
        case _ dfg1 converted abi_arg1 insts1 hcv =>
          obtain ⟨e1, e2, es1, hvlt, m1, p1, r1⟩ :=
            convert_from_abi_wf abi_types fuel dfg abi_arg (dfg.value_type arg) dfg1
              converted abi_arg1 insts1 hcv
          have hpp : (acc ++ insts1).Pairwise (· < ·) := by
            rw [List.pairwise_append]
            refine ⟨hp, p1, ?_⟩
            intro x hx y hy
            have h1 := hb x hx
            have h2 := (r1 y hy).1
            omega
          have hbb : ∀ j ∈ acc ++ insts1,
              j < ({ dfg1 with
                aliases := dfg1.aliases ++ [(arg, converted)] } : DFG).insts.length := by
            intro j hj
            show j < dfg1.insts.length
            rcases List.mem_append.mp hj with hj | hj
            · have h1 := hb j hj
              have h2 := exts_len_le e1
              omega
            · exact (r1 j hj).2
          obtain ⟨f1, f2, fs1, m2, p2, b2, fr2⟩ :=
            ih { dfg1 with aliases := dfg1.aliases ++ [(arg, converted)] } abi_arg1
              (acc ++ insts1) dfg' a' acc' h hpp hbb
          refine ⟨exts_trans e1 f1, exts_trans e2 f2, fs1.trans es1, ?_, p2, b2, ?_⟩
          · intro dn hdn
            rcases m2 dn hdn with h2 | h2
            · rcases m1 dn h2 with h3 | h3
              · exact Or.inl h3
              · exact Or.inr (instRefsLt_mono h3 (exts_len_le f2))
            · exact Or.inr h2
          · intro j hj
            rcases fr2 j hj with hj2 | hj2
            · rcases List.mem_append.mp hj2 with hj3 | hj3
              · exact Or.inl hj3
              · exact Or.inr (r1 j hj3).1
            · have h2 := exts_len_le e1
              right
              show dfg.insts.length ≤ j
              have h3 : dfg1.insts.length ≤ j := hj2
              omega

/-- Legalizing the entry arguments preserves well-formedness: the rebuilt
graph only extends the old one and the conversion code prepended to the
entry block consists of fresh, distinct instructions. -/
theorem legalize_entry_arguments_wf (fuel : Nat) (func f1 : Func)
    (h : legalize_entry_arguments fuel func = .ok f1) (hwf : FuncWF func) :
    FuncWF f1 := by
  unfold legalize_entry_arguments at h
  dsimp only at h
  split at h
  · exact Except.noConfusion h
  case _ dfg1 a1 newInsts hloop =>
    obtain ⟨e1, e2, es1, m1, p1, b1, fr1⟩ := entry_args_loop_wf
      func.signature.argument_types fuel func.dfg.ebb_args
      { func.dfg with ebb_args := [] } 0 [] dfg1 a1 newInsts hloop (by simp) (by simp)
    have hil : func.dfg.insts.length ≤ dfg1.insts.length := exts_len_le e1
    have hvl : func.dfg.value_types.length ≤ dfg1.value_types.length := exts_len_le e2
    have hvals : ∀ dn ∈ dfg1.insts,
        (∀ v ∈ dn.vlist, v < dfg1.value_types.length) ∧
        (∀ v ∈ dn.results, v < dfg1.value_types.length) := by
      intro dn hdn
      rcases m1 dn hdn with h2 | h2
      · have h3 := hwf.vals dn h2
        exact ⟨fun v hv => lt_of_lt_of_le (h3.1 v hv) hvl,
               fun v hv => lt_of_lt_of_le (h3.2 v hv) hvl⟩
      · exact h2
    split at h
    case _ hlay =>
      simp only [Except.ok.injEq] at h
      subst h
      refine ⟨hvals, ?_, hwf.nodup, lt_of_lt_of_le hwf.vpos hvl⟩
      intro blk2 hblk2 j hj
      exact lt_of_lt_of_le (hwf.layout_bound blk2 hblk2 j hj) hil
    case _ blk rest hlay =>
      simp only [Except.ok.injEq] at h
      subst h
      refine ⟨hvals, ?_, ?_, lt_of_lt_of_le hwf.vpos hvl⟩
      · intro blk2 hblk2 j hj
        show j < dfg1.insts.length
        rcases List.mem_cons.mp hblk2 with h2 | h2
        · subst h2
          rcases List.mem_append.mp hj with h3 | h3
          · exact b1 j h3
          · exact lt_of_lt_of_le
              (hwf.layout_bound blk (by rw [hlay]; exact List.mem_cons_self _ _) j h3)
              hil
        · exact lt_of_lt_of_le
            (hwf.layout_bound blk2 (by rw [hlay]; exact List.mem_cons_of_mem _ h2) j hj)
            hil
      · show ((newInsts ++ blk) :: rest).flatten.Nodup
        have hfl : ((newInsts ++ blk) :: rest).flatten =
            newInsts ++ (blk :: rest).flatten := by
          rw [List.flatten_cons, List.flatten_cons, List.append_assoc]
        rw [hfl, List.nodup_append]
        refine ⟨p1.imp Nat.ne_of_lt, by rw [← hlay]; exact hwf.nodup, ?_⟩
        intro n hn hmem
        obtain ⟨blk2, hblk2, hmem2⟩ := List.mem_flatten.mp hmem
        have h2 := hwf.layout_bound blk2 (by rw [hlay]; exact hblk2) n hmem2
        rcases fr1 n hn with h3 | h3
        · simp at h3
        · have h4 : func.dfg.insts.length ≤ n := h3
          omega

/-- Signature legalization (including the entry-argument rebuild when an
entry block exists) preserves well-formedness. -/
theorem legalize_signatures_wf (fuel : Nat) (isa : Isa) (func f1 : Func)
    (h : legalize_signatures fuel isa func = .ok f1) (hwf : FuncWF func) :
    FuncWF f1 := by
  unfold legalize_signatures at h
  dsimp only at h
  have hwf1 : FuncWF { func with
      signature := isa.legalize_signature func.signature,
      dfg := { func.dfg with
                signatures := func.dfg.signatures.map isa.legalize_signature } } :=
    ⟨hwf.vals, hwf.layout_bound, hwf.nodup, hwf.vpos⟩
  split at h
  · simp only [Except.ok.injEq] at h
    subst h
    exact hwf1
  · exact legalize_entry_arguments_wf fuel _ f1 h hwf1

/-- The invariant established by the complete pass: a normally completed
`legalize_function` leaves a well-formed function all of whose remaining
instructions satisfy the per-instruction postcondition. -/
theorem legalize_function_inv (isa : Isa) (fuel : Nat) (func f1 : Func)
    (hisa : IsaWF isa) (hwf : FuncWF func)
    (h : legalize_function isa fuel func = .ok f1) :
    FuncWF f1 ∧ ∀ blk ∈ f1.layout, ∀ i ∈ blk, InstGood isa f1 i := by
  unfold legalize_function at h
  split at h
  · exact RunResult.noConfusion h
  case _ func1 hsig =>
    have hwf1 : FuncWF func1 := legalize_signatures_wf fuel isa func func1 hsig hwf
    have hwf2 : FuncWF { func1 with encodings := fun _ => none } :=
      ⟨hwf1.vals, hwf1.layout_bound, hwf1.nodup, hwf1.vpos⟩
    refine run_inv isa hisa fuel _ 0 0 f1 h hwf2 ⟨?_, ?_⟩ ?_
    · intro b2 blk2 hlt
      exact absurd hlt (Nat.not_lt_zero b2)
    · intro blk2 hb2 idx i2 hidx
      exact absurd hidx (Nat.not_lt_zero idx)
    · intro j e hje
      exact Option.noConfusion hje

/-- The all-encoding target respects the engine interface discipline: its
engines never fire. -/
theorem isaAllOk_wf : IsaWF isaAllOk :=
  ⟨fun _ _ _ _ h => Option.noConfusion h, fun _ _ _ _ h => Option.noConfusion h⟩

/-- The single-instruction probe function is well-formed. -/
theorem funcW_wf : FuncWF funcW := by
  refine ⟨?_, ?_, ?_, ?_⟩ <;> decide

/-- The matching-call probe function is well-formed. -/
theorem funcCallOk_wf : FuncWF funcCallOk := by
  refine ⟨?_, ?_, ?_, ?_⟩ <;> decide

/-- C1 (amended): after `legalize_function` completes normally on a
well-formed function under a target whose rewrite engines respect the value
discipline, every instruction present in the final block layout either has
an encoding table entry — the one the encoder reports for it — or the
encoder reports it illegal and its designated rewrite engine reports no
change, in which case the instruction is left in the layout with no entry.
The pass's unconditional "every remaining instruction has exactly one
encoding entry" post-condition does not hold (see `encodings_not_total`). -/
theorem run_encodings_cover (isa : Isa) (fuel : Nat) (func f1 : Func)
    (hisa : IsaWF isa) (hwf : FuncWF func)
    (h : legalize_function isa fuel func = .ok f1) :
    ∀ blk ∈ f1.layout, ∀ i ∈ blk, ∃ d, f1.dfg.insts[i]? = some d ∧
      ((∃ enc, isa.encode d (instArgTys f1.dfg d) (instResTys f1.dfg d) = .ok enc ∧
          f1.encodings i = some enc) ∨
       ((∃ a, isa.encode d (instArgTys f1.dfg d) (instResTys f1.dfg d) = .error a ∧
          isa.engine a d (instArgTys f1.dfg d) (instResTys f1.dfg d) = none) ∧
        f1.encodings i = none)) := by
  intro blk hblk i hi
  obtain ⟨-, hall⟩ := legalize_function_inv isa fuel func f1 hisa hwf h
  obtain ⟨d, hd, -, -, hm⟩ := hall blk hblk i hi
  refine ⟨d, hd, ?_⟩
  cases he : isa.encode d (instArgTys f1.dfg d) (instResTys f1.dfg d) with
  | ok enc =>
    simp only [he] at hm
    exact Or.inl ⟨enc, rfl, hm⟩
  | error a =>
    simp only [he] at hm
    exact Or.inr ⟨⟨a, rfl, hm.1⟩, hm.2⟩

/-- Witness for `run_encodings_cover`: the complete pass on a concrete
single-instruction function under a target that encodes everything. -/
theorem run_encodings_cover_witness :
    ∃ f1, legalize_function isaAllOk 9 funcW = .ok f1 ∧
      ∀ blk ∈ f1.layout, ∀ i ∈ blk, ∃ d, f1.dfg.insts[i]? = some d ∧
        ((∃ enc, isaAllOk.encode d (instArgTys f1.dfg d) (instResTys f1.dfg d) =
              .ok enc ∧
            f1.encodings i = some enc) ∨
         ((∃ a, isaAllOk.encode d (instArgTys f1.dfg d) (instResTys f1.dfg d) =
              .error a ∧
            isaAllOk.engine a d (instArgTys f1.dfg d) (instResTys f1.dfg d) = none) ∧
          f1.encodings i = none)) :=
  ⟨_, rfl, run_encodings_cover isaAllOk 9 funcW _ isaAllOk_wf funcW_wf rfl⟩

/-- C4: after `legalize_function` completes normally on a well-formed
function under a disciplined target, every remaining call instruction's
argument type sequence equals its resolved signature's parameter type
sequence and its result type sequence equals the return type sequence, and
every remaining return instruction's returned value types equal the
function's own return types — element-wise and in length. -/
theorem legalized_calls_returns_match (isa : Isa) (fuel : Nat) (func f1 : Func)
    (hisa : IsaWF isa) (hwf : FuncWF func)
    (h : legalize_function isa fuel func = .ok f1) :
    ∀ blk ∈ f1.layout, ∀ i ∈ blk, ∀ d, f1.dfg.insts[i]? = some d →
      (∀ sr sig, d.opcode.sig_of = some sr → f1.dfg.signatures[sr]? = some sig →
        (callArgs d).map f1.dfg.value_type =
            sig.argument_types.map (fun t => t.value_type) ∧
          d.results.map f1.dfg.value_type =
            sig.return_types.map (fun t => t.value_type)) ∧
      (d.opcode.is_return = true →
        (d.vlist.drop d.opcode.fixed_value_arguments).map f1.dfg.value_type =
          f1.signature.return_types.map (fun t => t.value_type)) := by
  intro blk hblk i hi d hd
  obtain ⟨-, hall⟩ := legalize_function_inv isa fuel func f1 hisa hwf h
  obtain ⟨d2, hd2, hcall, hret, -⟩ := hall blk hblk i hi
  have hde : d2 = d := Option.some.inj (hd2.symm.trans hd)
  rw [hde] at hcall hret
  constructor
  · intro sr sig hsr hsig
    have hic : d.opcode.is_call = true := is_call_of_sig_of hsr
    have hchk := hcall hic
    unfold check_call_signature at hchk
    simp only [hsr, hsig] at hchk
    split at hchk
    case _ hcc =>
      rw [Bool.and_eq_true] at hcc
      exact ⟨(check_arg_types_iff f1.dfg _ _).mp hcc.1,
             (check_arg_types_iff f1.dfg _ _).mp hcc.2⟩
    · simp at hchk
  · intro hir
    exact (check_arg_types_iff f1.dfg _ _).mp (hret hir)

/-- Witness for `legalized_calls_returns_match`: the complete pass on a
concrete function holding one call that matches its signature. -/
theorem legalized_calls_returns_match_witness :
    ∃ f1, legalize_function isaAllOk 9 funcCallOk = .ok f1 ∧
      ∀ blk ∈ f1.layout, ∀ i ∈ blk, ∀ d, f1.dfg.insts[i]? = some d →
        (∀ sr sig, d.opcode.sig_of = some sr → f1.dfg.signatures[sr]? = some sig →
          (callArgs d).map f1.dfg.value_type =
              sig.argument_types.map (fun t => t.value_type) ∧
            d.results.map f1.dfg.value_type =
              sig.return_types.map (fun t => t.value_type)) ∧
        (d.opcode.is_return = true →
          (d.vlist.drop d.opcode.fixed_value_arguments).map f1.dfg.value_type =
            f1.signature.return_types.map (fun t => t.value_type)) :=
  ⟨_, rfl, legalized_calls_returns_match isaAllOk 9 funcCallOk _ isaAllOk_wf
    funcCallOk_wf rfl⟩

end Legalizer
